import Mathlib

/-!
# gauge `make.go`: the incremental file mirror and the staged build pipeline

A shallow embedding of `make.go` over an explicit model of the operating
system calls it issues, followed by the properties proved about it.

Modelling decisions (the operating system and the Go standard library are
not part of the repository, so they are modelled here):

* a path is the list of its components, already resolved against the working
  directory; `filepath.Join` is concatenation and `filepath.Dir` drops the
  last component;
* the file system is a finite association list from paths to nodes (regular
  file, directory, symbolic link, special file); hard links are not modelled;
* symbolic links are followed in the final path component only (at most
  `maxSymlinks` times); a path that passes *through* a symbolic link does not
  resolve;
* every state-changing call is recorded in a trace; the position in the trace
  indexes the environment `Env`, which may make any such call fail, may cut a
  byte copy short, and supplies the wall clock;
* `log.Fatalf` and `panic` terminate the process: they are results of their
  own (`Res.fatal`, `Res.panic`), distinct from a returned Go `error`;
* the recursion of `filepath.Walk` takes fuel; `mirrorDir_enough_fuel` shows
  that fuel beyond the length of the longest path is enough;
* the trace also holds one marker per `mirrorFile` call, which is how the
  statements about the walk count the calls.
-/

namespace Gauge

/-! ## Paths, times, modes -/

abbrev Path := List String

/-- The value of a Go `time.Time`, as seconds and nanoseconds since the epoch. -/
structure Time where
  sec : Int
  nsec : Nat
  deriving DecidableEq, Repr

/-- Go `Time.Unix()`: whole seconds since the epoch. -/
def Time.Unix (t : Time) : Int := t.sec

def epoch : Time := ⟨0, 0⟩

/-! Go `os.FileMode` bits (a `uint32`, kept as a natural number). -/

def ModeDir : Nat := 2 ^ 31
def ModeSymlink : Nat := 2 ^ 27
def ModeDevice : Nat := 2 ^ 26
def ModeNamedPipe : Nat := 2 ^ 25
def ModeSocket : Nat := 2 ^ 24
def ModeSetuid : Nat := 2 ^ 23
def ModeSetgid : Nat := 2 ^ 22
def ModeCharDevice : Nat := 2 ^ 21
def ModeSticky : Nat := 2 ^ 20
def ModeIrregular : Nat := 2 ^ 19
def ModePerm : Nat := 0o777

/-- Go `os.ModeType`: the mask of the file type bits. -/
def ModeType : Nat :=
  ModeDir ||| ModeSymlink ||| ModeNamedPipe ||| ModeSocket ||| ModeDevice |||
    ModeCharDevice ||| ModeIrregular

/-- The bits of a `FileMode` that `os.Chmod` transfers to the file and that
`os.Stat` reports back for it: permissions, setuid, setgid, sticky. -/
def chmodMask : Nat := ModePerm ||| ModeSetuid ||| ModeSetgid ||| ModeSticky

/-- Source: `isExecMode` (make.go 25-27). -/
def isExecMode (mode : Nat) : Bool := (mode &&& 0o111) != 0

/-! ## File system nodes -/

inductive Special
  | fifo
  | socket
  | device
  | charDevice
  deriving DecidableEq, Repr

def Special.bits : Special → Nat
  | .fifo => ModeNamedPipe
  | .socket => ModeSocket
  | .device => ModeDevice
  | .charDevice => ModeDevice ||| ModeCharDevice

inductive Node
  | file (perm : Nat) (data : List Nat) (mtime : Time)
  | dir (perm : Nat)
  | symlink (target : Path)
  | special (kind : Special) (perm : Nat)
  deriving DecidableEq, Repr

/-- What `os.Lstat` reports: the fields of `os.FileInfo` the program reads. -/
structure FileInfo where
  mode : Nat
  size : Int
  modTime : Time
  deriving DecidableEq, Repr

def FileInfo.Mode (fi : FileInfo) : Nat := fi.mode
def FileInfo.Size (fi : FileInfo) : Int := fi.size
def FileInfo.ModTime (fi : FileInfo) : Time := fi.modTime
def FileInfo.IsDir (fi : FileInfo) : Bool := (fi.mode &&& ModeDir) != 0

/-- The file information of a node. Modification times of directories,
symbolic links and special files are not modelled (reported as the epoch). -/
def Node.info : Node → FileInfo
  | .file perm data mtime => ⟨perm &&& chmodMask, (data.length : Int), mtime⟩
  | .dir perm => ⟨ModeDir ||| (perm &&& chmodMask), 0, epoch⟩
  | .symlink target => ⟨ModeSymlink ||| ModePerm, (target.length : Int), epoch⟩
  | .special kind perm => ⟨kind.bits ||| (perm &&& chmodMask), 0, epoch⟩

/-! ## The file system -/

abbrev FS := List (Path × Node)

def lookup : FS → Path → Option Node
  | [], _ => none
  | (q, n) :: rest, p => if q = p then some n else lookup rest p

def store : FS → Path → Node → FS
  | [], p, n => [(p, n)]
  | (q, m) :: rest, p, n => if q = p then (q, n) :: rest else (q, m) :: store rest p n

inductive Errno
  | ENOENT
  | ENOTDIR
  | EISDIR
  | EEXIST
  | ELOOP
  | ENODEV
  | EBADF
  | injected (code : Nat)
  deriving DecidableEq, Repr

/-- Go error values: `*os.PathError`, the result of `fmt.Errorf`, and the
error of a failed external command. -/
inductive Err
  | path (op : String) (path : Path) (errno : Errno)
  | errorf (msg : String)
  | exit (cmd : List String) (errno : Errno)
  deriving DecidableEq, Repr

instance decEqExcept {ε α : Type} [DecidableEq ε] [DecidableEq α] : DecidableEq (Except ε α)
  | .ok a, .ok b =>
    if h : a = b then isTrue (by rw [h]) else isFalse (by intro h1; cases h1; exact h rfl)
  | .error a, .error b =>
    if h : a = b then isTrue (by rw [h]) else isFalse (by intro h1; cases h1; exact h rfl)
  | .ok _, .error _ => isFalse (by intro h; cases h)
  | .error _, .ok _ => isFalse (by intro h; cases h)

def maxSymlinks : Nat := 40

/-- Resolution of symbolic links in the final component. -/
def follow (fs : FS) : Nat → Path → Except Errno Path
  | 0, _ => .error .ELOOP
  | k + 1, p =>
    match lookup fs p with
    | some (.symlink t) => follow fs k t
    | _ => .ok p

/-- Go `os.Lstat`. -/
def osLstat (fs : FS) (p : Path) : Except Err FileInfo :=
  match lookup fs p with
  | some n => .ok n.info
  | none => .error (.path "lstat" p .ENOENT)

/-- Go `os.Stat`: as `os.Lstat`, after following symbolic links. -/
def osStat (fs : FS) (p : Path) : Except Err FileInfo :=
  match follow fs maxSymlinks p with
  | .error e => .error (.path "stat" p e)
  | .ok q =>
    match lookup fs q with
    | some n => .ok n.info
    | none => .error (.path "stat" p .ENOENT)

/-- Go `filepath.Dir` on a resolved path. -/
def Dir (p : Path) : Path := p.dropLast

/-- Go `filepath.Join` on resolved paths. -/
def Join (a b : Path) : Path := a ++ b

/-- What is left of `targ` after the components of `base`, if `targ` lies at
or below `base`. -/
def relFrom : Path → Path → Option Path
  | [], targ => some targ
  | _ :: _, [] => none
  | b :: base, t :: targ => if b = t then relFrom base targ else none

def pathString (p : Path) : String := String.intercalate "/" p

/-- Go `filepath.Rel`, for the case the walk produces: the target lies at or
below the base, and the result is the remaining components (none for `.`).
Every other case is reported as an error. -/
def Rel (base targ : Path) : Except String Path :=
  match relFrom base targ with
  | some rel => .ok rel
  | none => .error ("Rel: can\x27t make " ++ pathString targ ++ " relative to " ++ pathString base)

/-! ## Worlds, traces, environments -/

inductive Event
  | mirrorFile (src dst : Path)
  | log (msg : String)
  | mkdirAll (p : Path) (perm : Nat)
  | create (p : Path)
  | openRead (p : Path)
  | copy (dst src : Path) (n : Nat)
  | close (p : Path)
  | chmod (p : Path) (mode : Nat)
  | chtimes (p : Path) (atime mtime : Time)
  | setenv (key : String) (value : Path)
  | run (dir : Path) (cmd : List String)
  deriving DecidableEq, Repr

structure World where
  fs : FS
  trace : List Event
  deriving DecidableEq, Repr

def World.emit (w : World) (e : Event) : World := { w with trace := w.trace ++ [e] }

/-- The environment of a run, indexed by the position of a call in the trace:
`fail` makes the call at that position fail, `short` stops the byte copy
issued at that position after so many bytes, `now` is the wall clock, `run`
is the effect of the external command started at that position. -/
structure Env where
  fail : Nat → Option Errno
  short : Nat → Option Nat
  now : Nat → Time
  umask : Nat
  run : Nat → List String → FS → FS
  cwd : Path

/-- How a function ends: it returns, or the process ends (`log.Fatalf`,
`panic`), or the model ran out of fuel. -/
inductive Res (α : Type)
  | ret (a : α)
  | fatal (msg : String)
  | panic (e : Err)
  | outOfFuel
  deriving DecidableEq, Repr

def applyUmask (umask perm : Nat) : Nat := perm ^^^ (perm &&& umask)

/-- Go `os.Mkdir` on the file system alone. -/
def mkdir (umask : Nat) (fs : FS) (p : Path) (perm : Nat) : Except Errno FS :=
  match lookup fs p with
  | some _ => .error .EEXIST
  | none =>
    if p = [] then .ok (store fs p (.dir (applyUmask umask perm)))
    else
      match lookup fs (Dir p) with
      | some (.dir _) => .ok (store fs p (.dir (applyUmask umask perm)))
      | some _ => .error .ENOTDIR
      | none => .error .ENOENT

/-- Go `os.MkdirAll` on the file system alone, by recursion on the reversed
path: stat the path; otherwise make the parent, then the directory itself.
The file system returned is the one reached, also when an error is. -/
def mkdirAllRev (umask perm : Nat) : List String → FS → FS × Option Errno
  | [], fs =>
    match osStat fs [] with
    | .ok fi => if fi.IsDir then (fs, none) else (fs, some .ENOTDIR)
    | .error _ =>
      match mkdir umask fs [] perm with
      | .ok fs1 => (fs1, none)
      | .error e => (fs, some e)
  | c :: rp, fs =>
    let p := (c :: rp).reverse
    match osStat fs p with
    | .ok fi => if fi.IsDir then (fs, none) else (fs, some .ENOTDIR)
    | .error _ =>
      match mkdirAllRev umask perm rp fs with
      | (fs1, some e) => (fs1, some e)
      | (fs1, none) =>
        match mkdir umask fs1 p perm with
        | .ok fs2 => (fs2, none)
        | .error e =>
          match osLstat fs1 p with
          | .ok fi => if fi.IsDir then (fs1, none) else (fs1, some e)
          | .error _ => (fs1, some e)

/-- Go `os.MkdirAll`. -/
def osMkdirAll (env : Env) (p : Path) (perm : Nat) (w : World) : Option Err × World :=
  let i := w.trace.length
  let w1 := w.emit (.mkdirAll p perm)
  match env.fail i with
  | some e => (some (.path "mkdir" p e), w1)
  | none =>
    match mkdirAllRev env.umask perm p.reverse w.fs with
    | (fs1, some e) => (some (.path "mkdir" p e), { w1 with fs := fs1 })
    | (fs1, none) => (none, { w1 with fs := fs1 })

/-- Go `os.Create`: open for writing, create if absent, truncate if present.
The handle returned is the resolved path of the file opened. -/
def osCreate (env : Env) (p : Path) (w : World) : Except Err Path × World :=
  let i := w.trace.length
  let w1 := w.emit (.create p)
  match env.fail i with
  | some e => (.error (.path "open" p e), w1)
  | none =>
    match follow w.fs maxSymlinks p with
    | .error e => (.error (.path "open" p e), w1)
    | .ok q =>
      match lookup w.fs q with
      | some (.file perm _ _) =>
        (.ok q, { w1 with fs := store w.fs q (.file perm [] (env.now i)) })
      | some (.dir _) => (.error (.path "open" p .EISDIR), w1)
      | some (.symlink _) => (.error (.path "open" p .ELOOP), w1)
      | some (.special .socket _) => (.error (.path "open" p .ENODEV), w1)
      | some (.special _ _) => (.ok q, w1)
      | none =>
        if q = [] then (.error (.path "open" p .EISDIR), w1)
        else
          match lookup w.fs (Dir q) with
          | some (.dir _) =>
            (.ok q, { w1 with
              fs := store w.fs q (.file (applyUmask env.umask 0o666) [] (env.now i)) })
          | some _ => (.error (.path "open" p .ENOTDIR), w1)
          | none => (.error (.path "open" p .ENOENT), w1)

/-- Go `os.Open`: open for reading. -/
def osOpen (env : Env) (p : Path) (w : World) : Except Err Path × World :=
  let i := w.trace.length
  let w1 := w.emit (.openRead p)
  match env.fail i with
  | some e => (.error (.path "open" p e), w1)
  | none =>
    match follow w.fs maxSymlinks p with
    | .error e => (.error (.path "open" p e), w1)
    | .ok q =>
      match lookup w.fs q with
      | some (.special .socket _) => (.error (.path "open" p .ENODEV), w1)
      | some _ => (.ok q, w1)
      | none => (.error (.path "open" p .ENOENT), w1)

/-- The bytes a read of the open file yields. -/
def readAll (fs : FS) (h : Path) : Except Errno (List Nat) :=
  match lookup fs h with
  | some (.file _ data _) => .ok data
  | some (.dir _) => .error .EISDIR
  | some (.special _ _) => .ok []
  | some (.symlink _) => .error .EBADF
  | none => .error .EBADF

/-- Writing bytes at offset zero of the open file. -/
def writeAt0 (fs : FS) (h : Path) (bytes : List Nat) (now : Time) : Except Errno FS :=
  match lookup fs h with
  | some (.file perm old _) =>
    if bytes = [] then .ok fs
    else .ok (store fs h (.file perm (bytes ++ old.drop bytes.length) now))
  | some (.special _ _) => .ok fs
  | some (.dir _) => .error .EBADF
  | some (.symlink _) => .error .EBADF
  | none => .error .EBADF

/-- Go `io.Copy(df, sf)`: returns the number of bytes copied and the first
error met. The environment can stop the copy early, with or without an error. -/
def ioCopy (env : Env) (df sf : Path) (w : World) : (Int × Option Err) × World :=
  let i := w.trace.length
  match readAll w.fs sf with
  | .error e => ((0, some (.path "read" sf e)), w.emit (.copy df sf 0))
  | .ok data =>
    let bytes := match env.short i with
      | some k => data.take k
      | none => data
    let w1 := w.emit (.copy df sf bytes.length)
    match writeAt0 w.fs df bytes (env.now i) with
    | .error e => ((0, some (.path "write" df e)), w1)
    | .ok fs1 =>
      match env.fail i with
      | some e => (((bytes.length : Int), some (.path "write" df e)), { w1 with fs := fs1 })
      | none => (((bytes.length : Int), none), { w1 with fs := fs1 })

/-- Go `(*os.File).Close`. -/
def fileClose (env : Env) (h : Path) (w : World) : Option Err × World :=
  let i := w.trace.length
  match env.fail i with
  | some e => (some (.path "close" h e), w.emit (.close h))
  | none => (none, w.emit (.close h))

/-- Go `os.Chmod`. -/
def osChmod (env : Env) (p : Path) (mode : Nat) (w : World) : Option Err × World :=
  let i := w.trace.length
  let w1 := w.emit (.chmod p mode)
  match env.fail i with
  | some e => (some (.path "chmod" p e), w1)
  | none =>
    match follow w.fs maxSymlinks p with
    | .error e => (some (.path "chmod" p e), w1)
    | .ok q =>
      match lookup w.fs q with
      | some (.file _ data mtime) =>
        (none, { w1 with fs := store w.fs q (.file (mode &&& chmodMask) data mtime) })
      | some (.dir _) => (none, { w1 with fs := store w.fs q (.dir (mode &&& chmodMask)) })
      | some (.special k _) =>
        (none, { w1 with fs := store w.fs q (.special k (mode &&& chmodMask)) })
      | some (.symlink _) => (some (.path "chmod" p .ELOOP), w1)
      | none => (some (.path "chmod" p .ENOENT), w1)

/-- Go `os.Chtimes`. -/
def osChtimes (env : Env) (p : Path) (atime mtime : Time) (w : World) : Option Err × World :=
  let i := w.trace.length
  let w1 := w.emit (.chtimes p atime mtime)
  match env.fail i with
  | some e => (some (.path "chtimes" p e), w1)
  | none =>
    match follow w.fs maxSymlinks p with
    | .error e => (some (.path "chtimes" p e), w1)
    | .ok q =>
      match lookup w.fs q with
      | some (.file perm data _) =>
        (none, { w1 with fs := store w.fs q (.file perm data mtime) })
      | some (.dir _) => (none, w1)
      | some (.special _ _) => (none, w1)
      | some (.symlink _) => (some (.path "chtimes" p .ELOOP), w1)
      | none => (some (.path "chtimes" p .ENOENT), w1)

/-! ## `mirrorFile` -/

/-- The message of the error built at make.go 64. -/
def wrongSizeMsg (src dst : Path) (n want : Int) : String :=
  "copied wrong size for " ++ pathString src ++ " -> " ++ pathString dst ++
    ": copied " ++ toString n ++ "; want " ++ toString want

/-- The message of `log.Fatalf` at make.go 35. -/
def nonRegularMsg (src : Path) : String :=
  "mirrorFile can\x27t deal with non-regular file " ++ pathString src

/-- Source: `mirrorFile` (make.go 29-77). The first event marks the entry
into the function; it is instrumentation, not a system call. -/
def mirrorFile (env : Env) (src dst : Path) (w0 : World) : Res (Option Err) × World :=
  let w := w0.emit (.mirrorFile src dst)
  match osStat w.fs src with
  | .error err => (.ret (some err), w)
  | .ok sfi =>
    if sfi.Mode &&& ModeType ≠ 0 then
      (.fatal (nonRegularMsg src), w)
    else
      let unmodified : Bool :=
        match osStat w.fs dst with
        | .error _ => false
        | .ok dfi =>
          (isExecMode sfi.Mode == isExecMode dfi.Mode) &&
            (dfi.Mode &&& ModeType == 0) &&
            (dfi.Size == sfi.Size) &&
            (dfi.ModTime.Unix == sfi.ModTime.Unix)
      if unmodified then (.ret none, w)
      else
        let dstDir := Dir dst
        match osMkdirAll env dstDir 0o755 w with
        | (some err, w1) => (.ret (some err), w1)
        | (none, w1) =>
          match osCreate env dst w1 with
          | (.error err, w2) => (.ret (some err), w2)
          | (.ok df, w2) =>
            match osOpen env src w2 with
            | (.error err, w3) => (.ret (some err), w3)
            | (.ok sf, w3) =>
              match ioCopy env df sf w3 with
              | ((n, err), w4) =>
                let err1 :=
                  if err = none ∧ n ≠ sfi.Size then
                    some (Err.errorf (wrongSizeMsg src dst n sfi.Size))
                  else err
                match fileClose env df w4 with
                | (cerr, w5) =>
                  let err2 := if err1 = none then cerr else err1
                  match (if err2 = none then osChmod env dst sfi.Mode w5 else (err2, w5)) with
                  | (err3, w6) =>
                    match (if err3 = none then osChtimes env dst sfi.ModTime sfi.ModTime w6
                      else (err3, w6)) with
                    | (err4, w7) => (.ret err4, w7.emit (.close sf))

/-! ## `filepath.Walk` and `mirrorDir` -/

/-- Lexicographic order on lists of character codes. -/
def lexLt : List Nat → List Nat → Bool
  | _, [] => false
  | [], _ :: _ => true
  | a :: as, b :: bs => decide (a < b) || (a == b && lexLt as bs)

def nameCode (s : String) : List Nat := s.toList.map Char.toNat

/-- The order in which Go sorts directory entries: by character codes. -/
def nameLt (c d : String) : Bool := lexLt (nameCode c) (nameCode d)

/-- Insertion into a strictly increasing list of names. -/
def insertName (c : String) : List String → List String
  | [] => [c]
  | d :: rest =>
    if nameLt c d then c :: d :: rest
    else if c = d then d :: rest
    else d :: insertName c rest

/-- The name under which `q` is an entry of the directory `p`, if it is one. -/
def childName (p q : Path) : Option String :=
  match q.getLast? with
  | some c => if q.dropLast = p then some c else none
  | none => none

/-- The names of the entries of a directory, in increasing order. -/
def readDirNames (fs : FS) (p : Path) : List String :=
  fs.foldr (fun e acc =>
    match childName p e.1 with
    | some c => insertName c acc
    | none => acc) []

/-- Go `filepath.WalkFunc`; the file information and the error reach the
function as one value. -/
abbrev WalkFunc := Path → Except Err FileInfo → World → Res (Option Err) × World

/-- The loop over the names of a directory inside `walk`; `walkRec` is the
recursive call. -/
def walkNames (walkRec : Path → FileInfo → World → Res (Option Err) × World)
    (walkFn : WalkFunc) (path : Path) : List String → World → Res (Option Err) × World
  | [], w => (.ret none, w)
  | name :: rest, w =>
    let filename := Join path [name]
    match osLstat w.fs filename with
    | .error err =>
      match walkFn filename (.error err) w with
      | (.ret none, w1) => walkNames walkRec walkFn path rest w1
      | other => other
    | .ok fileInfo =>
      match walkRec filename fileInfo w with
      | (.ret none, w1) => walkNames walkRec walkFn path rest w1
      | other => other

/-- Go `filepath.walk`, with fuel for the depth of the recursion. The walk
functions of this program never return `filepath.SkipDir`. -/
def walk (walkFn : WalkFunc) : Nat → Path → FileInfo → World → Res (Option Err) × World
  | 0, _, _, w => (.outOfFuel, w)
  | k + 1, path, info, w =>
    if !info.IsDir then walkFn path (.ok info) w
    else
      let names := readDirNames w.fs path
      match walkFn path (.ok info) w with
      | (.ret none, w1) => walkNames (walk walkFn k) walkFn path names w1
      | other => other

/-- Go `filepath.Walk`. -/
def Walk (fuel : Nat) (root : Path) (walkFn : WalkFunc) (w : World) :
    Res (Option Err) × World :=
  match osLstat w.fs root with
  | .error err => walkFn root (.error err) w
  | .ok info => walk walkFn fuel root info w

def relFailedMsg (src path : Path) (e : String) : String :=
  "Failed to find Rel(\"" ++ pathString src ++ "\", \"" ++ pathString path ++ "\"): " ++ e

/-- The function literal passed to `filepath.Walk` (make.go 81-93). -/
def mirrorDirFn (env : Env) (src dst : Path) : WalkFunc := fun path r w =>
  match r with
  | .error err => (.ret (some err), w)
  | .ok fi =>
    if fi.IsDir then (.ret none, w)
    else
      match Rel src path with
      | .error e => (.ret (some (.errorf (relFailedMsg src path e))), w)
      | .ok suffix => mirrorFile env path (Join dst suffix) w

def copyingMsg (src dst : Path) : String :=
  "Copying \x27" ++ pathString src ++ "\x27 -> \x27" ++ pathString dst ++ "\x27\n"

/-- Source: `mirrorDir` (make.go 79-95). -/
def mirrorDir (env : Env) (fuel : Nat) (src dst : Path) (w : World) :
    Res (Option Err) × World :=
  let w1 := w.emit (.log (copyingMsg src dst))
  Walk fuel src (mirrorDirFn env src dst) w1

/-! ## The build stages -/

def DEPS_DIR : Path := ["deps"]
def BUILD_DIR : Path := ["tmp"]
def BUILD_DIR_BIN : Path := Join BUILD_DIR ["bin"]
def BUILD_DIR_SRC : Path := Join BUILD_DIR ["src"]
def BUILD_DIR_PKG : Path := Join BUILD_DIR ["pkg"]

def gaugePackages : List String := ["common"]
def gaugeExecutables : List String := ["gauge", "gauge-java"]

/-- A path of the program text, resolved against the working directory. -/
def inCwd (env : Env) (p : Path) : Path := env.cwd ++ p

/-- The statement `if err != nil { panic(err) }`. -/
def orPanic : Res (Option Err) × World → Res Unit × World
  | (.ret none, w) => (.ret (), w)
  | (.ret (some e), w) => (.panic e, w)
  | (.fatal m, w) => (.fatal m, w)
  | (.panic e, w) => (.panic e, w)
  | (.outOfFuel, w) => (.outOfFuel, w)

/-- Sequencing of two statements: the second runs if the first returned. -/
def andThen (r : Res Unit × World) (next : World → Res Unit × World) : Res Unit × World :=
  match r with
  | (.ret (), w) => next w
  | other => other

/-- A `for ... range` loop whose body may end the process. -/
def forEach (body : String → World → Res Unit × World) : List String → World → Res Unit × World
  | [], w => (.ret (), w)
  | p :: rest, w => andThen (body p w) (forEach body rest)

/-- Source: `createGoPathForBuild` (make.go 97-112). -/
def createGoPathForBuild (env : Env) (w : World) : Res Unit × World :=
  andThen (orPanic (Prod.map Res.ret id (osMkdirAll env (inCwd env BUILD_DIR_SRC) 0o755 w)))
    fun w1 =>
  andThen (orPanic (Prod.map Res.ret id (osMkdirAll env (inCwd env BUILD_DIR_BIN) 0o755 w1)))
    fun w2 =>
  orPanic (Prod.map Res.ret id (osMkdirAll env (inCwd env BUILD_DIR_PKG) 0o755 w2))

/-- Source: `copyDepsToGoPath` (make.go 114-119). -/
def copyDepsToGoPath (env : Env) (fuel : Nat) (w : World) : Res Unit × World :=
  orPanic (mirrorDir env fuel (inCwd env DEPS_DIR) (inCwd env BUILD_DIR_SRC) w)

/-- Source: `copyGaugePackagesToGoPath` (make.go 121-134). -/
def copyGaugePackagesToGoPath (env : Env) (fuel : Nat) (w : World) : Res Unit × World :=
  andThen
    (forEach (fun p w1 =>
      orPanic (mirrorDir env fuel (inCwd env [p]) (inCwd env (Join BUILD_DIR_SRC [p])) w1))
      gaugePackages w)
    (forEach (fun p w1 =>
      orPanic (mirrorDir env fuel (inCwd env [p]) (inCwd env (Join BUILD_DIR_SRC [p])) w1))
      gaugeExecutables)

/-- Go `os.Setenv` of a variable holding a path. -/
def osSetenv (env : Env) (key : String) (value : Path) (w : World) : Option Err × World :=
  let i := w.trace.length
  match env.fail i with
  | some e => (some (.path "setenv" value e), w.emit (.setenv key value))
  | none => (none, w.emit (.setenv key value))

/-- Go `(*exec.Cmd).Run`: the command runs to completion in directory `dir`;
what it does to the file system and whether it fails is up to the environment. -/
def cmdRun (env : Env) (dir : Path) (cmd : List String) (w : World) : Option Err × World :=
  let i := w.trace.length
  let w1 : World := { fs := env.run i cmd w.fs, trace := w.trace ++ [.run dir cmd] }
  match env.fail i with
  | some e => (some (.exit cmd e), w1)
  | none => (none, w1)

def executeMsg (args : List String) : String :=
  "Execute [" ++ String.intercalate " " args ++ "]\n"

/-- Source: `compilePackages` (make.go 136-161). -/
def compilePackages (env : Env) (w : World) : Res Unit × World :=
  let absBuildDir := inCwd env BUILD_DIR
  let w1 := w.emit (.log ("GOPATH = " ++ pathString absBuildDir ++ "\n"))
  andThen (orPanic (Prod.map Res.ret id (osSetenv env "GOPATH" absBuildDir w1))) fun w2 =>
  let args := ["install", "-v"] ++ gaugeExecutables
  let w3 := w2.emit (.log (executeMsg ("go" :: args)))
  orPanic (Prod.map Res.ret id (cmdRun env (inCwd env BUILD_DIR) ("go" :: args) w3))

/-- Source: `compileJavaClasses` (make.go 163-173). -/
def compileJavaClasses (env : Env) (w : World) : Res Unit × World :=
  let w1 := w.emit (.log (executeMsg ["ant", "jar"]))
  orPanic (Prod.map Res.ret id (cmdRun env (inCwd env ["gauge-java"]) ["ant", "jar"] w1))

/-- Source: `runTests` (make.go 175-186). -/
def runTests (env : Env) (packageName : String) (w : World) : Res Unit × World :=
  let w1 := w.emit (.log (executeMsg ["go", "test", packageName]))
  orPanic (Prod.map Res.ret id (cmdRun env (inCwd env BUILD_DIR) ["go", "test", packageName] w1))

/-- Source: `copyBinaries` (make.go 188-205). -/
def copyBinaries (env : Env) (fuel : Nat) (w : World) : Res Unit × World :=
  andThen (orPanic (Prod.map Res.ret id (osMkdirAll env (inCwd env ["bin"]) 0o755 w))) fun w1 =>
  andThen (orPanic (mirrorDir env fuel (inCwd env BUILD_DIR_BIN) (inCwd env ["bin"]) w1))
    fun w2 =>
  let absBin := inCwd env ["bin"]
  (.ret (), w2.emit (.log ("Binaries are available at: " ++ pathString absBin ++ "\n")))

/-- Source: `installGaugeFiles` (make.go 207-213). -/
def installGaugeFiles (env : Env) (installPrefix : Path) (w : World) : Res Unit × World :=
  let installBin := Join installPrefix ["bin"]
  orPanic (mirrorFile env (inCwd env ["bin", "gauge"]) (Join installBin ["gauge"]) w)

/-- Source: `installGaugeJavaFiles` (make.go 215-221). -/
def installGaugeJavaFiles (env : Env) (installPrefix : Path) (w : World) : Res Unit × World :=
  let installBin := Join installPrefix ["bin"]
  orPanic (mirrorFile env (inCwd env ["bin", "gauge-java"]) installBin w)

/-- The command line flags (make.go 223-225). The value of `-prefix` is
`none` for the empty string and the resolved path it names otherwise. -/
structure Flags where
  test : Bool
  install : Bool
  installPrefix : Option Path

/-- Source: `main` (make.go 227-245). -/
def main (env : Env) (fuel : Nat) (flags : Flags) (w : World) : Res Unit × World :=
  if flags.test then runTests env "gauge" w
  else if flags.install then
    let installPrefix :=
      match flags.installPrefix with
      | none => ["usr", "local"]
      | some p => p
    andThen (installGaugeFiles env installPrefix w) fun w1 =>
    installGaugeJavaFiles env installPrefix w1
  else
    andThen (createGoPathForBuild env w) fun w1 =>
    andThen (copyDepsToGoPath env fuel w1) fun w2 =>
    andThen (copyGaugePackagesToGoPath env fuel w2) fun w3 =>
    andThen (compilePackages env w3) fun w4 =>
    andThen (compileJavaClasses env w4) fun w5 =>
    copyBinaries env fuel w5

/-! ## Predicates used in the statements -/

/-- The two file systems have the same symbolic links. -/
def SameLinks (fs fs1 : FS) : Prop :=
  ∀ p t, lookup fs1 p = some (.symlink t) ↔ lookup fs p = some (.symlink t)

/-- At `p`, `fs1` is `fs`, or `p` is a directory made on the way to `target`
that `fs` did not have. -/
def KeptOrMade (fs fs1 : FS) (target p : Path) : Prop :=
  lookup fs1 p = lookup fs p ∨
    (lookup fs p = none ∧ p <+: target ∧ ∃ perm, lookup fs1 p = some (.dir perm))

/-- The mirror pair relation of the specification: the destination exists, is
a regular file, and has the size, the executable-bit state and the whole-second
modification time of the source. It is also the test of make.go 38-42 under
which the copy is skipped. -/
def MirrorPair (fs : FS) (src dst : Path) : Bool :=
  match osStat fs src, osStat fs dst with
  | .ok sfi, .ok dfi =>
    (dfi.Mode &&& ModeType == 0) && (dfi.Size == sfi.Size) &&
      (isExecMode dfi.Mode == isExecMode sfi.Mode) &&
      (dfi.ModTime.Unix == sfi.ModTime.Unix)
  | _, _ => false

/-- Regular files and directories. -/
def Node.isPlain : Node → Bool
  | .file _ _ _ => true
  | .dir _ => true
  | _ => false

/-- Every entry of the file system at or below `root` is a regular file or a
directory. -/
def Plain (fs : FS) (root : Path) : Bool :=
  fs.all fun e => !(root.isPrefixOf e.1) || e.2.isPlain

def IsFile (fs : FS) (q : Path) : Prop := ∃ perm data mtime, lookup fs q = some (.file perm data mtime)

/-- The path `p ++ rel` is reached from `p` through directories only. -/
def Reaches (fs : FS) (p rel : Path) : Prop :=
  ∀ r, r <+: rel → r ≠ rel → ∃ perm, lookup fs (p ++ r) = some (.dir perm)

/-- What holds during a walk of `mirrorDir src dst` started in `fs0`: the
source tree is as in `fs0`, and everything at or below `dst` is plain. -/
def WalkInv (src dst : Path) (fs0 fs : FS) : Prop :=
  (∀ q, src <+: q → lookup fs q = lookup fs0 q) ∧
    (∀ q n, dst <+: q → lookup fs q = some n → n.isPlain = true)

/-- The events that are system calls of the file mirror. -/
def Event.isSys : Event → Bool
  | .mkdirAll _ _ => true
  | .create _ => true
  | .openRead _ => true
  | .copy _ _ _ => true
  | .close _ => true
  | .chmod _ _ => true
  | .chtimes _ _ _ => true
  | _ => false

/-- The `mirrorFile` calls recorded in a trace, in order. -/
def calls : List Event → List (Path × Path)
  | [] => []
  | .mirrorFile a b :: rest => (a, b) :: calls rest
  | _ :: rest => calls rest

/-- The external commands recorded in a trace, in order. -/
def runs : List Event → List (List String)
  | [] => []
  | .run _ cmd :: rest => cmd :: runs rest
  | _ :: rest => runs rest

/-- What a part of the walk of `mirrorDir src dst` from `w` to `w1` has done:
the invariant holds in `w1`, pairs that were mirrored in `w` still are, and
`mirrorFile` has been called once for each relative path with `P`, and for
nothing else, and each of those pairs is mirrored in `w1`. -/
def Visited (src dst : Path) (fs0 : FS) (w w1 : World) (P : Path → Prop) : Prop :=
  WalkInv src dst fs0 w1.fs ∧
    (∀ r, MirrorPair w.fs (src ++ r) (dst ++ r) = true →
      MirrorPair w1.fs (src ++ r) (dst ++ r) = true) ∧
    ∃ evs, w1.trace = w.trace ++ evs ∧ (calls evs).Nodup ∧
      (∀ a b, (a, b) ∈ calls evs ↔ ∃ rel, a = src ++ rel ∧ b = dst ++ rel ∧ P rel) ∧
      (∀ rel, P rel → MirrorPair w1.fs (src ++ rel) (dst ++ rel) = true)

/-- From `w` to `w1` the trace grows, by no external command. -/
def NoRun (w w1 : World) : Prop := ∃ evs, w1.trace = w.trace ++ evs ∧ runs evs = []

def goInstall : List String := ["go", "install", "-v", "gauge", "gauge-java"]
def antJar : List String := ["ant", "jar"]

/-- One stage of a pipeline whose overall outcome is `m`: started in world
`w`, the stage ends with result `r` in world `w1`, having added `evs` to the
trace; the commands it ran satisfy `cmds`; if the stage did not return, the
pipeline ended there, with that result and in that world; if it returned,
`rest` describes what follows from `w1`. -/
def Staged (m : Res Unit × World) (stage : World → Res Unit × World) (w : World)
    (cmds : Res Unit → List (List String) → Prop) (rest : World → Prop) : Prop :=
  ∃ r w1 evs, stage w = (r, w1) ∧ w1.trace = w.trace ++ evs ∧ cmds r (runs evs) ∧
    ((r ≠ .ret () ∧ m = (r, w1)) ∨ (r = .ret () ∧ rest w1))

/-- The call `os.MkdirAll(p, 0755)` of a stage, as a step. -/
def mkdirStep (env : Env) (p : Path) (w : World) : Res (Option Err) × World :=
  Prod.map Res.ret id (osMkdirAll env p 0o755 w)

/-- The log line and the call `os.Setenv("GOPATH", absBuildDir)` of make.go
141-142, as a step. -/
def setenvStep (env : Env) (w : World) : Res (Option Err) × World :=
  Prod.map Res.ret id
    (osSetenv env "GOPATH" (inCwd env BUILD_DIR)
      (w.emit (.log ("GOPATH = " ++ pathString (inCwd env BUILD_DIR) ++ "\n"))))

/-- The log line and the call `cmd.Run()` of an external command started in
directory `dir`, as a step. -/
def runStep (env : Env) (dir : Path) (cmd : List String) (w : World) :
    Res (Option Err) × World :=
  Prod.map Res.ret id (cmdRun env dir cmd (w.emit (.log (executeMsg cmd))))

/-- One step of a pipeline that started in world `w0` and whose overall
outcome is `m`. Started in world `w`, the step ends with result `r` in world
`w1`. Since the start of the pipeline the external commands `ran ++ cmds` have
been run, `cmds` of them by this step. If the step returned a nil error, `rest`
describes what follows from `w1`. If it returned an error, the pipeline has
ended in `w1` with a panic on that error, and if the step ended the process
(or the model ran out of fuel), the pipeline has ended in `w1` the same way:
in both cases nothing follows. -/
def Step (m : Res Unit × World) (w0 : World) (ran : List (List String))
    (step : World → Res (Option Err) × World) (w : World) (cmds : List (List String))
    (rest : World → Prop) : Prop :=
  ∃ r w1 evs, step w = (r, w1) ∧ w1.trace = w0.trace ++ evs ∧ runs evs = ran ++ cmds ∧
    match r with
    | .ret none => rest w1
    | .ret (some e) => m = (.panic e, w1)
    | .fatal msg => m = (.fatal msg, w1)
    | .panic e => m = (.panic e, w1)
    | .outOfFuel => m = (.outOfFuel, w1)

/-- The bytes of the regular file a path resolves to. -/
def fileContent (fs : FS) (p : Path) : Option (List Nat) :=
  match follow fs maxSymlinks p with
  | .error _ => none
  | .ok q =>
    match lookup fs q with
    | some (.file _ data _) => some data
    | _ => none

/-! ## Concrete inputs -/

/-- An environment in which no call fails and no copy is cut short. -/
def quiet : Env :=
  { fail := fun _ => none, short := fun _ => none, now := fun i => ⟨1000 + i, 0⟩,
    umask := 0o022, run := fun _ _ fs => fs, cwd := ["proj"] }

/-- As `quiet`, but every byte copy stops after one byte. -/
def oneByte : Env := { quiet with short := fun _ => some 1 }

/-- As `quiet`, but the call at trace position 5 fails. -/
def failsAt5 : Env :=
  { quiet with fail := fun i => if i = 5 then some (.injected 2) else none }

/-- As `quiet`, but the calls at trace positions 4 and 5 fail. -/
def failsAt45 : Env :=
  { quiet with
    fail := fun i =>
      if i = 4 then some (.injected 1) else if i = 5 then some (.injected 2) else none }

def disk : FS :=
  [([], .dir 0o755), (["proj"], .dir 0o755), (["proj", "bin"], .dir 0o755),
   (["proj", "bin", "gauge"], .file 0o755 [1, 2, 3] ⟨5, 7⟩),
   (["proj", "bin", "gauge-java"], .file 0o755 [1, 2, 3, 4] ⟨5, 7⟩),
   (["proj", "deps"], .dir 0o755),
   (["proj", "deps", "x"], .dir 0o755),
   (["proj", "deps", "x", "b.go"], .file 0o644 [1] ⟨5, 7⟩),
   (["proj", "deps", "x", "a.go"], .file 0o644 [1] ⟨5, 7⟩),
   (["proj", "deps", "y.go"], .file 0o644 [1] ⟨5, 7⟩),
   (["proj", "pipe"], .special .fifo 0o644),
   (["proj", "link"], .symlink ["proj", "bin", "gauge"]),
   (["dev"], .dir 0o755),
   (["dev", "null"], .special .charDevice 0o666)]

def start : World := ⟨disk, []⟩

def gaugeBin : Path := ["proj", "bin", "gauge"]
def gaugeInfo : FileInfo := ⟨0o755, 3, ⟨5, 7⟩⟩
def devNull : Path := ["dev", "null"]
def outFile : Path := ["out", "gauge"]

def pipe : Path := ["proj", "pipe"]
def pipeInfo : FileInfo := ⟨ModeNamedPipe ||| 0o644, 0, epoch⟩
def link : Path := ["proj", "link"]

/-- The worlds a copy of `gaugeBin` to `outFile` passes through from `start`. -/
def afterMkdir (env : Env) : World :=
  (osMkdirAll env (Dir outFile) 0o755 (start.emit (.mirrorFile gaugeBin outFile))).2
def afterCreate (env : Env) : World := (osCreate env outFile (afterMkdir env)).2
def afterOpen (env : Env) : World := (osOpen env gaugeBin (afterCreate env)).2
def afterCopy (env : Env) : World := (ioCopy env outFile gaugeBin (afterOpen env)).2
def afterClose (env : Env) : World := (fileClose env outFile (afterCopy env)).2

/-- A source tree `/a/b` that lies inside the destination `/a`. -/
def nested : World :=
  ⟨[([], .dir 0o755), (["a"], .dir 0o755), (["a", "b"], .dir 0o755),
    (["a", "b", "b"], .dir 0o755), (["a", "b", "b", "f"], .file 0o644 [7] ⟨5, 7⟩)], []⟩

def deps : Path := ["proj", "deps"]
def workSrc : Path := ["proj", "tmp", "src"]

/-- The length of the longest path of the file system. -/
def maxDepth : FS → Nat
  | [] => 0
  | e :: rest => max e.1.length (maxDepth rest)

/-- The world after `gaugeBin` has been mirrored to `outFile`. -/
def mirroredOnce : World := (mirrorFile quiet gaugeBin outFile start).2

/-- As `mirroredOnce`, with other bytes in `gaugeBin`: same size, same time. -/
def edited : World :=
  { mirroredOnce with fs := store mirroredOnce.fs gaugeBin (.file 0o755 [9, 9, 9] ⟨5, 7⟩) }

/-- As `mirroredOnce`, with `gaugeBin` rewritten: other size, later time. -/
def rewritten : World :=
  { mirroredOnce with fs := store mirroredOnce.fs gaugeBin (.file 0o755 [9, 9, 9, 9] ⟨8, 0⟩) }

/-! ## The file system: lookup after store -/

theorem lookup_store (fs : FS) (p q : Path) (n : Node) :
    lookup (store fs p n) q = if p = q then some n else lookup fs q := by
  induction fs with
  | nil => simp [store, lookup]
  | cons e rest ih =>
    obtain ⟨k, m⟩ := e
    by_cases hk : k = p
    · subst hk
      by_cases hq : k = q <;> simp [store, lookup, hq]
    · by_cases hq : k = q
      · subst hq
        have : ¬ p = k := fun h => hk h.symm
        simp [store, lookup, hk, this]
      · simp [store, lookup, hk, hq, ih]

theorem lookup_store_same (fs : FS) (p : Path) (n : Node) :
    lookup (store fs p n) p = some n := by
  simp [lookup_store]

theorem lookup_store_ne (fs : FS) (p q : Path) (n : Node) (h : p ≠ q) :
    lookup (store fs p n) q = lookup fs q := by
  simp [lookup_store, h]

/-! ## Mode bits -/

theorem chmodMask_type : chmodMask &&& ModeType = 0 := by decide

theorem file_mode_regular (perm : Nat) : (perm &&& chmodMask) &&& ModeType = 0 := by
  rw [Nat.land_assoc, chmodMask_type, Nat.and_zero]

theorem land_chmodMask_idem (m : Nat) : (m &&& chmodMask) &&& chmodMask = m &&& chmodMask := by
  rw [Nat.land_assoc, Nat.and_self]

theorem or_land_ne_zero (a x m i : Nat) (ha : a.testBit i = true) (hm : m.testBit i = true) :
    (a ||| x) &&& m ≠ 0 := by
  intro h
  have h1 : ((a ||| x) &&& m).testBit i = true := by
    rw [Nat.testBit_and, Nat.testBit_or, ha, hm]
    simp
  rw [h] at h1
  simp at h1

theorem dir_mode_type (x : Nat) : (ModeDir ||| x) &&& ModeType ≠ 0 :=
  or_land_ne_zero _ _ _ 31 (by decide) (by decide)

theorem symlink_mode_type (x : Nat) : (ModeSymlink ||| x) &&& ModeType ≠ 0 :=
  or_land_ne_zero _ _ _ 27 (by decide) (by decide)

theorem special_mode_type (k : Special) (x : Nat) : (k.bits ||| x) &&& ModeType ≠ 0 := by
  cases k
  · exact or_land_ne_zero _ _ _ 25 (by decide) (by decide)
  · exact or_land_ne_zero _ _ _ 24 (by decide) (by decide)
  · exact or_land_ne_zero _ _ _ 26 (by decide) (by decide)
  · exact or_land_ne_zero _ _ _ 26 (by decide) (by decide)

/-- A node whose file information has no type bit is a regular file. -/
theorem info_regular_iff (n : Node) :
    n.info.mode &&& ModeType = 0 ↔ ∃ perm data mtime, n = .file perm data mtime := by
  cases n with
  | file perm data mtime => simp [Node.info, file_mode_regular]
  | dir perm => simp [Node.info, dir_mode_type]
  | symlink t => simp [Node.info, symlink_mode_type]
  | special k perm => simp [Node.info, special_mode_type]

/-! ## Unfolding `mirrorFile` -/

/-- The test of make.go 38-42 on the two file informations. -/
theorem mirrorFile_skip (env : Env) (src dst : Path) (w0 : World) (sfi dfi : FileInfo)
    (hs : osStat w0.fs src = .ok sfi) (hreg : sfi.Mode &&& ModeType = 0)
    (hd : osStat w0.fs dst = .ok dfi)
    (h1 : isExecMode sfi.Mode = isExecMode dfi.Mode) (h2 : dfi.Mode &&& ModeType = 0)
    (h3 : dfi.Size = sfi.Size) (h4 : dfi.ModTime.Unix = sfi.ModTime.Unix) :
    mirrorFile env src dst w0 = (.ret none, w0.emit (.mirrorFile src dst)) := by
  unfold mirrorFile
  simp only [World.emit, hs, hd, hreg, h1, h2, h3, h4]
  simp

theorem mirrorFile_ret_none (env : Env) (src dst : Path) (w0 w9 : World)
    (h : mirrorFile env src dst w0 = (.ret none, w9)) :
    ∃ sfi, osStat w0.fs src = .ok sfi ∧ sfi.Mode &&& ModeType = 0 ∧
      ((∃ dfi, osStat w0.fs dst = .ok dfi ∧ isExecMode sfi.Mode = isExecMode dfi.Mode ∧
          dfi.Mode &&& ModeType = 0 ∧ dfi.Size = sfi.Size ∧
          dfi.ModTime.Unix = sfi.ModTime.Unix ∧ w9 = w0.emit (.mirrorFile src dst)) ∨
       ((∀ dfi, osStat w0.fs dst = .ok dfi →
            ¬ (isExecMode sfi.Mode = isExecMode dfi.Mode ∧ dfi.Mode &&& ModeType = 0 ∧
              dfi.Size = sfi.Size ∧ dfi.ModTime.Unix = sfi.ModTime.Unix)) ∧
        ∃ w1 df w2 sf w3 w4 w5 w6 w7,
          osMkdirAll env (Dir dst) 0o755 (w0.emit (.mirrorFile src dst)) = (none, w1) ∧
          osCreate env dst w1 = (.ok df, w2) ∧
          osOpen env src w2 = (.ok sf, w3) ∧
          ioCopy env df sf w3 = ((sfi.Size, none), w4) ∧
          fileClose env df w4 = (none, w5) ∧
          osChmod env dst sfi.Mode w5 = (none, w6) ∧
          osChtimes env dst sfi.ModTime sfi.ModTime w6 = (none, w7) ∧
          w9 = w7.emit (.close sf))) := by
  unfold mirrorFile at h
  simp only [World.emit] at h
  split at h
  · simp at h
  · rename_i sfi hs
    refine ⟨sfi, hs, ?_⟩
    split at h
    · simp at h
    · rename_i hreg
      simp only [ne_eq, Decidable.not_not] at hreg
      refine ⟨hreg, ?_⟩
      split at h
      · left
        rename_i hun
        split at hun
        · simp at hun
        · rename_i dfi hd
          simp only [Bool.and_eq_true, beq_iff_eq] at hun
          obtain ⟨⟨⟨a, b⟩, c⟩, d⟩ := hun
          refine ⟨dfi, hd, a, b, c, d, ?_⟩
          simp at h
          simp [World.emit, h]
      · right
        rename_i hun
        refine ⟨?_, ?_⟩
        · intro dfi hd hc
          apply hun
          simp only [hd]
          simp [hc.1, hc.2.1, hc.2.2.1, hc.2.2.2]
        clear hun
        split at h
        · simp at h
        · rename_i w1 hmk
          split at h
          · simp at h
          · rename_i df w2 hcr
            split at h
            · simp at h
            · rename_i sf w3 hop
              generalize hc : ioCopy env df sf w3 = rc at h
              obtain ⟨⟨n, err⟩, w4⟩ := rc
              generalize hcl : fileClose env df w4 = rcl at h
              obtain ⟨cerr, w5⟩ := rcl
              rcases err with _ | e
              · by_cases hn : n = sfi.Size
                · subst hn
                  rcases cerr with _ | ce
                  · generalize hch : osChmod env dst sfi.Mode w5 = rch at h
                    obtain ⟨err3, w6⟩ := rch
                    rcases err3 with _ | e3
                    · generalize hct : osChtimes env dst sfi.ModTime sfi.ModTime w6 = rct at h
                      obtain ⟨err4, w7⟩ := rct
                      simp at h
                      obtain ⟨h1, h2⟩ := h
                      rw [hct] at h1 h2
                      simp only at h1 h2
                      subst h1
                      exact ⟨w1, df, w2, sf, w3, w4, w5, w6, w7, hmk, hcr, hop, hc, hcl, hch, hct,
                        by simp [World.emit, ← h2]⟩
                    · simp at h
                  · simp at h
                · simp [hn] at h
              · simp at h

/-! ## Symbolic links -/

theorem sameLinks_refl (fs : FS) : SameLinks fs fs := fun _ _ => Iff.rfl

theorem sameLinks_trans {a b c : FS} (h1 : SameLinks a b) (h2 : SameLinks b c) :
    SameLinks a c := fun p t => (h2 p t).trans (h1 p t)

theorem sameLinks_symm {a b : FS} (h : SameLinks a b) : SameLinks b a :=
  fun p t => (h p t).symm

theorem follow_congr {fs fs1 : FS} (h : SameLinks fs fs1) (k : Nat) (p : Path) :
    follow fs1 k p = follow fs k p := by
  induction k generalizing p with
  | zero => rfl
  | succ k ih =>
    unfold follow
    cases h1 : lookup fs1 p with
    | none =>
      cases h0 : lookup fs p with
      | none => rfl
      | some n0 =>
        cases n0 with
        | symlink t => rw [← h p t] at h0; rw [h0] at h1; cases h1
        | file _ _ _ => rfl
        | dir _ => rfl
        | special _ _ => rfl
    | some n1 =>
      cases n1 with
      | symlink t =>
        have h0 := (h p t).1 h1
        simp only [h0]
        exact ih t
      | file a b c =>
        cases h0 : lookup fs p with
        | none => rfl
        | some n0 =>
          cases n0 with
          | symlink t => rw [← h p t] at h0; rw [h0] at h1; cases h1
          | file _ _ _ => rfl
          | dir _ => rfl
          | special _ _ => rfl
      | dir a =>
        cases h0 : lookup fs p with
        | none => rfl
        | some n0 =>
          cases n0 with
          | symlink t => rw [← h p t] at h0; rw [h0] at h1; cases h1
          | file _ _ _ => rfl
          | dir _ => rfl
          | special _ _ => rfl
      | special a b =>
        cases h0 : lookup fs p with
        | none => rfl
        | some n0 =>
          cases n0 with
          | symlink t => rw [← h p t] at h0; rw [h0] at h1; cases h1
          | file _ _ _ => rfl
          | dir _ => rfl
          | special _ _ => rfl

theorem follow_not_link (fs : FS) (k : Nat) (p q : Path) (h : follow fs k p = .ok q) (t : Path) :
    lookup fs q ≠ some (.symlink t) := by
  induction k generalizing p with
  | zero => simp [follow] at h
  | succ k ih =>
    unfold follow at h
    split at h
    · exact ih _ h
    · rename_i hne
      simp only [Except.ok.injEq] at h
      subst h
      intro hl
      exact hne t hl

theorem follow_self (fs : FS) (k : Nat) (p : Path)
    (h : ∀ t, lookup fs p ≠ some (.symlink t)) : follow fs (k + 1) p = .ok p := by
  unfold follow
  split
  · rename_i t hl
    exact absurd hl (h t)
  · rfl

theorem osStat_congr {fs fs1 : FS} (h : SameLinks fs fs1) (p : Path)
    (hq : ∀ q, follow fs maxSymlinks p = .ok q → lookup fs1 q = lookup fs q) :
    osStat fs1 p = osStat fs p := by
  unfold osStat
  rw [follow_congr h]
  cases hf : follow fs maxSymlinks p with
  | error e => rfl
  | ok q => simp only [hq q hf]

theorem sameLinks_store (fs : FS) (q : Path) (n : Node)
    (h1 : ∀ t, lookup fs q ≠ some (.symlink t)) (h2 : ∀ t, n ≠ .symlink t) :
    SameLinks fs (store fs q n) := by
  intro p t
  rw [lookup_store]
  by_cases hp : q = p
  · subst hp
    simp only [if_true]
    constructor
    · intro h; cases h; exact absurd rfl (h2 t)
    · intro h; exact absurd h (h1 t)
  · simp [hp]

theorem sameLinks_of_keptOrMade (fs fs1 : FS) (target : Path)
    (h : ∀ p, KeptOrMade fs fs1 target p) : SameLinks fs fs1 := by
  intro p t
  rcases h p with h1 | ⟨h0, _, perm, h1⟩
  · rw [h1]
  · rw [h0, h1]; simp

/-! ## The effect of each system call -/

theorem keptOrMade_refl (fs : FS) (target p : Path) : KeptOrMade fs fs target p := Or.inl rfl

theorem keptOrMade_mono {fs fs1 : FS} {t1 t2 p : Path} (h : KeptOrMade fs fs1 t1 p)
    (ht : t1 <+: t2) : KeptOrMade fs fs1 t2 p := by
  rcases h with h | ⟨h0, hp, h1⟩
  · exact Or.inl h
  · exact Or.inr ⟨h0, hp.trans ht, h1⟩

theorem mkdir_ok (umask : Nat) (fs fs1 : FS) (p : Path) (perm : Nat)
    (h : mkdir umask fs p perm = .ok fs1) :
    lookup fs p = none ∧ fs1 = store fs p (.dir (applyUmask umask perm)) := by
  unfold mkdir at h
  split at h
  · cases h
  · rename_i hnone
    refine ⟨hnone, ?_⟩
    split at h
    · cases h; rfl
    · split at h
      · cases h; rfl
      · cases h
      · cases h

theorem mkdir_keptOrMade (umask : Nat) (fs fs1 : FS) (p : Path) (perm : Nat)
    (h : mkdir umask fs p perm = .ok fs1) (q : Path) : KeptOrMade fs fs1 p q := by
  obtain ⟨h0, h1⟩ := mkdir_ok umask fs fs1 p perm h
  subst h1
  by_cases hq : p = q
  · subst hq
    exact Or.inr ⟨h0, List.prefix_refl _, _, lookup_store_same _ _ _⟩
  · exact Or.inl (lookup_store_ne _ _ _ _ hq)

theorem keptOrMade_trans {a b c : FS} {t1 t2 p : Path} (h1 : KeptOrMade a b t1 p)
    (h2 : KeptOrMade b c t2 p) (ht : t1 <+: t2) : KeptOrMade a c t2 p := by
  rcases h2 with h2 | ⟨hb, hp, perm, hc⟩
  · rcases h1 with h1 | ⟨ha, hp1, perm1, hb1⟩
    · exact Or.inl (h2.trans h1)
    · exact Or.inr ⟨ha, hp1.trans ht, perm1, h2.trans hb1⟩
  · rcases h1 with h1 | ⟨ha, hp1, perm1, hb1⟩
    · exact Or.inr ⟨h1 ▸ hb, hp, perm, hc⟩
    · rw [hb1] at hb; cases hb

theorem mkdirAllRev_keptOrMade (umask perm : Nat) (rp : List String) (fs : FS) (p : Path) :
    KeptOrMade fs (mkdirAllRev umask perm rp fs).1 rp.reverse p := by
  induction rp generalizing fs with
  | nil =>
    unfold mkdirAllRev
    split
    · split <;> exact Or.inl rfl
    · split
      · rename_i fs1 hm
        exact mkdir_keptOrMade umask fs fs1 [] perm hm p
      · exact Or.inl rfl
  | cons c rp ih =>
    unfold mkdirAllRev
    simp only
    split
    · split <;> exact Or.inl rfl
    · have hpre : rp.reverse <+: (c :: rp).reverse := by
        rw [List.reverse_cons]; exact List.prefix_append _ _
      have ih1 := ih fs
      split
      · rename_i fs1 e heq
        rw [heq] at ih1
        exact keptOrMade_mono ih1 hpre
      · rename_i fs1 heq
        rw [heq] at ih1
        simp only at ih1
        split
        · rename_i fs2 hm
          exact keptOrMade_trans ih1 (mkdir_keptOrMade umask fs1 fs2 _ perm hm p) hpre
        · split
          · split <;> exact keptOrMade_mono ih1 hpre
          · exact keptOrMade_mono ih1 hpre

theorem osMkdirAll_effect (env : Env) (t : Path) (perm : Nat) (w w1 : World) (r : Option Err)
    (h : osMkdirAll env t perm w = (r, w1)) :
    w1.trace = w.trace ++ [.mkdirAll t perm] ∧ ∀ p, KeptOrMade w.fs w1.fs t p := by
  unfold osMkdirAll at h
  simp only [World.emit] at h
  have hk := mkdirAllRev_keptOrMade env.umask perm t.reverse w.fs
  rw [List.reverse_reverse] at hk
  split at h
  · cases h
    exact ⟨rfl, fun p => Or.inl rfl⟩
  · split at h
    · rename_i fs1 e heq
      rw [heq] at hk
      cases h
      exact ⟨rfl, hk⟩
    · rename_i fs1 heq
      rw [heq] at hk
      cases h
      exact ⟨rfl, hk⟩

theorem osCreate_ok (env : Env) (dst df : Path) (w w2 : World)
    (h : osCreate env dst w = (.ok df, w2)) :
    follow w.fs maxSymlinks dst = .ok df ∧ w2.trace = w.trace ++ [.create dst] ∧
      ((∃ k perm, lookup w.fs df = some (.special k perm) ∧ w2.fs = w.fs) ∨
       (∃ perm t, w2.fs = store w.fs df (.file perm [] t) ∧
          (lookup w.fs df = none ∨ ∃ d m, lookup w.fs df = some (.file perm d m)))) := by
  unfold osCreate at h
  simp only [World.emit] at h
  split at h
  · cases h
  · split at h
    · cases h
    · rename_i q hq
      split at h
      · rename_i perm d m hl
        cases h
        exact ⟨hq, rfl, Or.inr ⟨perm, _, rfl, Or.inr ⟨d, m, hl⟩⟩⟩
      · cases h
      · cases h
      · cases h
      · rename_i k perm _ hl
        cases h
        exact ⟨hq, rfl, Or.inl ⟨k, perm, hl, rfl⟩⟩
      · rename_i hl
        split at h
        · cases h
        · split at h
          · cases h
            exact ⟨hq, rfl, Or.inr ⟨_, _, rfl, Or.inl hl⟩⟩
          · cases h
          · cases h

theorem osOpen_ok (env : Env) (src sf : Path) (w w3 : World)
    (h : osOpen env src w = (.ok sf, w3)) :
    follow w.fs maxSymlinks src = .ok sf ∧ w3.trace = w.trace ++ [.openRead src] ∧
      w3.fs = w.fs := by
  unfold osOpen at h
  simp only [World.emit] at h
  split at h
  · cases h
  · split at h
    · cases h
    · rename_i q hq
      split at h
      · cases h
      · cases h
        exact ⟨hq, rfl, rfl⟩
      · cases h

theorem take_eq_of_length {α : Type} (l : List α) (k : Nat)
    (h : (l.take k).length = l.length) : l.take k = l := by
  rw [List.length_take] at h
  exact List.take_of_length_le (by omega)

theorem ioCopy_ok (env : Env) (df sf : Path) (w w4 : World) (n : Int)
    (h : ioCopy env df sf w = ((n, none), w4)) :
    ∃ data bytes, readAll w.fs sf = .ok data ∧ (bytes = data ∨ ∃ k, bytes = data.take k) ∧
      n = (bytes.length : Int) ∧
      writeAt0 w.fs df bytes (env.now w.trace.length) = .ok w4.fs ∧
      w4.trace = w.trace ++ [.copy df sf bytes.length] := by
  unfold ioCopy at h
  simp only [World.emit] at h
  split at h
  · cases h
  · rename_i data hr
    split at h
    · cases h
    · rename_i fs1 hw
      split at h
      · cases h
      · cases h
        refine ⟨data, _, hr, ?_, rfl, hw, rfl⟩
        split
        · exact Or.inr ⟨_, rfl⟩
        · exact Or.inl rfl

theorem fileClose_effect (env : Env) (h : Path) (w w5 : World) (r : Option Err)
    (hc : fileClose env h w = (r, w5)) : w5 = w.emit (.close h) := by
  unfold fileClose at hc
  simp only at hc
  split at hc <;> cases hc <;> rfl

theorem osChmod_ok (env : Env) (p : Path) (mode : Nat) (w w6 : World)
    (h : osChmod env p mode w = (none, w6)) :
    w6.trace = w.trace ++ [.chmod p mode] ∧
    ∃ q, follow w.fs maxSymlinks p = .ok q ∧
      ((∃ perm d m, lookup w.fs q = some (.file perm d m) ∧
          w6.fs = store w.fs q (.file (mode &&& chmodMask) d m)) ∨
       (∃ perm, lookup w.fs q = some (.dir perm) ∧
          w6.fs = store w.fs q (.dir (mode &&& chmodMask))) ∨
       (∃ k perm, lookup w.fs q = some (.special k perm) ∧
          w6.fs = store w.fs q (.special k (mode &&& chmodMask)))) := by
  unfold osChmod at h
  simp only [World.emit] at h
  split at h
  · cases h
  · split at h
    · cases h
    · rename_i q hq
      split at h
      · rename_i perm d m hl
        cases h
        exact ⟨rfl, q, hq, Or.inl ⟨perm, d, m, hl, rfl⟩⟩
      · rename_i perm hl
        cases h
        exact ⟨rfl, q, hq, Or.inr (Or.inl ⟨perm, hl, rfl⟩)⟩
      · rename_i k perm hl
        cases h
        exact ⟨rfl, q, hq, Or.inr (Or.inr ⟨k, perm, hl, rfl⟩)⟩
      · cases h
      · cases h

theorem osChtimes_ok (env : Env) (p : Path) (a t : Time) (w w7 : World)
    (h : osChtimes env p a t w = (none, w7)) :
    w7.trace = w.trace ++ [.chtimes p a t] ∧
    ∃ q, follow w.fs maxSymlinks p = .ok q ∧
      ((∃ perm d m, lookup w.fs q = some (.file perm d m) ∧
          w7.fs = store w.fs q (.file perm d t)) ∨
       ((∃ perm, lookup w.fs q = some (.dir perm)) ∧ w7.fs = w.fs) ∨
       ((∃ k perm, lookup w.fs q = some (.special k perm)) ∧ w7.fs = w.fs)) := by
  unfold osChtimes at h
  simp only [World.emit] at h
  split at h
  · cases h
  · split at h
    · cases h
    · rename_i q hq
      split at h
      · rename_i perm d m hl
        cases h
        exact ⟨rfl, q, hq, Or.inl ⟨perm, d, m, hl, rfl⟩⟩
      · rename_i perm hl
        cases h
        exact ⟨rfl, q, hq, Or.inr (Or.inl ⟨⟨perm, hl⟩, rfl⟩)⟩
      · rename_i k perm hl
        cases h
        exact ⟨rfl, q, hq, Or.inr (Or.inr ⟨⟨k, perm, hl⟩, rfl⟩)⟩
      · cases h
      · cases h

theorem sameLinks_of_agree (fs fs1 : FS) (q : Path)
    (h : ∀ p, p ≠ q → lookup fs1 p = lookup fs p)
    (hq : ∀ t, lookup fs q ≠ some (.symlink t))
    (hq1 : ∀ t, lookup fs1 q ≠ some (.symlink t)) : SameLinks fs fs1 := by
  intro p t
  by_cases hp : p = q
  · subst hp
    constructor
    · intro h1; exact absurd h1 (hq1 t)
    · intro h0; exact absurd h0 (hq t)
  · rw [h p hp]

theorem osChmod_at (env : Env) (p q : Path) (mode : Nat) (w w6 : World)
    (h : osChmod env p mode w = (none, w6)) (hf : follow w.fs maxSymlinks p = .ok q) :
    (∀ perm d m, lookup w.fs q = some (.file perm d m) →
        w6.fs = store w.fs q (.file (mode &&& chmodMask) d m)) ∧
    (∀ k perm, lookup w.fs q = some (.special k perm) →
        w6.fs = store w.fs q (.special k (mode &&& chmodMask))) := by
  obtain ⟨_, q1, hf1, hc⟩ := osChmod_ok env p mode w w6 h
  rw [hf] at hf1
  cases hf1
  constructor
  · intro perm d m hl
    rcases hc with ⟨_, _, _, hl1, hs⟩ | ⟨_, hl1, _⟩ | ⟨_, _, hl1, _⟩
    · rw [hl] at hl1; cases hl1; exact hs
    · rw [hl] at hl1; cases hl1
    · rw [hl] at hl1; cases hl1
  · intro k perm hl
    rcases hc with ⟨_, _, _, hl1, _⟩ | ⟨_, hl1, _⟩ | ⟨_, _, hl1, hs⟩
    · rw [hl] at hl1; cases hl1
    · rw [hl] at hl1; cases hl1
    · rw [hl] at hl1; cases hl1; exact hs

theorem osChtimes_at (env : Env) (p q : Path) (a t : Time) (w w7 : World)
    (h : osChtimes env p a t w = (none, w7)) (hf : follow w.fs maxSymlinks p = .ok q) :
    (∀ perm d m, lookup w.fs q = some (.file perm d m) →
        w7.fs = store w.fs q (.file perm d t)) ∧
    (∀ k perm, lookup w.fs q = some (.special k perm) → w7.fs = w.fs) := by
  obtain ⟨_, q1, hf1, hc⟩ := osChtimes_ok env p a t w w7 h
  rw [hf] at hf1
  cases hf1
  constructor
  · intro perm d m hl
    rcases hc with ⟨_, _, _, hl1, hs⟩ | ⟨⟨_, hl1⟩, _⟩ | ⟨⟨_, _, hl1⟩, _⟩
    · rw [hl] at hl1; cases hl1; exact hs
    · rw [hl] at hl1; cases hl1
    · rw [hl] at hl1; cases hl1
  · intro k perm hl
    rcases hc with ⟨_, _, _, hl1, _⟩ | ⟨⟨_, hl1⟩, _⟩ | ⟨⟨_, _, hl1⟩, hs⟩
    · rw [hl] at hl1; cases hl1
    · rw [hl] at hl1; cases hl1
    · exact hs

theorem writeAt0_file (fs fs4 : FS) (h : Path) (bytes : List Nat) (now : Time) (perm : Nat)
    (t : Time) (hl : lookup fs h = some (.file perm [] t))
    (hw : writeAt0 fs h bytes now = .ok fs4) :
    (∀ p, p ≠ h → lookup fs4 p = lookup fs p) ∧
      ∃ t1, lookup fs4 h = some (.file perm bytes t1) := by
  unfold writeAt0 at hw
  rw [hl] at hw
  simp only at hw
  split at hw
  · rename_i hb
    cases hw
    exact ⟨fun _ _ => rfl, t, by rw [hl, hb]⟩
  · cases hw
    refine ⟨fun p hp => lookup_store_ne _ _ _ _ (Ne.symm hp), now, ?_⟩
    rw [lookup_store_same]
    simp

theorem writeAt0_special (fs fs4 : FS) (h : Path) (bytes : List Nat) (now : Time)
    (k : Special) (perm : Nat) (hl : lookup fs h = some (.special k perm))
    (hw : writeAt0 fs h bytes now = .ok fs4) : fs4 = fs := by
  unfold writeAt0 at hw
  rw [hl] at hw
  simp only at hw
  cases hw
  rfl

theorem readAll_file (fs : FS) (h : Path) (perm : Nat) (d : List Nat) (t : Time)
    (hl : lookup fs h = some (.file perm d t)) : readAll fs h = .ok d := by
  unfold readAll
  rw [hl]

theorem osStat_file (fs : FS) (p q : Path) (perm : Nat) (d : List Nat) (t : Time)
    (hf : follow fs maxSymlinks p = .ok q) (hl : lookup fs q = some (.file perm d t)) :
    osStat fs p = .ok ⟨perm &&& chmodMask, (d.length : Int), t⟩ := by
  unfold osStat
  rw [hf]
  simp only [hl, Node.info]

/-- A path that stats as a regular file resolves to a regular file node. -/
theorem osStat_regular (fs : FS) (p : Path) (fi : FileInfo) (h : osStat fs p = .ok fi)
    (hreg : fi.Mode &&& ModeType = 0) :
    ∃ q perm d t, follow fs maxSymlinks p = .ok q ∧ lookup fs q = some (.file perm d t) ∧
      fi = ⟨perm &&& chmodMask, (d.length : Int), t⟩ := by
  unfold osStat at h
  split at h
  · cases h
  · rename_i q hq
    split at h
    · rename_i n hl
      cases h
      obtain ⟨perm, d, t, hn⟩ := (info_regular_iff n).1 hreg
      subst hn
      exact ⟨q, perm, d, t, hq, hl, rfl⟩
    · cases h

/-! ## The effect of a successful `mirrorFile` -/

/-- What a `mirrorFile` that returns nil has done: the source resolves to a
regular file `ps`, the destination resolves to `q`; away from `q` the file
system is as before except for directories made on the way to the parent of
the destination; at `q` either nothing changed (the copy was skipped), or `q`
now is a regular file with the permissions, bytes and modification time of
the source, or `q` is a special file. -/
theorem mirrorFile_effect (env : Env) (src dst : Path) (w0 w9 : World)
    (h : mirrorFile env src dst w0 = (.ret none, w9)) :
    ∃ ps q spm sdata smt,
      follow w0.fs maxSymlinks src = .ok ps ∧
      lookup w0.fs ps = some (.file spm sdata smt) ∧
      follow w0.fs maxSymlinks dst = .ok q ∧
      (∀ p, p ≠ q → KeptOrMade w0.fs w9.fs (Dir dst) p) ∧
      ((w9.fs = w0.fs ∧ w9.trace = w0.trace ++ [.mirrorFile src dst] ∧
          ∃ dfi, osStat w0.fs dst = .ok dfi ∧
            isExecMode (spm &&& chmodMask) = isExecMode dfi.Mode ∧
            dfi.Mode &&& ModeType = 0 ∧ dfi.Size = (sdata.length : Int) ∧
            dfi.ModTime.Unix = smt.Unix) ∨
       (ps ≠ q ∧ (lookup w0.fs q = none ∨ ∃ a b c, lookup w0.fs q = some (.file a b c)) ∧
          lookup w9.fs q = some (.file (spm &&& chmodMask) sdata smt)) ∨
       (∃ k perm perm1, lookup w0.fs q = some (.special k perm) ∧
          lookup w9.fs q = some (.special k perm1))) := by
  obtain ⟨sfi, hs, hreg, hcase⟩ := mirrorFile_ret_none env src dst w0 w9 h
  obtain ⟨ps, spm, sdata, smt, hfs, hls, hsfi⟩ := osStat_regular _ _ _ hs hreg
  subst hsfi
  rcases hcase with ⟨dfi, hd, h1, h2, h3, h4, hw⟩ | ⟨hns, w1, df, w2, sf, w3, w4, w5, w6, w7,
      hmk, hcr, hop, hc, hcl, hch, hct, hw⟩
  · -- the copy was skipped
    have hq : ∃ q, follow w0.fs maxSymlinks dst = .ok q := by
      unfold osStat at hd
      split at hd
      · cases hd
      · exact ⟨_, by assumption⟩
    obtain ⟨q, hq⟩ := hq
    refine ⟨ps, q, spm, sdata, smt, hfs, hls, hq, ?_, Or.inl ?_⟩
    · intro p _
      subst hw
      exact Or.inl rfl
    · subst hw
      exact ⟨rfl, rfl, dfi, hd, h1, h2, h3, h4⟩
  · -- the copy was made
    obtain ⟨_, K1⟩ := osMkdirAll_effect env _ _ _ _ _ hmk
    simp only [World.emit] at K1
    have SL1 : SameLinks w0.fs w1.fs := sameLinks_of_keptOrMade _ _ _ K1
    obtain ⟨hfd1, _, hcre⟩ := osCreate_ok env dst df w1 w2 hcr
    have hfd : follow w0.fs maxSymlinks dst = .ok df := by rw [← follow_congr SL1]; exact hfd1
    have hnl1 : ∀ t, lookup w1.fs df ≠ some (.symlink t) := follow_not_link _ _ _ _ hfd1
    -- the source is not the file the destination resolves to
    have hne : ps ≠ df := by
      intro heq
      subst heq
      have hd := osStat_file w0.fs dst ps spm sdata smt hfd hls
      exact hns _ hd ⟨rfl, file_mode_regular spm, rfl, rfl⟩
    have hls1 : lookup w1.fs ps = some (.file spm sdata smt) := by
      rcases K1 ps with hk | ⟨hk, _⟩
      · rw [hk]; exact hls
      · rw [hls] at hk; cases hk
    obtain ⟨hfo, _, hfs3⟩ := osOpen_ok env src sf w2 w3 hop
    have hcl5 := fileClose_effect env df w4 w5 none hcl
    obtain ⟨data, bytes, hread, _, hn, hwrite, _⟩ := ioCopy_ok env df sf w3 w4 _ hc
    rw [hfs3] at hread hwrite
    refine ⟨ps, df, spm, sdata, smt, hfs, hls, hfd, ?_, Or.inr ?_⟩
    · -- away from the destination
      intro p hp
      have hp1 : lookup w9.fs p = lookup w1.fs p := by
        subst hw
        simp only [World.emit]
        rcases hcre with ⟨k, perm, hl1, hfs2⟩ | ⟨perm, t, hfs2, _⟩
        · -- special file
          rw [hfs2] at hread hwrite hfo
          have h4 := writeAt0_special _ _ _ _ _ _ _ hl1 hwrite
          have h5 : w5.fs = w1.fs := by rw [hcl5]; simpa [World.emit] using h4
          have hf5 : follow w5.fs maxSymlinks dst = .ok df := by rw [h5]; exact hfd1
          have h6 := (osChmod_at env dst df _ w5 w6 hch hf5).2 k perm (by rw [h5]; exact hl1)
          have hl6 : lookup w6.fs df = some (.special k ((spm &&& chmodMask) &&& chmodMask)) := by
            rw [h6]; exact lookup_store_same _ _ _
          have SL6 : SameLinks w5.fs w6.fs := by
            rw [h6]
            exact sameLinks_store _ _ _ (by rw [h5]; exact hnl1) (by intro t; simp)
          have hf6 : follow w6.fs maxSymlinks dst = .ok df := by
            rw [follow_congr SL6]; exact hf5
          have h7 := (osChtimes_at env dst df _ _ w6 w7 hct hf6).2 k _ hl6
          rw [h7, h6, lookup_store_ne _ _ _ _ (Ne.symm hp), h5]
        · -- regular file
          have hl2 : lookup w2.fs df = some (.file perm [] t) := by
            rw [hfs2]; exact lookup_store_same _ _ _
          obtain ⟨h4a, t1, h4b⟩ := writeAt0_file _ _ _ _ _ _ _ hl2 hwrite
          have h5a : ∀ p, p ≠ df → lookup w5.fs p = lookup w1.fs p := by
            intro p hp
            rw [hcl5]
            simp only [World.emit]
            rw [h4a p hp, hfs2, lookup_store_ne _ _ _ _ (Ne.symm hp)]
          have h5b : lookup w5.fs df = some (.file perm bytes t1) := by
            rw [hcl5]; simpa [World.emit] using h4b
          have SL5 : SameLinks w1.fs w5.fs :=
            sameLinks_of_agree _ _ df h5a hnl1 (by rw [h5b]; intro t; simp)
          have hf5 : follow w5.fs maxSymlinks dst = .ok df := by
            rw [follow_congr SL5]; exact hfd1
          have h6 := (osChmod_at env dst df _ w5 w6 hch hf5).1 _ _ _ h5b
          have hl6 : lookup w6.fs df =
              some (.file ((spm &&& chmodMask) &&& chmodMask) bytes t1) := by
            rw [h6]; exact lookup_store_same _ _ _
          have SL6 : SameLinks w5.fs w6.fs := by
            rw [h6]
            exact sameLinks_store _ _ _ (by rw [h5b]; intro t; simp) (by intro t; simp)
          have hf6 : follow w6.fs maxSymlinks dst = .ok df := by
            rw [follow_congr SL6]; exact hf5
          have h7 := (osChtimes_at env dst df _ _ w6 w7 hct hf6).1 _ _ _ hl6
          rw [h7, lookup_store_ne _ _ _ _ (Ne.symm hp), h6,
            lookup_store_ne _ _ _ _ (Ne.symm hp), h5a p hp]
      unfold KeptOrMade
      rw [hp1]
      exact K1 p
    · -- at the destination
      rcases hcre with ⟨k, perm, hl1, hfs2⟩ | ⟨perm, t, hfs2, hold⟩
      · right
        rw [hfs2] at hread hwrite hfo
        have h4 := writeAt0_special _ _ _ _ _ _ _ hl1 hwrite
        have h5 : w5.fs = w1.fs := by rw [hcl5]; simpa [World.emit] using h4
        have hf5 : follow w5.fs maxSymlinks dst = .ok df := by rw [h5]; exact hfd1
        have h6 := (osChmod_at env dst df _ w5 w6 hch hf5).2 k perm (by rw [h5]; exact hl1)
        have hl6 : lookup w6.fs df = some (.special k ((spm &&& chmodMask) &&& chmodMask)) := by
          rw [h6]; exact lookup_store_same _ _ _
        have SL6 : SameLinks w5.fs w6.fs := by
          rw [h6]
          exact sameLinks_store _ _ _ (by rw [h5]; exact hnl1) (by intro t; simp)
        have hf6 : follow w6.fs maxSymlinks dst = .ok df := by
          rw [follow_congr SL6]; exact hf5
        have h7 := (osChtimes_at env dst df _ _ w6 w7 hct hf6).2 k _ hl6
        refine ⟨k, perm, (spm &&& chmodMask) &&& chmodMask, ?_, ?_⟩
        · rcases K1 df with hk | ⟨_, _, perm1, hk⟩
          · rw [← hk]; exact hl1
          · rw [hl1] at hk; cases hk
        · subst hw
          simp only [World.emit]
          rw [h7]
          exact hl6
      · left
        have hl2 : lookup w2.fs df = some (.file perm [] t) := by
          rw [hfs2]; exact lookup_store_same _ _ _
        have hls2 : lookup w2.fs ps = some (.file spm sdata smt) := by
          rw [hfs2, lookup_store_ne _ _ _ _ (Ne.symm hne)]; exact hls1
        have SL2 : SameLinks w1.fs w2.fs := by
          rw [hfs2]
          exact sameLinks_store _ _ _ hnl1 (by intro t; simp)
        have hsf : sf = ps := by
          rw [follow_congr SL2, follow_congr SL1, hfs] at hfo
          cases hfo; rfl
        subst hsf
        rw [readAll_file _ _ _ _ _ hls2] at hread
        cases hread
        have hbytes : bytes = sdata := by
          rename_i hb
          rcases hb with hb | ⟨k, hb⟩
          · exact hb
          · subst hb
            apply take_eq_of_length
            simp only [FileInfo.Size] at hn
            exact_mod_cast hn.symm
        subst hbytes
        obtain ⟨h4a, t1, h4b⟩ := writeAt0_file _ _ _ _ _ _ _ hl2 hwrite
        have h5a : ∀ p, p ≠ df → lookup w5.fs p = lookup w1.fs p := by
          intro p hp
          rw [hcl5]
          simp only [World.emit]
          rw [h4a p hp, hfs2, lookup_store_ne _ _ _ _ (Ne.symm hp)]
        have h5b : lookup w5.fs df = some (.file perm bytes t1) := by
          rw [hcl5]; simpa [World.emit] using h4b
        have SL5 : SameLinks w1.fs w5.fs :=
          sameLinks_of_agree _ _ df h5a hnl1 (by rw [h5b]; intro t; simp)
        have hf5 : follow w5.fs maxSymlinks dst = .ok df := by
          rw [follow_congr SL5]; exact hfd1
        have h6 := (osChmod_at env dst df _ w5 w6 hch hf5).1 _ _ _ h5b
        have hl6 : lookup w6.fs df =
            some (.file ((spm &&& chmodMask) &&& chmodMask) bytes t1) := by
          rw [h6]; exact lookup_store_same _ _ _
        have SL6 : SameLinks w5.fs w6.fs := by
          rw [h6]
          exact sameLinks_store _ _ _ (by rw [h5b]; intro t; simp) (by intro t; simp)
        have hf6 : follow w6.fs maxSymlinks dst = .ok df := by
          rw [follow_congr SL6]; exact hf5
        have h7 := (osChtimes_at env dst df _ _ w6 w7 hct hf6).1 _ _ _ hl6
        refine ⟨hne, ?_, ?_⟩
        · rcases hold with hold | ⟨d, m, hold⟩
          · left
            rcases K1 df with hk | ⟨_, _, perm1, hk⟩
            · rw [← hk]; exact hold
            · rw [hold] at hk; cases hk
          · right
            rcases K1 df with hk | ⟨_, _, perm1, hk⟩
            · exact ⟨_, _, _, by rw [← hk]; exact hold⟩
            · rw [hold] at hk; cases hk
        · subst hw
          simp only [World.emit]
          rw [h7, lookup_store_same, land_chmodMask_idem]
          rfl

/-! ## Traces -/

theorem osMkdirAll_trace (env : Env) (t : Path) (perm : Nat) (w w1 : World) (r : Option Err)
    (h : osMkdirAll env t perm w = (r, w1)) : w1.trace = w.trace ++ [.mkdirAll t perm] :=
  (osMkdirAll_effect env t perm w w1 r h).1

theorem osCreate_trace (env : Env) (p : Path) (w w1 : World) (r : Except Err Path)
    (h : osCreate env p w = (r, w1)) : w1.trace = w.trace ++ [.create p] := by
  unfold osCreate at h
  simp only [World.emit] at h
  repeat (first | (cases h; rfl) | split at h)

theorem osOpen_trace (env : Env) (p : Path) (w w1 : World) (r : Except Err Path)
    (h : osOpen env p w = (r, w1)) : w1.trace = w.trace ++ [.openRead p] := by
  unfold osOpen at h
  simp only [World.emit] at h
  repeat (first | (cases h; rfl) | split at h)

theorem ioCopy_trace (env : Env) (df sf : Path) (w w1 : World) (r : Int × Option Err)
    (h : ioCopy env df sf w = (r, w1)) : ∃ n, w1.trace = w.trace ++ [.copy df sf n] := by
  unfold ioCopy at h
  simp only [World.emit] at h
  repeat (first | (cases h; exact ⟨_, rfl⟩) | split at h)

theorem osChmod_trace (env : Env) (p : Path) (mode : Nat) (w w1 : World) (r : Option Err)
    (h : osChmod env p mode w = (r, w1)) : w1.trace = w.trace ++ [.chmod p mode] := by
  unfold osChmod at h
  simp only [World.emit] at h
  repeat (first | (cases h; rfl) | split at h)

theorem osChtimes_trace (env : Env) (p : Path) (a t : Time) (w w1 : World) (r : Option Err)
    (h : osChtimes env p a t w = (r, w1)) : w1.trace = w.trace ++ [.chtimes p a t] := by
  unfold osChtimes at h
  simp only [World.emit] at h
  repeat (first | (cases h; rfl) | split at h)

/-! ## The skip test -/

/-- The test of make.go 38-42 is the mirror pair relation. -/
theorem unmodified_eq (fs : FS) (src dst : Path) (sfi : FileInfo)
    (hs : osStat fs src = .ok sfi) :
    (match osStat fs dst with
      | .error _ => false
      | .ok dfi =>
        (isExecMode sfi.Mode == isExecMode dfi.Mode) &&
          (dfi.Mode &&& ModeType == 0) &&
          (dfi.Size == sfi.Size) &&
          (dfi.ModTime.Unix == sfi.ModTime.Unix)) = MirrorPair fs src dst := by
  unfold MirrorPair
  rw [hs]
  cases osStat fs dst with
  | error e => rfl
  | ok dfi =>
    simp only
    rw [Bool.beq_comm (a := isExecMode sfi.Mode)]
    cases (isExecMode dfi.Mode == isExecMode sfi.Mode) <;>
      cases (dfi.Mode &&& ModeType == 0) <;>
      cases (dfi.Size == sfi.Size) <;> rfl

theorem mirrorPair_iff (fs : FS) (src dst : Path) (sfi : FileInfo)
    (hs : osStat fs src = .ok sfi) :
    MirrorPair fs src dst = true ↔
      ∃ dfi, osStat fs dst = .ok dfi ∧ isExecMode sfi.Mode = isExecMode dfi.Mode ∧
        dfi.Mode &&& ModeType = 0 ∧ dfi.Size = sfi.Size ∧
        dfi.ModTime.Unix = sfi.ModTime.Unix := by
  unfold MirrorPair
  rw [hs]
  cases osStat fs dst with
  | error e => simp
  | ok dfi =>
    simp only [Bool.and_eq_true, beq_iff_eq, Except.ok.injEq, exists_eq_left']
    constructor
    · rintro ⟨⟨⟨a, b⟩, c⟩, d⟩
      exact ⟨c.symm, a, b, d⟩
    · rintro ⟨a, b, c, d⟩
      exact ⟨⟨⟨b, c⟩, a.symm⟩, d⟩

/-- The part of `mirrorFile` from the byte copy on (make.go 62-76). -/
theorem mirrorFile_tail (env : Env) (src dst : Path) (w0 w1 w2 w3 : World) (sfi : FileInfo)
    (df sf : Path)
    (hs : osStat w0.fs src = .ok sfi) (hreg : sfi.Mode &&& ModeType = 0)
    (hskip : MirrorPair w0.fs src dst = false)
    (hmk : osMkdirAll env (Dir dst) 0o755 (w0.emit (.mirrorFile src dst)) = (none, w1))
    (hcr : osCreate env dst w1 = (.ok df, w2))
    (hop : osOpen env src w2 = (.ok sf, w3)) :
    mirrorFile env src dst w0 =
      match ioCopy env df sf w3 with
      | ((n, err), w4) =>
        match fileClose env df w4 with
        | (cerr, w5) =>
          match (if err = none ∧ n ≠ sfi.Size then
              some (Err.errorf (wrongSizeMsg src dst n sfi.Size)) else err), cerr with
          | some e, _ => (.ret (some e), w5.emit (.close sf))
          | none, some e => (.ret (some e), w5.emit (.close sf))
          | none, none =>
            match osChmod env dst sfi.Mode w5 with
            | (some e, w6) => (.ret (some e), w6.emit (.close sf))
            | (none, w6) =>
              match osChtimes env dst sfi.ModTime sfi.ModTime w6 with
              | (err4, w7) => (.ret err4, w7.emit (.close sf)) := by
  have hun := unmodified_eq w0.fs src dst sfi hs
  rw [hskip] at hun
  unfold mirrorFile
  simp only [World.emit] at hmk hun ⊢
  simp only [hs, hreg, hun, hmk, hcr, hop]
  simp only [ne_eq, not_true_eq_false, if_false, Bool.false_eq_true]
  generalize ioCopy env df sf w3 = rc
  obtain ⟨⟨n, err⟩, w4⟩ := rc
  generalize fileClose env df w4 = rcl
  obtain ⟨cerr, w5⟩ := rcl
  simp only
  rcases err with _ | e
  · by_cases hn : n = sfi.Size
    · rcases cerr with _ | ce
      · simp only [hn, not_true_eq_false, and_false, if_false, if_true]
        generalize osChmod env dst sfi.Mode w5 = rch
        obtain ⟨e3, w6⟩ := rch
        rcases e3 with _ | e3
        · simp
        · simp
      · simp [hn]
    · simp [hn]
  · simp

/-! ## File Mirror: the claims -/

theorem sameLinks_of_effect (fs fs1 : FS) (q target : Path)
    (h : ∀ p, p ≠ q → KeptOrMade fs fs1 target p)
    (hq : ∀ t, lookup fs q ≠ some (.symlink t))
    (hq1 : ∀ t, lookup fs1 q ≠ some (.symlink t)) : SameLinks fs fs1 := by
  intro p t
  by_cases hp : p = q
  · subst hp
    constructor
    · intro h1; exact absurd h1 (hq1 t)
    · intro h0; exact absurd h0 (hq t)
  · rcases h p hp with h1 | ⟨h0, _, perm, h1⟩
    · rw [h1]
    · rw [h0, h1]; simp

theorem mirrorFile_post (env : Env) (src dst : Path) (w0 w9 : World) (sfi : FileInfo)
    (hs : osStat w0.fs src = .ok sfi) (hreg : sfi.Mode &&& ModeType = 0)
    (hd : ∀ dfi, osStat w0.fs dst = .ok dfi → dfi.Mode &&& ModeType = 0)
    (h : mirrorFile env src dst w0 = (.ret none, w9)) :
    osStat w9.fs src = .ok sfi ∧ MirrorPair w9.fs src dst = true := by
  obtain ⟨ps, q, spm, sdata, smt, hfs, hls, hfd, hframe, hcase⟩ :=
    mirrorFile_effect env src dst w0 w9 h
  have hsfi : sfi = ⟨spm &&& chmodMask, (sdata.length : Int), smt⟩ := by
    have := osStat_file w0.fs src ps spm sdata smt hfs hls
    rw [hs] at this
    cases this
    rfl
  subst hsfi
  rcases hcase with ⟨hfs9, _, dfi, hdst, h1, h2, h3, h4⟩ | ⟨hne, _, hl9⟩ | ⟨k, perm, perm1, hl0, _⟩
  · rw [hfs9]
    refine ⟨hs, ?_⟩
    rw [mirrorPair_iff _ _ _ _ hs]
    exact ⟨dfi, hdst, h1, h2, h3, h4⟩
  · have SL : SameLinks w0.fs w9.fs :=
      sameLinks_of_effect _ _ q _ hframe (follow_not_link _ _ _ _ hfd)
        (by rw [hl9]; intro t; simp)
    have hls9 : lookup w9.fs ps = some (.file spm sdata smt) := by
      rcases hframe ps hne with hk | ⟨hk, _⟩
      · rw [hk]; exact hls
      · rw [hls] at hk; cases hk
    have hs9 := osStat_file w9.fs src ps spm sdata smt (by rw [follow_congr SL]; exact hfs) hls9
    have hd9 := osStat_file w9.fs dst q (spm &&& chmodMask) sdata smt
      (by rw [follow_congr SL]; exact hfd) hl9
    refine ⟨hs9, ?_⟩
    rw [mirrorPair_iff _ _ _ _ hs9]
    refine ⟨_, hd9, ?_, file_mode_regular _, rfl, rfl⟩
    simp only [FileInfo.Mode, land_chmodMask_idem]
  · exfalso
    have hdst : osStat w0.fs dst = .ok (Node.special k perm).info := by
      unfold osStat
      rw [hfd]
      simp only [hl0]
    have := hd _ hdst
    exact special_mode_type k _ this

/-- C1, as amended. If the source stats as a regular file, the destination
does not exist or stats as a regular file, and `mirrorFile` returns nil, then
afterwards the source stats as before and the destination exists, is a
regular file, and has the size, executable-bit state and whole-second
modification time of the source. -/
theorem mirrorFile_mirror_pair (env : Env) (src dst : Path) (w0 w9 : World) (sfi : FileInfo)
    (hs : osStat w0.fs src = .ok sfi) (hreg : sfi.Mode &&& ModeType = 0)
    (hd : ∀ dfi, osStat w0.fs dst = .ok dfi → dfi.Mode &&& ModeType = 0)
    (h : mirrorFile env src dst w0 = (.ret none, w9)) :
    osStat w9.fs src = .ok sfi ∧ MirrorPair w9.fs src dst = true :=
  mirrorFile_post env src dst w0 w9 sfi hs hreg hd h

theorem mirrorFile_mirror_pair_witness :
    osStat (mirrorFile quiet gaugeBin outFile start).2.fs gaugeBin = .ok gaugeInfo ∧
      MirrorPair (mirrorFile quiet gaugeBin outFile start).2.fs gaugeBin outFile = true :=
  mirrorFile_mirror_pair quiet gaugeBin outFile start _ gaugeInfo (by decide) (by decide)
    (by
      intro dfi hdfi
      have he : osStat start.fs outFile = .error (.path "stat" outFile .ENOENT) := by decide
      rw [he] at hdfi
      cases hdfi)
    (Prod.ext (by decide) rfl)

/-- C1, as stated, fails when the destination is a device: the copy onto
`/dev/null` returns nil and the destination is no regular file afterwards. -/
theorem mirrorFile_onto_device :
    osStat start.fs gaugeBin = .ok gaugeInfo ∧ gaugeInfo.Mode &&& ModeType = 0 ∧
      (mirrorFile quiet gaugeBin devNull start).1 = .ret none ∧
      MirrorPair (mirrorFile quiet gaugeBin devNull start).2.fs gaugeBin devNull = false := by
  decide

/-- When the skip test fails, the first call of `mirrorFile` is `os.MkdirAll`
on the parent of the destination. -/
theorem mirrorFile_copy_trace (env : Env) (src dst : Path) (w0 : World) (sfi : FileInfo)
    (hs : osStat w0.fs src = .ok sfi) (hreg : sfi.Mode &&& ModeType = 0)
    (hskip : MirrorPair w0.fs src dst = false) :
    ∃ evs, (mirrorFile env src dst w0).2.trace =
      w0.trace ++ [.mirrorFile src dst, .mkdirAll (Dir dst) 0o755] ++ evs ∧
      ∀ e ∈ evs, e.isSys = true := by
  generalize hmk : osMkdirAll env (Dir dst) 0o755 (w0.emit (.mirrorFile src dst)) = rmk
  obtain ⟨r1, w1⟩ := rmk
  have t1 := osMkdirAll_trace _ _ _ _ _ _ hmk
  simp only [World.emit] at t1
  have hun := unmodified_eq w0.fs src dst sfi hs
  rw [hskip] at hun
  rcases r1 with _ | e1
  · generalize hcr : osCreate env dst w1 = rcr
    obtain ⟨r2, w2⟩ := rcr
    have t2 := osCreate_trace _ _ _ _ _ hcr
    rcases r2 with e2 | df
    · refine ⟨[.create dst], ?_⟩
      unfold mirrorFile
      simp only [World.emit] at hmk hun ⊢
      simp only [hs, hreg, hun, hmk, hcr]
      simp [t2, t1, Event.isSys]
    · generalize hop : osOpen env src w2 = rop
      obtain ⟨r3, w3⟩ := rop
      have t3 := osOpen_trace _ _ _ _ _ hop
      rcases r3 with e3 | sf
      · refine ⟨[.create dst, .openRead src], ?_⟩
        unfold mirrorFile
        simp only [World.emit] at hmk hun ⊢
        simp only [hs, hreg, hun, hmk, hcr, hop]
        simp [t3, t2, t1, Event.isSys]
      · rw [mirrorFile_tail env src dst w0 w1 w2 w3 sfi df sf hs hreg hskip hmk hcr hop]
        generalize hc : ioCopy env df sf w3 = rc
        obtain ⟨⟨n, err⟩, w4⟩ := rc
        obtain ⟨m, t4⟩ := ioCopy_trace _ _ _ _ _ _ hc
        simp only
        generalize hcl : fileClose env df w4 = rcl
        obtain ⟨cerr, w5⟩ := rcl
        have t5 := fileClose_effect _ _ _ _ _ hcl
        simp only
        split
        · exact ⟨[.create dst, .openRead src, .copy df sf m, .close df, .close sf], by
            simp [World.emit, t5, t4, t3, t2, t1, Event.isSys]⟩
        · exact ⟨[.create dst, .openRead src, .copy df sf m, .close df, .close sf], by
            simp [World.emit, t5, t4, t3, t2, t1, Event.isSys]⟩
        · generalize hch : osChmod env dst sfi.Mode w5 = rch
          obtain ⟨e6, w6⟩ := rch
          have t6 := osChmod_trace _ _ _ _ _ _ hch
          rcases e6 with _ | e6
          · generalize hct : osChtimes env dst sfi.ModTime sfi.ModTime w6 = rct
            obtain ⟨e7, w7⟩ := rct
            have t7 := osChtimes_trace _ _ _ _ _ _ _ hct
            exact ⟨[.create dst, .openRead src, .copy df sf m, .close df,
              .chmod dst sfi.Mode, .chtimes dst sfi.ModTime sfi.ModTime, .close sf], by
              simp [World.emit, hct, t7, t6, t5, t4, t3, t2, t1, Event.isSys]⟩
          · exact ⟨[.create dst, .openRead src, .copy df sf m, .close df,
              .chmod dst sfi.Mode, .close sf], by
              simp [World.emit, t6, t5, t4, t3, t2, t1, Event.isSys]⟩
  · refine ⟨[], ?_⟩
    unfold mirrorFile
    simp only [World.emit] at hmk hun ⊢
    simp only [hs, hreg, hun, hmk]
    simp [t1]

/-- C2. For a source that stats as a regular file, `mirrorFile` takes the
skip branch (it returns nil, the file system is unchanged, and no call is
issued: the trace only gains the entry marker) exactly when the destination
exists, is a regular file and has the executable-bit state, the size and the
whole-second modification time of the source; in every other case it goes on
to the copy procedure, whose first call is `os.MkdirAll` on the parent of the
destination. -/
theorem mirrorFile_skip_rule (env : Env) (src dst : Path) (w0 : World) (sfi : FileInfo)
    (hs : osStat w0.fs src = .ok sfi) (hreg : sfi.Mode &&& ModeType = 0) :
    (mirrorFile env src dst w0 = (.ret none, w0.emit (.mirrorFile src dst)) ↔
        MirrorPair w0.fs src dst = true) ∧
      (MirrorPair w0.fs src dst = false →
        ∃ evs, (mirrorFile env src dst w0).2.trace =
          w0.trace ++ [.mirrorFile src dst, .mkdirAll (Dir dst) 0o755] ++ evs) := by
  refine ⟨⟨?_, ?_⟩, fun h => ?_⟩
  rotate_left 2
  · obtain ⟨evs, ht, _⟩ := mirrorFile_copy_trace env src dst w0 sfi hs hreg h
    exact ⟨evs, ht⟩
  · intro h
    by_contra hne
    have hf : MirrorPair w0.fs src dst = false := by
      cases hm : MirrorPair w0.fs src dst
      · rfl
      · exact absurd hm hne
    obtain ⟨evs, ht, _⟩ := mirrorFile_copy_trace env src dst w0 sfi hs hreg hf
    rw [h] at ht
    have := congrArg List.length ht
    simp [World.emit] at this
  · intro h
    obtain ⟨dfi, hd, h1, h2, h3, h4⟩ := (mirrorPair_iff _ _ _ _ hs).1 h
    exact mirrorFile_skip env src dst w0 sfi dfi hs hreg hd h1 h2 h3 h4

theorem mirrorFile_skip_rule_witness :
    (mirrorFile quiet gaugeBin outFile start =
        (.ret none, start.emit (.mirrorFile gaugeBin outFile)) ↔
        MirrorPair start.fs gaugeBin outFile = true) ∧
      (MirrorPair start.fs gaugeBin outFile = false →
        ∃ evs, (mirrorFile quiet gaugeBin outFile start).2.trace =
          start.trace ++ [.mirrorFile gaugeBin outFile, .mkdirAll (Dir outFile) 0o755] ++ evs) :=
  mirrorFile_skip_rule quiet gaugeBin outFile start gaugeInfo (by decide) (by decide)

/-- C6. In a run of `mirrorFile` that reaches the byte copy, if the copy
reports no error but a byte count `n` other than the size of the initial stat
of the source, then `mirrorFile` returns the error whose message names `n` and
that size; the world it ends in is the one after the copy plus the two closes,
so neither `os.Chmod` nor `os.Chtimes` is called. -/
theorem mirrorFile_short_copy (env : Env) (src dst : Path) (w0 w1 w2 w3 w4 : World)
    (sfi : FileInfo) (df sf : Path) (n : Int)
    (hs : osStat w0.fs src = .ok sfi) (hreg : sfi.Mode &&& ModeType = 0)
    (hskip : MirrorPair w0.fs src dst = false)
    (hmk : osMkdirAll env (Dir dst) 0o755 (w0.emit (.mirrorFile src dst)) = (none, w1))
    (hcr : osCreate env dst w1 = (.ok df, w2))
    (hop : osOpen env src w2 = (.ok sf, w3))
    (hc : ioCopy env df sf w3 = ((n, none), w4))
    (hn : n ≠ sfi.Size) :
    mirrorFile env src dst w0 =
        (.ret (some (.errorf (wrongSizeMsg src dst n sfi.Size))),
          (w4.emit (.close df)).emit (.close sf)) ∧
      wrongSizeMsg src dst n sfi.Size =
        "copied wrong size for " ++ pathString src ++ " -> " ++ pathString dst ++
          ": copied " ++ toString n ++ "; want " ++ toString sfi.Size ∧
      ((w4.emit (.close df)).emit (.close sf)).fs = w4.fs ∧
      ((w4.emit (.close df)).emit (.close sf)).trace = w4.trace ++ [.close df, .close sf] := by
  refine ⟨?_, rfl, rfl, by simp [World.emit]⟩
  rw [mirrorFile_tail env src dst w0 w1 w2 w3 sfi df sf hs hreg hskip hmk hcr hop, hc]
  simp only
  generalize hcl : fileClose env df w4 = rcl
  obtain ⟨cerr, w5⟩ := rcl
  have t5 := fileClose_effect _ _ _ _ _ hcl
  subst t5
  simp [hn]

theorem mirrorFile_short_copy_witness :
    mirrorFile oneByte gaugeBin outFile start =
        (.ret (some (.errorf (wrongSizeMsg gaugeBin outFile 1 gaugeInfo.Size))),
          ((afterCopy oneByte).emit (.close outFile)).emit (.close gaugeBin)) ∧
      wrongSizeMsg gaugeBin outFile 1 gaugeInfo.Size =
        "copied wrong size for " ++ pathString gaugeBin ++ " -> " ++ pathString outFile ++
          ": copied " ++ toString (1 : Int) ++ "; want " ++ toString gaugeInfo.Size ∧
      (((afterCopy oneByte).emit (.close outFile)).emit (.close gaugeBin)).fs =
        (afterCopy oneByte).fs ∧
      (((afterCopy oneByte).emit (.close outFile)).emit (.close gaugeBin)).trace =
        (afterCopy oneByte).trace ++ [.close outFile, .close gaugeBin] :=
  mirrorFile_short_copy oneByte gaugeBin outFile start (afterMkdir oneByte)
    (afterCreate oneByte) (afterOpen oneByte) (afterCopy oneByte) gaugeInfo outFile gaugeBin 1
    (by decide) (by decide) (by decide) (by decide) (by decide) (by decide) (by decide)
    (by decide)

/-- C10, as amended. In a run of `mirrorFile` that reaches the close of the
destination file, if that close fails then `mirrorFile` returns an error and
ends in the world after the copy plus the two closes, so neither `os.Chmod`
nor `os.Chtimes` is called. The error returned is the close error when the
copy reported no error and the expected byte count; it is the copy error when
the copy reported one, and the wrong-size error when the count was wrong. -/
theorem mirrorFile_close_error (env : Env) (src dst : Path) (w0 w1 w2 w3 w4 w5 : World)
    (sfi : FileInfo) (df sf : Path) (n : Int) (err : Option Err) (cerr : Err)
    (hs : osStat w0.fs src = .ok sfi) (hreg : sfi.Mode &&& ModeType = 0)
    (hskip : MirrorPair w0.fs src dst = false)
    (hmk : osMkdirAll env (Dir dst) 0o755 (w0.emit (.mirrorFile src dst)) = (none, w1))
    (hcr : osCreate env dst w1 = (.ok df, w2))
    (hop : osOpen env src w2 = (.ok sf, w3))
    (hc : ioCopy env df sf w3 = ((n, err), w4))
    (hcl : fileClose env df w4 = (some cerr, w5)) :
    ∃ e, mirrorFile env src dst w0 =
        (.ret (some e), (w4.emit (.close df)).emit (.close sf)) ∧
      (err = none → n = sfi.Size → e = cerr) ∧
      (∀ e1, err = some e1 → e = e1) ∧
      (err = none → n ≠ sfi.Size → e = .errorf (wrongSizeMsg src dst n sfi.Size)) := by
  rw [mirrorFile_tail env src dst w0 w1 w2 w3 sfi df sf hs hreg hskip hmk hcr hop, hc]
  simp only
  rw [hcl]
  have t5 := fileClose_effect _ _ _ _ _ hcl
  subst t5
  rcases err with _ | e1
  · by_cases hn : n = sfi.Size
    · exact ⟨cerr, by simp [hn], fun _ _ => rfl, fun e1 h => (by cases h),
        fun _ h => absurd hn h⟩
    · exact ⟨_, by simp [hn], fun _ h => absurd h hn, fun e1 h => (by cases h),
        fun _ _ => rfl⟩
  · exact ⟨e1, by simp, fun h => (by cases h), fun e2 h => (by cases h; rfl),
      fun h => (by cases h)⟩

theorem mirrorFile_close_error_witness :
    ∃ e, mirrorFile failsAt5 gaugeBin outFile start =
        (.ret (some e), ((afterCopy failsAt5).emit (.close outFile)).emit (.close gaugeBin)) ∧
      ((none : Option Err) = none → (3 : Int) = gaugeInfo.Size →
        e = .path "close" outFile (.injected 2)) ∧
      (∀ e1, (none : Option Err) = some e1 → e = e1) ∧
      ((none : Option Err) = none → (3 : Int) ≠ gaugeInfo.Size →
        e = .errorf (wrongSizeMsg gaugeBin outFile 3 gaugeInfo.Size)) :=
  mirrorFile_close_error failsAt5 gaugeBin outFile start (afterMkdir failsAt5)
    (afterCreate failsAt5) (afterOpen failsAt5) (afterCopy failsAt5) (afterClose failsAt5)
    gaugeInfo outFile gaugeBin 3 none (.path "close" outFile (.injected 2))
    (by decide) (by decide) (by decide) (by decide) (by decide) (by decide) (by decide)
    (by decide)

/-- C10, as stated, fails when the copy has failed before the close does:
`mirrorFile` returns the error of the copy, not the error of the close. -/
theorem mirrorFile_close_error_masked :
    osStat start.fs gaugeBin = .ok gaugeInfo ∧
      MirrorPair start.fs gaugeBin outFile = false ∧
      osCreate failsAt45 outFile (afterMkdir failsAt45) = (.ok outFile, afterCreate failsAt45) ∧
      osOpen failsAt45 gaugeBin (afterCreate failsAt45) = (.ok gaugeBin, afterOpen failsAt45) ∧
      ioCopy failsAt45 outFile gaugeBin (afterOpen failsAt45) =
        ((3, some (.path "write" outFile (.injected 1))), afterCopy failsAt45) ∧
      fileClose failsAt45 outFile (afterCopy failsAt45) =
        (some (.path "close" outFile (.injected 2)), afterClose failsAt45) ∧
      (mirrorFile failsAt45 gaugeBin outFile start).1 =
        .ret (some (.path "write" outFile (.injected 1))) ∧
      (mirrorFile failsAt45 gaugeBin outFile start).1 ≠
        .ret (some (.path "close" outFile (.injected 2))) := by
  decide

theorem relFrom_append (root rel : Path) : relFrom root (root ++ rel) = some rel := by
  induction root with
  | nil => cases rel <;> rfl
  | cons c root ih => simp [relFrom, ih]

theorem Rel_append (root rel : Path) : Rel root (root ++ rel) = .ok rel := by
  unfold Rel
  rw [relFrom_append]

/-- C5, as amended. Whenever `os.Stat` of the source (which follows symbolic
links) succeeds and reports a mode with a type bit, `mirrorFile` ends the
process with `log.Fatalf` before any call that writes: the file system is
unchanged and the trace only gains the entry marker. The walk function of
`mirrorDir` hands every entry that is not a directory to `mirrorFile`, so it
ends the same way on such an entry. -/
theorem mirrorFile_non_regular_fatal (env : Env) (w : World) (sfi : FileInfo)
    (hn : sfi.Mode &&& ModeType ≠ 0) :
    (∀ src dst, osStat w.fs src = .ok sfi →
        mirrorFile env src dst w = (.fatal (nonRegularMsg src), w.emit (.mirrorFile src dst))) ∧
      (∀ root dstRoot rel fi, fi.IsDir = false → osStat w.fs (Join root rel) = .ok sfi →
        mirrorDirFn env root dstRoot (Join root rel) (.ok fi) w =
          (.fatal (nonRegularMsg (Join root rel)),
            w.emit (.mirrorFile (Join root rel) (Join dstRoot rel)))) := by
  have h1 : ∀ src dst, osStat w.fs src = .ok sfi →
      mirrorFile env src dst w =
        (.fatal (nonRegularMsg src), w.emit (.mirrorFile src dst)) := by
    intro src dst hs
    unfold mirrorFile
    simp only [World.emit] at hs ⊢
    simp only [hs]
    simp [hn]
  refine ⟨h1, ?_⟩
  intro root dstRoot rel fi hdir hs
  unfold mirrorDirFn
  simp only [hdir, Join, Rel_append]
  simp only [Bool.false_eq_true, if_false]
  exact h1 _ _ hs

theorem mirrorFile_non_regular_fatal_witness :
    mirrorFile quiet pipe outFile start =
        (.fatal (nonRegularMsg pipe), start.emit (.mirrorFile pipe outFile)) ∧
      mirrorDirFn quiet ["proj"] ["out"] (Join ["proj"] ["pipe"]) (.ok pipeInfo) start =
        (.fatal (nonRegularMsg (Join ["proj"] ["pipe"])),
          start.emit (.mirrorFile (Join ["proj"] ["pipe"]) (Join ["out"] ["pipe"]))) :=
  ⟨(mirrorFile_non_regular_fatal quiet start pipeInfo (by decide)).1 pipe outFile (by decide),
    (mirrorFile_non_regular_fatal quiet start pipeInfo (by decide)).2 ["proj"] ["out"] ["pipe"]
      pipeInfo (by decide) (by decide)⟩

/-- C5, as stated, fails for a symbolic link to a regular file: `os.Lstat`
reports a symbolic link, yet `mirrorFile` copies the file it points to. -/
theorem mirrorFile_symlink_source_copied :
    (osLstat start.fs link).map (fun fi => decide (fi.Mode &&& ModeType = 0)) = .ok false ∧
      mirrorFile quiet link outFile start =
        (.ret none,
          { fs := store (store start.fs ["out"] (.dir 0o755)) outFile
              (.file 0o755 [1, 2, 3] ⟨5, 7⟩),
            trace := [.mirrorFile link outFile, .mkdirAll ["out"] 0o755, .create outFile,
              .openRead link, .copy outFile gaugeBin 3, .close outFile,
              .chmod outFile 0o755, .chtimes outFile ⟨5, 7⟩ ⟨5, 7⟩, .close gaugeBin] }) := by
  decide

/-! ## Installer -/

/-- C8 fails on the code. In install mode with the default prefix, `main`
mirrors `bin/gauge` to `/usr/local/bin/gauge`, but then calls `mirrorFile` for
`bin/gauge-java` with the destination `/usr/local/bin` itself (make.go 217):
`os.Create` fails on that directory, `main` panics, and no file
`/usr/local/bin/gauge-java` exists. -/
theorem install_gauge_java_destination :
    (main quiet 5 ⟨false, true, none⟩ start).1 =
        .panic (.path "open" ["usr", "local", "bin"] .EISDIR) ∧
      Event.mirrorFile ["proj", "bin", "gauge"] ["usr", "local", "bin", "gauge"] ∈
        (main quiet 5 ⟨false, true, none⟩ start).2.trace ∧
      Event.mirrorFile ["proj", "bin", "gauge-java"] ["usr", "local", "bin"] ∈
        (main quiet 5 ⟨false, true, none⟩ start).2.trace ∧
      Event.mirrorFile ["proj", "bin", "gauge-java"] ["usr", "local", "bin", "gauge-java"] ∉
        (main quiet 5 ⟨false, true, none⟩ start).2.trace ∧
      lookup (main quiet 5 ⟨false, true, none⟩ start).2.fs ["usr", "local", "bin", "gauge"] =
        some (.file 0o755 [1, 2, 3] ⟨5, 7⟩) ∧
      lookup (main quiet 5 ⟨false, true, none⟩ start).2.fs
        ["usr", "local", "bin", "gauge-java"] = none := by
  decide

/-! ## Change detection -/

theorem fileContent_file (fs : FS) (p q : Path) (perm : Nat) (d : List Nat) (t : Time)
    (hf : follow fs maxSymlinks p = .ok q) (hl : lookup fs q = some (.file perm d t)) :
    fileContent fs p = some d := by
  unfold fileContent
  rw [hf]
  simp only [hl]

/-- C4, as amended. Let F have been mirrored to D (absent or a regular file
before) by a `mirrorFile` that returned nil, let D be left alone afterwards,
and let a second `mirrorFile(F, D)` return nil. If the size, the whole-second
modification time or the executable-bit state of F differs from what the
first run saw, then after the second run D has the bytes, the size, the mode
and the modification time of F, and F is as it was. If none of the three
differs, the second run leaves the file system as it found it. -/
theorem mirrorFile_change_detection (env0 env : Env) (F D : Path) (w0 w1 w2 w3 : World)
    (sfi1 sfi2 : FileInfo)
    (hs0 : osStat w0.fs F = .ok sfi1) (hreg1 : sfi1.Mode &&& ModeType = 0)
    (hd0 : ∀ dfi, osStat w0.fs D = .ok dfi → dfi.Mode &&& ModeType = 0)
    (hfirst : mirrorFile env0 F D w0 = (.ret none, w1))
    (hD : osStat w2.fs D = osStat w1.fs D)
    (hs2 : osStat w2.fs F = .ok sfi2)
    (hsecond : mirrorFile env F D w2 = (.ret none, w3)) :
    ((sfi2.Size ≠ sfi1.Size ∨ sfi2.ModTime.Unix ≠ sfi1.ModTime.Unix ∨
          isExecMode sfi2.Mode ≠ isExecMode sfi1.Mode) →
        osStat w3.fs F = .ok sfi2 ∧ osStat w3.fs D = .ok sfi2 ∧
          fileContent w3.fs D = fileContent w2.fs F ∧
          fileContent w3.fs F = fileContent w2.fs F) ∧
      ((sfi2.Size = sfi1.Size ∧ sfi2.ModTime.Unix = sfi1.ModTime.Unix ∧
          isExecMode sfi2.Mode = isExecMode sfi1.Mode) → w3.fs = w2.fs) := by
  obtain ⟨hs1, hmp1⟩ := mirrorFile_post env0 F D w0 w1 sfi1 hs0 hreg1 hd0 hfirst
  obtain ⟨dfi1, hd1, e1, r1, z1, t1⟩ := (mirrorPair_iff _ _ _ _ hs1).1 hmp1
  rw [← hD] at hd1
  obtain ⟨sfi, hs, hreg2, _⟩ := mirrorFile_ret_none env F D w2 w3 hsecond
  rw [hs2] at hs
  cases hs
  constructor
  · intro hchg
    obtain ⟨ps, q, spm, sdata, smt, hfs, hls, hfd, hframe, hcase⟩ :=
      mirrorFile_effect env F D w2 w3 hsecond
    have hsfi : sfi2 = ⟨spm &&& chmodMask, (sdata.length : Int), smt⟩ := by
      have := osStat_file w2.fs F ps spm sdata smt hfs hls
      rw [hs2] at this
      cases this
      rfl
    subst hsfi
    rcases hcase with ⟨_, _, dfi, hdst, h1, h2, h3, h4⟩ | ⟨hne, _, hl9⟩ |
        ⟨k, perm, perm1, hl0, _⟩
    · exfalso
      rw [hd1] at hdst
      cases hdst
      rcases hchg with hc | hc | hc
      · exact hc (by rw [← z1, h3]; rfl)
      · exact hc (by rw [← t1, h4]; rfl)
      · exact hc (by rw [e1, ← h1]; rfl)
    · have SL : SameLinks w2.fs w3.fs :=
        sameLinks_of_effect _ _ q _ hframe (follow_not_link _ _ _ _ hfd)
          (by rw [hl9]; intro t; simp)
      have hls9 : lookup w3.fs ps = some (.file spm sdata smt) := by
        rcases hframe ps hne with hk | ⟨hk, _⟩
        · rw [hk]; exact hls
        · rw [hls] at hk; cases hk
      have hf9 : follow w3.fs maxSymlinks F = .ok ps := by rw [follow_congr SL]; exact hfs
      have hd9 : follow w3.fs maxSymlinks D = .ok q := by rw [follow_congr SL]; exact hfd
      refine ⟨osStat_file _ _ _ _ _ _ hf9 hls9, ?_, ?_, ?_⟩
      · rw [osStat_file _ _ _ _ _ _ hd9 hl9, land_chmodMask_idem]
      · rw [fileContent_file _ _ _ _ _ _ hd9 hl9, fileContent_file _ _ _ _ _ _ hfs hls]
      · rw [fileContent_file _ _ _ _ _ _ hf9 hls9, fileContent_file _ _ _ _ _ _ hfs hls]
    · exfalso
      have hdst : osStat w2.fs D = .ok (Node.special k perm).info := by
        unfold osStat
        rw [hfd]
        simp only [hl0]
      rw [hd1] at hdst
      cases hdst
      exact special_mode_type k _ r1
  · rintro ⟨hz, ht, he⟩
    have hskip := mirrorFile_skip env F D w2 sfi2 dfi1 hs2 hreg2 hd1
      (by rw [he, e1]) r1 (by rw [z1, hz]) (by rw [t1, ht])
    rw [hskip] at hsecond
    cases hsecond
    rfl

theorem mirrorFile_change_detection_witness :
    (((4 : Int) ≠ gaugeInfo.Size ∨ (8 : Int) ≠ gaugeInfo.ModTime.Unix ∨
          isExecMode 0o755 ≠ isExecMode gaugeInfo.Mode) →
        osStat (mirrorFile quiet gaugeBin outFile rewritten).2.fs gaugeBin =
            .ok ⟨0o755, 4, ⟨8, 0⟩⟩ ∧
          osStat (mirrorFile quiet gaugeBin outFile rewritten).2.fs outFile =
            .ok ⟨0o755, 4, ⟨8, 0⟩⟩ ∧
          fileContent (mirrorFile quiet gaugeBin outFile rewritten).2.fs outFile =
            fileContent rewritten.fs gaugeBin ∧
          fileContent (mirrorFile quiet gaugeBin outFile rewritten).2.fs gaugeBin =
            fileContent rewritten.fs gaugeBin) ∧
      (((4 : Int) = gaugeInfo.Size ∧ (8 : Int) = gaugeInfo.ModTime.Unix ∧
          isExecMode 0o755 = isExecMode gaugeInfo.Mode) →
        (mirrorFile quiet gaugeBin outFile rewritten).2.fs = rewritten.fs) :=
  mirrorFile_change_detection quiet quiet gaugeBin outFile start mirroredOnce rewritten
    (mirrorFile quiet gaugeBin outFile rewritten).2 gaugeInfo ⟨0o755, 4, ⟨8, 0⟩⟩
    (by decide) (by decide)
    (by
      intro dfi hdfi
      have he : osStat start.fs outFile = .error (.path "stat" outFile .ENOENT) := by decide
      rw [he] at hdfi
      cases hdfi)
    (Prod.ext (by decide) rfl) (by decide) (by decide) (Prod.ext (by decide) rfl)

/-- C4, as stated, fails when only the bytes of F change: size and
modification time are as before, the second run skips the copy, and D keeps
the old bytes. -/
theorem mirrorFile_content_change_missed :
    mirrorFile quiet gaugeBin outFile start = (.ret none, mirroredOnce) ∧
      fileContent mirroredOnce.fs gaugeBin = some [1, 2, 3] ∧
      fileContent edited.fs gaugeBin = some [9, 9, 9] ∧
      (mirrorFile quiet gaugeBin outFile edited).1 = .ret none ∧
      fileContent (mirrorFile quiet gaugeBin outFile edited).2.fs gaugeBin = some [9, 9, 9] ∧
      fileContent (mirrorFile quiet gaugeBin outFile edited).2.fs outFile = some [1, 2, 3] := by
  decide

/-! ## Traces of the mirror and of the walk -/

theorem runs_append (a b : List Event) : runs (a ++ b) = runs a ++ runs b := by
  induction a with
  | nil => rfl
  | cons e a ih => cases e <;> simp [runs, ih]

theorem calls_append (a b : List Event) : calls (a ++ b) = calls a ++ calls b := by
  induction a with
  | nil => rfl
  | cons e a ih => cases e <;> simp [calls, ih]

theorem runs_of_isSys (evs : List Event) (h : ∀ e ∈ evs, e.isSys = true) : runs evs = [] := by
  induction evs with
  | nil => rfl
  | cons e evs ih =>
    have he := h e (List.mem_cons_self _ _)
    have ih1 := ih (fun x hx => h x (List.mem_cons_of_mem _ hx))
    cases e <;> simp [Event.isSys] at he <;> simp [runs, ih1]

theorem calls_of_isSys (evs : List Event) (h : ∀ e ∈ evs, e.isSys = true) : calls evs = [] := by
  induction evs with
  | nil => rfl
  | cons e evs ih =>
    have he := h e (List.mem_cons_self _ _)
    have ih1 := ih (fun x hx => h x (List.mem_cons_of_mem _ hx))
    cases e <;> simp [Event.isSys] at he <;> simp [calls, ih1]

/-- The trace of any `mirrorFile` call: the entry marker, then system calls. -/
theorem mirrorFile_trace (env : Env) (src dst : Path) (w0 : World) :
    ∃ evs, (mirrorFile env src dst w0).2.trace = w0.trace ++ .mirrorFile src dst :: evs ∧
      ∀ e ∈ evs, e.isSys = true := by
  cases hs : osStat w0.fs src with
  | error e =>
    refine ⟨[], ?_, by simp⟩
    unfold mirrorFile
    simp only [World.emit] at hs ⊢
    simp only [hs]
  | ok sfi =>
    by_cases hreg : sfi.Mode &&& ModeType = 0
    · cases hm : MirrorPair w0.fs src dst with
      | true =>
        obtain ⟨dfi, hd, h1, h2, h3, h4⟩ := (mirrorPair_iff _ _ _ _ hs).1 hm
        rw [mirrorFile_skip env src dst w0 sfi dfi hs hreg hd h1 h2 h3 h4]
        exact ⟨[], rfl, by simp⟩
      | false =>
        obtain ⟨evs, ht, hsys⟩ := mirrorFile_copy_trace env src dst w0 sfi hs hreg hm
        refine ⟨.mkdirAll (Dir dst) 0o755 :: evs, by simp [ht], ?_⟩
        intro e he
        rcases List.mem_cons.1 he with h | h
        · subst h; rfl
        · exact hsys e h
    · refine ⟨[], ?_, by simp⟩
      unfold mirrorFile
      simp only [World.emit] at hs ⊢
      simp only [hs]
      simp [hreg]

theorem noRun_refl (w : World) : NoRun w w := ⟨[], by simp, rfl⟩

theorem noRun_trans {a b c : World} (h1 : NoRun a b) (h2 : NoRun b c) : NoRun a c := by
  obtain ⟨e1, t1, r1⟩ := h1
  obtain ⟨e2, t2, r2⟩ := h2
  exact ⟨e1 ++ e2, by rw [t2, t1, List.append_assoc], by rw [runs_append, r1, r2]; rfl⟩

theorem mirrorFile_noRun (env : Env) (src dst : Path) (w : World) :
    NoRun w (mirrorFile env src dst w).2 := by
  obtain ⟨evs, ht, hsys⟩ := mirrorFile_trace env src dst w
  exact ⟨_, ht, by simp [runs, runs_of_isSys evs hsys]⟩

theorem mirrorDirFn_noRun (env : Env) (src dst path : Path) (r : Except Err FileInfo)
    (w : World) : NoRun w (mirrorDirFn env src dst path r w).2 := by
  unfold mirrorDirFn
  split
  · exact noRun_refl w
  · split
    · exact noRun_refl w
    · split
      · exact noRun_refl w
      · exact mirrorFile_noRun _ _ _ _

theorem walkNames_noRun (walkRec : Path → FileInfo → World → Res (Option Err) × World)
    (walkFn : WalkFunc) (hrec : ∀ p i w, NoRun w (walkRec p i w).2)
    (hfn : ∀ p r w, NoRun w (walkFn p r w).2) (path : Path) (names : List String) (w : World) :
    NoRun w (walkNames walkRec walkFn path names w).2 := by
  induction names generalizing w with
  | nil => exact noRun_refl w
  | cons name rest ih =>
    unfold walkNames
    simp only
    split
    · rename_i err _
      have h1 := hfn (Join path [name]) (.error err) w
      split
      · rename_i w1 heq
        rw [heq] at h1
        exact noRun_trans h1 (ih w1)
      · exact h1
    · rename_i fileInfo _
      have h1 := hrec (Join path [name]) fileInfo w
      split
      · rename_i w1 heq
        rw [heq] at h1
        exact noRun_trans h1 (ih w1)
      · exact h1

theorem walk_noRun (walkFn : WalkFunc) (hfn : ∀ p r w, NoRun w (walkFn p r w).2) (k : Nat)
    (path : Path) (info : FileInfo) (w : World) : NoRun w (walk walkFn k path info w).2 := by
  induction k generalizing path info w with
  | zero => exact noRun_refl w
  | succ k ih =>
    unfold walk
    split
    · exact hfn _ _ _
    · simp only
      have h1 := hfn path (.ok info) w
      split
      · rename_i w1 heq
        rw [heq] at h1
        exact noRun_trans h1 (walkNames_noRun _ _ (fun p i w => ih p i w) hfn _ _ _)
      · exact h1

theorem mirrorDir_noRun (env : Env) (fuel : Nat) (src dst : Path) (w : World) :
    NoRun w (mirrorDir env fuel src dst w).2 := by
  unfold mirrorDir Walk
  have h0 : NoRun w (w.emit (.log (copyingMsg src dst))) := ⟨_, rfl, rfl⟩
  simp only
  split
  · exact noRun_trans h0 (mirrorDirFn_noRun _ _ _ _ _ _)
  · exact noRun_trans h0 (walk_noRun _ (mirrorDirFn_noRun env src dst) _ _ _ _)

/-! ## The pipeline -/

theorem orPanic_snd (x : Res (Option Err) × World) : (orPanic x).2 = x.2 := by
  obtain ⟨r, w⟩ := x
  cases r with
  | ret a => cases a <;> rfl
  | fatal m => rfl
  | panic e => rfl
  | outOfFuel => rfl

theorem andThen_noRun (w : World) (r : Res Unit × World) (next : World → Res Unit × World)
    (h1 : NoRun w r.2) (h2 : ∀ w1, NoRun w1 (next w1).2) : NoRun w (andThen r next).2 := by
  obtain ⟨res, w1⟩ := r
  unfold andThen
  cases res with
  | ret a => exact noRun_trans h1 (h2 w1)
  | fatal m => exact h1
  | panic e => exact h1
  | outOfFuel => exact h1

theorem osMkdirAll_noRun (env : Env) (p : Path) (perm : Nat) (w : World) :
    NoRun w (orPanic (Prod.map Res.ret id (osMkdirAll env p perm w))).2 := by
  rw [orPanic_snd]
  exact ⟨[.mkdirAll p perm], osMkdirAll_trace env p perm w _ _ rfl, rfl⟩

theorem createGoPathForBuild_noRun (env : Env) (w : World) :
    NoRun w (createGoPathForBuild env w).2 := by
  unfold createGoPathForBuild
  exact andThen_noRun _ _ _ (osMkdirAll_noRun _ _ _ _) fun w1 =>
    andThen_noRun _ _ _ (osMkdirAll_noRun _ _ _ _) fun w2 => osMkdirAll_noRun _ _ _ _

theorem copyDepsToGoPath_noRun (env : Env) (fuel : Nat) (w : World) :
    NoRun w (copyDepsToGoPath env fuel w).2 := by
  unfold copyDepsToGoPath
  rw [orPanic_snd]
  exact mirrorDir_noRun _ _ _ _ _

theorem forEach_noRun (body : String → World → Res Unit × World)
    (h : ∀ p w, NoRun w (body p w).2) (l : List String) (w : World) :
    NoRun w (forEach body l w).2 := by
  induction l generalizing w with
  | nil => exact noRun_refl w
  | cons p rest ih =>
    unfold forEach
    exact andThen_noRun _ _ _ (h p w) ih

theorem copyGaugePackagesToGoPath_noRun (env : Env) (fuel : Nat) (w : World) :
    NoRun w (copyGaugePackagesToGoPath env fuel w).2 := by
  unfold copyGaugePackagesToGoPath
  have hb : ∀ p w, NoRun w (orPanic (mirrorDir env fuel (inCwd env [p])
      (inCwd env (Join BUILD_DIR_SRC [p])) w)).2 := by
    intro p w
    rw [orPanic_snd]
    exact mirrorDir_noRun _ _ _ _ _
  exact andThen_noRun _ _ _ (forEach_noRun _ hb _ _) (forEach_noRun _ hb _)

theorem copyBinaries_noRun (env : Env) (fuel : Nat) (w : World) :
    NoRun w (copyBinaries env fuel w).2 := by
  unfold copyBinaries
  refine andThen_noRun _ _ _ (osMkdirAll_noRun _ _ _ _) fun w1 =>
    andThen_noRun _ _ _ ?_ fun w2 => ⟨_, rfl, rfl⟩
  rw [orPanic_snd]
  exact mirrorDir_noRun _ _ _ _ _

theorem osSetenv_trace (env : Env) (key : String) (value : Path) (w w1 : World)
    (r : Option Err) (h : osSetenv env key value w = (r, w1)) :
    w1.trace = w.trace ++ [.setenv key value] := by
  unfold osSetenv at h
  simp only [World.emit] at h
  split at h <;> cases h <;> rfl

theorem cmdRun_trace (env : Env) (dir : Path) (cmd : List String) (w w1 : World)
    (r : Option Err) (h : cmdRun env dir cmd w = (r, w1)) :
    w1.trace = w.trace ++ [.run dir cmd] := by
  unfold cmdRun at h
  simp only at h
  split at h <;> cases h <;> rfl

theorem orPanic_ret (r : Option Err) (w : World) :
    orPanic (Prod.map Res.ret id (r, w)) =
      (match r with
        | none => .ret ()
        | some e => .panic e, w) := by
  cases r <;> rfl

/-- The trace of `compilePackages`: if it returns, `go install` ran once; if
it does not, `go install` ran once or not at all. -/
theorem compilePackages_runs (env : Env) (w w1 : World) (r : Res Unit)
    (h : compilePackages env w = (r, w1)) :
    ∃ evs, w1.trace = w.trace ++ evs ∧
      (runs evs = [goInstall] ∨ (r ≠ .ret () ∧ runs evs = [])) := by
  unfold compilePackages at h
  simp only at h
  generalize hse : osSetenv env "GOPATH" (inCwd env BUILD_DIR)
    (w.emit (.log ("GOPATH = " ++ pathString (inCwd env BUILD_DIR) ++ "\n"))) = rs at h
  obtain ⟨e1, w2⟩ := rs
  have t2 := osSetenv_trace _ _ _ _ _ _ hse
  simp only [World.emit] at t2
  rw [orPanic_ret] at h
  rcases e1 with _ | e1
  · simp only [andThen] at h
    generalize hrun : cmdRun env (inCwd env BUILD_DIR)
      ("go" :: (["install", "-v"] ++ gaugeExecutables))
      (w2.emit (.log (executeMsg ("go" :: (["install", "-v"] ++ gaugeExecutables))))) = rr at h
    obtain ⟨e2, w4⟩ := rr
    have t4 := cmdRun_trace _ _ _ _ _ _ hrun
    simp only [World.emit] at t4
    rw [orPanic_ret] at h
    have hw : w1 = w4 := by cases h; rfl
    refine ⟨[.log ("GOPATH = " ++ pathString (inCwd env BUILD_DIR) ++ "\n"),
      .setenv "GOPATH" (inCwd env BUILD_DIR),
      .log (executeMsg ("go" :: (["install", "-v"] ++ gaugeExecutables))),
      .run (inCwd env BUILD_DIR) ("go" :: (["install", "-v"] ++ gaugeExecutables))],
      ?_, Or.inl rfl⟩
    rw [hw, t4, t2]
    simp only [List.append_assoc, List.cons_append, List.nil_append]
  · simp only [andThen] at h
    cases h
    exact ⟨[.log ("GOPATH = " ++ pathString (inCwd env BUILD_DIR) ++ "\n"),
      .setenv "GOPATH" (inCwd env BUILD_DIR)],
      by rw [t2, List.append_assoc]; rfl, Or.inr ⟨by simp, rfl⟩⟩

/-- The trace of `compileJavaClasses`: `ant jar` ran once. -/
theorem compileJavaClasses_runs (env : Env) (w w1 : World) (r : Res Unit)
    (h : compileJavaClasses env w = (r, w1)) :
    ∃ evs, w1.trace = w.trace ++ evs ∧ runs evs = [antJar] := by
  unfold compileJavaClasses at h
  simp only at h
  generalize hrun : cmdRun env (inCwd env ["gauge-java"]) ["ant", "jar"]
    (w.emit (.log (executeMsg ["ant", "jar"]))) = rr at h
  obtain ⟨e2, w4⟩ := rr
  have t4 := cmdRun_trace _ _ _ _ _ _ hrun
  simp only [World.emit] at t4
  rw [orPanic_ret] at h
  have hw : w1 = w4 := by cases h; rfl
  exact ⟨[.log (executeMsg ["ant", "jar"]), .run (inCwd env ["gauge-java"]) ["ant", "jar"]],
    by rw [hw, t4, List.append_assoc]; rfl, rfl⟩

theorem staged_andThen (stage : World → Res Unit × World) (w : World)
    (next : World → Res Unit × World) (cmds : Res Unit → List (List String) → Prop)
    (rest : Res Unit × World → World → Prop)
    (htr : ∀ r w1, stage w = (r, w1) → ∃ evs, w1.trace = w.trace ++ evs ∧ cmds r (runs evs))
    (hrest : ∀ w1, stage w = (.ret (), w1) → rest (next w1) w1) :
    Staged (andThen (stage w) next) stage w cmds (rest (andThen (stage w) next)) := by
  cases hst : stage w with
  | mk r w1 =>
    obtain ⟨evs, ht, hc⟩ := htr r w1 hst
    refine ⟨r, w1, evs, hst, ht, hc, ?_⟩
    cases r with
    | ret a =>
      right
      refine ⟨rfl, ?_⟩
      exact hrest w1 hst
    | fatal m => left; exact ⟨by simp, rfl⟩
    | panic e => left; exact ⟨by simp, rfl⟩
    | outOfFuel => left; exact ⟨by simp, rfl⟩

theorem noRun_cmds {stage : World → Res Unit × World} {w : World}
    (h : NoRun w (stage w).2) (r : Res Unit) (w1 : World) (hst : stage w = (r, w1)) :
    ∃ evs, w1.trace = w.trace ++ evs ∧ (fun (_ : Res Unit) l => l = []) r (runs evs) := by
  rw [hst] at h
  exact h

/-- Build mode in terms of its six stage functions (make.go 238-243): a stage
that does not return ends the pipeline with its own result, in the world it
ended in. The three stages of workspace assembly run no external command;
`go install` runs in the fourth stage only (exactly once if that stage
returns); `ant jar` runs in the fifth stage only, exactly once; artifact
collection (`copyBinaries`) starts only after both have returned, and runs no
external command. -/
theorem build_pipeline_stages (env : Env) (fuel : Nat) (pfx : Option Path) (w : World) :
    Staged (main env fuel ⟨false, false, pfx⟩ w) (createGoPathForBuild env) w
      (fun _ cmds => cmds = []) fun w1 =>
    Staged (main env fuel ⟨false, false, pfx⟩ w) (copyDepsToGoPath env fuel) w1
      (fun _ cmds => cmds = []) fun w2 =>
    Staged (main env fuel ⟨false, false, pfx⟩ w) (copyGaugePackagesToGoPath env fuel) w2
      (fun _ cmds => cmds = []) fun w3 =>
    Staged (main env fuel ⟨false, false, pfx⟩ w) (compilePackages env) w3
      (fun r cmds => cmds = [goInstall] ∨ (r ≠ .ret () ∧ cmds = [])) fun w4 =>
    Staged (main env fuel ⟨false, false, pfx⟩ w) (compileJavaClasses env) w4
      (fun _ cmds => cmds = [antJar]) fun w5 =>
    main env fuel ⟨false, false, pfx⟩ w = copyBinaries env fuel w5 ∧
      ∃ evs, (copyBinaries env fuel w5).2.trace = w5.trace ++ evs ∧ runs evs = [] := by
  have hmain : main env fuel ⟨false, false, pfx⟩ w =
      andThen (createGoPathForBuild env w) fun w1 =>
      andThen (copyDepsToGoPath env fuel w1) fun w2 =>
      andThen (copyGaugePackagesToGoPath env fuel w2) fun w3 =>
      andThen (compilePackages env w3) fun w4 =>
      andThen (compileJavaClasses env w4) fun w5 =>
      copyBinaries env fuel w5 := by
    unfold main
    simp
  rw [hmain]
  refine staged_andThen (createGoPathForBuild env) w _ _
    (fun m w1 =>
      Staged m (copyDepsToGoPath env fuel) w1 (fun _ cmds => cmds = []) fun w2 =>
      Staged m (copyGaugePackagesToGoPath env fuel) w2 (fun _ cmds => cmds = []) fun w3 =>
      Staged m (compilePackages env) w3
        (fun r cmds => cmds = [goInstall] ∨ (r ≠ .ret () ∧ cmds = [])) fun w4 =>
      Staged m (compileJavaClasses env) w4 (fun _ cmds => cmds = [antJar]) fun w5 =>
      m = copyBinaries env fuel w5 ∧
        ∃ evs, (copyBinaries env fuel w5).2.trace = w5.trace ++ evs ∧ runs evs = [])
    (noRun_cmds (createGoPathForBuild_noRun env w)) ?_
  intro w1 _
  refine staged_andThen (copyDepsToGoPath env fuel) w1 _ _
    (fun m w2 =>
      Staged m (copyGaugePackagesToGoPath env fuel) w2 (fun _ cmds => cmds = []) fun w3 =>
      Staged m (compilePackages env) w3
        (fun r cmds => cmds = [goInstall] ∨ (r ≠ .ret () ∧ cmds = [])) fun w4 =>
      Staged m (compileJavaClasses env) w4 (fun _ cmds => cmds = [antJar]) fun w5 =>
      m = copyBinaries env fuel w5 ∧
        ∃ evs, (copyBinaries env fuel w5).2.trace = w5.trace ++ evs ∧ runs evs = [])
    (noRun_cmds (copyDepsToGoPath_noRun env fuel w1)) ?_
  intro w2 _
  refine staged_andThen (copyGaugePackagesToGoPath env fuel) w2 _ _
    (fun m w3 =>
      Staged m (compilePackages env) w3
        (fun r cmds => cmds = [goInstall] ∨ (r ≠ .ret () ∧ cmds = [])) fun w4 =>
      Staged m (compileJavaClasses env) w4 (fun _ cmds => cmds = [antJar]) fun w5 =>
      m = copyBinaries env fuel w5 ∧
        ∃ evs, (copyBinaries env fuel w5).2.trace = w5.trace ++ evs ∧ runs evs = [])
    (noRun_cmds (copyGaugePackagesToGoPath_noRun env fuel w2)) ?_
  intro w3 _
  refine staged_andThen (compilePackages env) w3 _ _
    (fun m w4 =>
      Staged m (compileJavaClasses env) w4 (fun _ cmds => cmds = [antJar]) fun w5 =>
      m = copyBinaries env fuel w5 ∧
        ∃ evs, (copyBinaries env fuel w5).2.trace = w5.trace ++ evs ∧ runs evs = [])
    (fun r w4 h => compilePackages_runs env w3 w4 r h) ?_
  intro w4 _
  refine staged_andThen (compileJavaClasses env) w4 _ _
    (fun m w5 =>
      m = copyBinaries env fuel w5 ∧
        ∃ evs, (copyBinaries env fuel w5).2.trace = w5.trace ++ evs ∧ runs evs = [])
    (fun r w5 h => compileJavaClasses_runs env w4 w5 r h) ?_
  intro w5 _
  exact ⟨rfl, copyBinaries_noRun env fuel w5⟩

/-! ## The pipeline, call by call -/

theorem andThen_assoc (r : Res Unit × World) (f g : World → Res Unit × World) :
    andThen (andThen r f) g = andThen r fun w => andThen (f w) g := by
  obtain ⟨res, w⟩ := r
  cases res <;> rfl

theorem andThen_ret (r : Res Unit × World) : (andThen r fun w => (.ret (), w)) = r := by
  obtain ⟨res, w⟩ := r
  cases res <;> rfl

/-- Build mode of `main`, with the stage functions unfolded into their calls. -/
theorem main_build_eq (env : Env) (fuel : Nat) (pfx : Option Path) (w : World) :
    main env fuel ⟨false, false, pfx⟩ w =
      andThen (orPanic (mkdirStep env (inCwd env BUILD_DIR_SRC) w)) fun w1 =>
      andThen (orPanic (mkdirStep env (inCwd env BUILD_DIR_BIN) w1)) fun w2 =>
      andThen (orPanic (mkdirStep env (inCwd env BUILD_DIR_PKG) w2)) fun w3 =>
      andThen (orPanic (mirrorDir env fuel (inCwd env DEPS_DIR) (inCwd env BUILD_DIR_SRC) w3))
        fun w4 =>
      andThen (orPanic (mirrorDir env fuel (inCwd env ["common"])
        (inCwd env (Join BUILD_DIR_SRC ["common"])) w4)) fun w5 =>
      andThen (orPanic (mirrorDir env fuel (inCwd env ["gauge"])
        (inCwd env (Join BUILD_DIR_SRC ["gauge"])) w5)) fun w6 =>
      andThen (orPanic (mirrorDir env fuel (inCwd env ["gauge-java"])
        (inCwd env (Join BUILD_DIR_SRC ["gauge-java"])) w6)) fun w7 =>
      andThen (orPanic (setenvStep env w7)) fun w8 =>
      andThen (orPanic (runStep env (inCwd env BUILD_DIR) goInstall w8)) fun w9 =>
      andThen (orPanic (runStep env (inCwd env ["gauge-java"]) antJar w9)) fun w10 =>
      andThen (orPanic (mkdirStep env (inCwd env ["bin"]) w10)) fun w11 =>
      andThen (orPanic (mirrorDir env fuel (inCwd env BUILD_DIR_BIN) (inCwd env ["bin"]) w11))
        fun w12 =>
      (.ret (), w12.emit
        (.log ("Binaries are available at: " ++ pathString (inCwd env ["bin"]) ++ "\n"))) := by
  have hgo : "go" :: (["install", "-v"] ++ gaugeExecutables) = goInstall := rfl
  have hant : ["ant", "jar"] = antJar := rfl
  unfold main createGoPathForBuild copyDepsToGoPath copyGaugePackagesToGoPath compilePackages
    compileJavaClasses copyBinaries
  simp only [Bool.false_eq_true, if_false, gaugePackages, gaugeExecutables, forEach,
    andThen_assoc, andThen_ret, mkdirStep, setenvStep, runStep, hgo, hant]
  rfl

theorem step_andThen (m : Res Unit × World) (w0 : World) (ran : List (List String))
    (step : World → Res (Option Err) × World) (w : World) (cmds : List (List String))
    (next : World → Res Unit × World) (rest : World → Prop) (evs0 : List Event)
    (hm : m = andThen (orPanic (step w)) next)
    (h0 : w.trace = w0.trace ++ evs0) (hr0 : runs evs0 = ran)
    (htr : ∃ evs, (step w).2.trace = w.trace ++ evs ∧ runs evs = cmds)
    (hrest : ∀ w1 evs1, step w = (.ret none, w1) → m = next w1 →
      w1.trace = w0.trace ++ evs1 → runs evs1 = ran ++ cmds → rest w1) :
    Step m w0 ran step w cmds rest := by
  obtain ⟨evs, ht, hr⟩ := htr
  cases hst : step w with
  | mk r w1 =>
    rw [hst] at ht hm
    simp only at ht
    have ht1 : w1.trace = w0.trace ++ (evs0 ++ evs) := by rw [ht, h0, List.append_assoc]
    have hr1 : runs (evs0 ++ evs) = ran ++ cmds := by rw [runs_append, hr0, hr]
    refine ⟨r, w1, evs0 ++ evs, hst, ht1, hr1, ?_⟩
    cases r with
    | ret a =>
      cases a with
      | none => exact hrest w1 _ hst hm ht1 hr1
      | some e => exact hm
    | fatal msg => exact hm
    | panic e => exact hm
    | outOfFuel => exact hm

theorem mkdirStep_trace (env : Env) (p : Path) (w : World) :
    ∃ evs, (mkdirStep env p w).2.trace = w.trace ++ evs ∧ runs evs = [] :=
  ⟨[.mkdirAll p 0o755], osMkdirAll_trace env p 0o755 w _ _ rfl, rfl⟩

theorem mirrorDir_trace (env : Env) (fuel : Nat) (src dst : Path) (w : World) :
    ∃ evs, (mirrorDir env fuel src dst w).2.trace = w.trace ++ evs ∧ runs evs = [] :=
  mirrorDir_noRun env fuel src dst w

theorem setenvStep_trace (env : Env) (w : World) :
    ∃ evs, (setenvStep env w).2.trace = w.trace ++ evs ∧ runs evs = [] := by
  refine ⟨[.log ("GOPATH = " ++ pathString (inCwd env BUILD_DIR) ++ "\n"),
    .setenv "GOPATH" (inCwd env BUILD_DIR)], ?_, rfl⟩
  have h := osSetenv_trace env "GOPATH" (inCwd env BUILD_DIR)
    (w.emit (.log ("GOPATH = " ++ pathString (inCwd env BUILD_DIR) ++ "\n")))
    (osSetenv env "GOPATH" (inCwd env BUILD_DIR)
      (w.emit (.log ("GOPATH = " ++ pathString (inCwd env BUILD_DIR) ++ "\n")))).2
    (osSetenv env "GOPATH" (inCwd env BUILD_DIR)
      (w.emit (.log ("GOPATH = " ++ pathString (inCwd env BUILD_DIR) ++ "\n")))).1 rfl
  unfold setenvStep
  simp only [Prod.map, id]
  rw [h]
  simp [World.emit]

theorem runStep_trace (env : Env) (dir : Path) (cmd : List String) (w : World) :
    ∃ evs, (runStep env dir cmd w).2.trace = w.trace ++ evs ∧ runs evs = [cmd] := by
  refine ⟨[.log (executeMsg cmd), .run dir cmd], ?_, rfl⟩
  have h := cmdRun_trace env dir cmd (w.emit (.log (executeMsg cmd)))
    (cmdRun env dir cmd (w.emit (.log (executeMsg cmd)))).2
    (cmdRun env dir cmd (w.emit (.log (executeMsg cmd)))).1 rfl
  unfold runStep
  simp only [Prod.map, id]
  rw [h]
  simp [World.emit]

/-- C9. Build mode of `main` is the following calls in this order: the three
`os.MkdirAll` of the workspace directories; `mirrorDir` of the dependencies;
`mirrorDir` of the package `common` and of the executables `gauge` and
`gauge-java`; `os.Setenv` and the run of `go install`; the run of `ant jar`;
`os.MkdirAll` of `bin` and `mirrorDir` of the built binaries into it. Each
call starts only if every earlier one returned a nil error: a call that
returns an error makes `main` panic with that error, in the world that call
ended in, and a call that ends the process ends `main` there. So if the run
of `go install` fails, `main` panics with its error, `ant jar` is not run and
no binary is collected. No command is run before `go install`, which runs
only after the workspace is assembled; `ant jar` runs only after `go install`
has succeeded; the binaries are collected only after both have. -/
theorem build_pipeline_order (env : Env) (fuel : Nat) (pfx : Option Path) (w : World) :
    Step (main env fuel ⟨false, false, pfx⟩ w) w []
      (mkdirStep env (inCwd env BUILD_DIR_SRC)) w [] fun w1 =>
    Step (main env fuel ⟨false, false, pfx⟩ w) w []
      (mkdirStep env (inCwd env BUILD_DIR_BIN)) w1 [] fun w2 =>
    Step (main env fuel ⟨false, false, pfx⟩ w) w []
      (mkdirStep env (inCwd env BUILD_DIR_PKG)) w2 [] fun w3 =>
    Step (main env fuel ⟨false, false, pfx⟩ w) w []
      (mirrorDir env fuel (inCwd env DEPS_DIR) (inCwd env BUILD_DIR_SRC)) w3 [] fun w4 =>
    Step (main env fuel ⟨false, false, pfx⟩ w) w []
      (mirrorDir env fuel (inCwd env ["common"]) (inCwd env (Join BUILD_DIR_SRC ["common"])))
      w4 [] fun w5 =>
    Step (main env fuel ⟨false, false, pfx⟩ w) w []
      (mirrorDir env fuel (inCwd env ["gauge"]) (inCwd env (Join BUILD_DIR_SRC ["gauge"])))
      w5 [] fun w6 =>
    Step (main env fuel ⟨false, false, pfx⟩ w) w []
      (mirrorDir env fuel (inCwd env ["gauge-java"])
        (inCwd env (Join BUILD_DIR_SRC ["gauge-java"]))) w6 [] fun w7 =>
    Step (main env fuel ⟨false, false, pfx⟩ w) w [] (setenvStep env) w7 [] fun w8 =>
    Step (main env fuel ⟨false, false, pfx⟩ w) w []
      (runStep env (inCwd env BUILD_DIR) goInstall) w8 [goInstall] fun w9 =>
    Step (main env fuel ⟨false, false, pfx⟩ w) w [goInstall]
      (runStep env (inCwd env ["gauge-java"]) antJar) w9 [antJar] fun w10 =>
    Step (main env fuel ⟨false, false, pfx⟩ w) w [goInstall, antJar]
      (mkdirStep env (inCwd env ["bin"])) w10 [] fun w11 =>
    Step (main env fuel ⟨false, false, pfx⟩ w) w [goInstall, antJar]
      (mirrorDir env fuel (inCwd env BUILD_DIR_BIN) (inCwd env ["bin"])) w11 [] fun w12 =>
    main env fuel ⟨false, false, pfx⟩ w =
      (.ret (), w12.emit
        (.log ("Binaries are available at: " ++ pathString (inCwd env ["bin"]) ++ "\n"))) := by
  generalize hm : main env fuel ⟨false, false, pfx⟩ w = m
  rw [main_build_eq] at hm
  refine step_andThen m w [] _ w [] _ _ [] hm.symm (by simp) rfl (mkdirStep_trace _ _ _) ?_
  intro w1 e1 _ hm1 t1 r1
  refine step_andThen m w [] _ w1 [] _ _ e1 hm1 t1 (by simpa using r1)
    (mkdirStep_trace _ _ _) ?_
  intro w2 e2 _ hm2 t2 r2
  refine step_andThen m w [] _ w2 [] _ _ e2 hm2 t2 (by simpa using r2)
    (mkdirStep_trace _ _ _) ?_
  intro w3 e3 _ hm3 t3 r3
  refine step_andThen m w [] _ w3 [] _ _ e3 hm3 t3 (by simpa using r3)
    (mirrorDir_trace _ _ _ _ _) ?_
  intro w4 e4 _ hm4 t4 r4
  refine step_andThen m w [] _ w4 [] _ _ e4 hm4 t4 (by simpa using r4)
    (mirrorDir_trace _ _ _ _ _) ?_
  intro w5 e5 _ hm5 t5 r5
  refine step_andThen m w [] _ w5 [] _ _ e5 hm5 t5 (by simpa using r5)
    (mirrorDir_trace _ _ _ _ _) ?_
  intro w6 e6 _ hm6 t6 r6
  refine step_andThen m w [] _ w6 [] _ _ e6 hm6 t6 (by simpa using r6)
    (mirrorDir_trace _ _ _ _ _) ?_
  intro w7 e7 _ hm7 t7 r7
  refine step_andThen m w [] _ w7 [] _ _ e7 hm7 t7 (by simpa using r7)
    (setenvStep_trace _ _) ?_
  intro w8 e8 _ hm8 t8 r8
  refine step_andThen m w [] _ w8 [goInstall] _ _ e8 hm8 t8 (by simpa using r8)
    (runStep_trace _ _ _ _) ?_
  intro w9 e9 _ hm9 t9 r9
  refine step_andThen m w [goInstall] _ w9 [antJar] _ _ e9 hm9 t9 (by simpa using r9)
    (runStep_trace _ _ _ _) ?_
  intro w10 e10 _ hm10 t10 r10
  refine step_andThen m w [goInstall, antJar] _ w10 [] _ _ e10 hm10 t10 (by simpa using r10)
    (mkdirStep_trace _ _ _) ?_
  intro w11 e11 _ hm11 t11 r11
  refine step_andThen m w [goInstall, antJar] _ w11 [] _ _ e11 hm11 t11 (by simpa using r11)
    (mirrorDir_trace _ _ _ _ _) ?_
  intro w12 e12 _ hm12 _ _
  exact hm12

/-! ## Reading a directory -/

theorem lexLt_irrefl (a : List Nat) : lexLt a a = false := by
  induction a with
  | nil => rfl
  | cons x a ih => simp [lexLt, ih]

theorem lexLt_trans (a b c : List Nat) (h1 : lexLt a b = true) (h2 : lexLt b c = true) :
    lexLt a c = true := by
  induction a generalizing b c with
  | nil =>
    cases b with
    | nil => simp [lexLt] at h1
    | cons y b =>
      cases c with
      | nil => simp [lexLt] at h2
      | cons z c => simp [lexLt]
  | cons x a ih =>
    cases b with
    | nil => simp [lexLt] at h1
    | cons y b =>
      cases c with
      | nil => simp [lexLt] at h2
      | cons z c =>
        simp only [lexLt, Bool.or_eq_true, decide_eq_true_eq, Bool.and_eq_true,
          beq_iff_eq] at h1 h2 ⊢
        rcases h1 with h1 | ⟨h1, h1b⟩
        · rcases h2 with h2 | ⟨h2, _⟩
          · left; omega
          · left; omega
        · rcases h2 with h2 | ⟨h2, h2b⟩
          · left; omega
          · right; exact ⟨by omega, ih b c h1b h2b⟩

theorem lexLt_total (a b : List Nat) (h1 : lexLt a b = false) (h2 : lexLt b a = false) :
    a = b := by
  induction a generalizing b with
  | nil =>
    cases b with
    | nil => rfl
    | cons y b => simp [lexLt] at h1
  | cons x a ih =>
    cases b with
    | nil => simp [lexLt] at h2
    | cons y b =>
      simp only [lexLt, Bool.or_eq_false_iff, decide_eq_false_iff_not, Bool.and_eq_false_imp,
        beq_iff_eq] at h1 h2
      have hxy : x = y := by omega
      subst hxy
      rw [ih b (h1.2 rfl) (h2.2 rfl)]

theorem nameCode_inj (a b : String) (h : nameCode a = nameCode b) : a = b := by
  apply String.toList_inj.1
  apply List.map_injective_iff.2 _ h
  intro x y hxy
  rw [← Char.ofNat_toNat x, ← Char.ofNat_toNat y, hxy]

theorem nameLt_irrefl (a : String) : nameLt a a = false := lexLt_irrefl _

theorem nameLt_trans (a b c : String) (h1 : nameLt a b = true) (h2 : nameLt b c = true) :
    nameLt a c = true := lexLt_trans _ _ _ h1 h2

theorem nameLt_total (a b : String) (h1 : nameLt a b = false) (h2 : a ≠ b) :
    nameLt b a = true := by
  cases h : nameLt b a
  · exact absurd (nameCode_inj a b (lexLt_total _ _ h1 h)) h2
  · rfl

theorem mem_insertName (c x : String) (l : List String) :
    x ∈ insertName c l ↔ x = c ∨ x ∈ l := by
  induction l with
  | nil => simp [insertName]
  | cons d rest ih =>
    unfold insertName
    split
    · simp
    · split
      · rename_i hcd
        subst hcd
        simp
      · simp only [List.mem_cons, ih]
        tauto

theorem insertName_sorted (c : String) (l : List String)
    (h : l.Pairwise fun a b => nameLt a b = true) :
    (insertName c l).Pairwise fun a b => nameLt a b = true := by
  induction l with
  | nil => simp [insertName]
  | cons d rest ih =>
    rw [List.pairwise_cons] at h
    unfold insertName
    split
    · rename_i hlt
      rw [List.pairwise_cons]
      refine ⟨?_, List.pairwise_cons.2 h⟩
      intro x hx
      rcases List.mem_cons.1 hx with hx | hx
      · subst hx; exact hlt
      · exact nameLt_trans _ _ _ hlt (h.1 x hx)
    · rename_i hnlt
      split
      · exact List.pairwise_cons.2 h
      · rename_i hne
        rw [List.pairwise_cons]
        refine ⟨?_, ih h.2⟩
        intro x hx
        rcases (mem_insertName c x rest).1 hx with hx | hx
        · subst hx
          exact nameLt_total _ _ (by simpa using hnlt) hne
        · exact h.1 x hx

theorem readDirNames_sorted (fs : FS) (p : Path) :
    (readDirNames fs p).Pairwise fun a b => nameLt a b = true := by
  induction fs with
  | nil => simp [readDirNames]
  | cons e rest ih =>
    unfold readDirNames at ih ⊢
    simp only [List.foldr_cons]
    split
    · exact insertName_sorted _ _ ih
    · exact ih

theorem nodup_of_sorted (l : List String) (h : l.Pairwise fun a b => nameLt a b = true) :
    l.Nodup := by
  refine List.Pairwise.imp ?_ h
  intro a b hab heq
  subst heq
  rw [nameLt_irrefl] at hab
  cases hab

theorem readDirNames_nodup (fs : FS) (p : Path) : (readDirNames fs p).Nodup :=
  nodup_of_sorted _ (readDirNames_sorted fs p)

theorem childName_eq (p q : Path) (c : String) : childName p q = some c ↔ q = p ++ [c] := by
  unfold childName
  constructor
  · intro h
    split at h
    · rename_i d hd
      split at h
      · rename_i hp
        cases h
        rw [← hp]
        exact (List.dropLast_append_getLast? _ hd).symm
      · cases h
    · cases h
  · intro h
    subst h
    simp

theorem lookup_ne_none_iff (fs : FS) (q : Path) :
    lookup fs q ≠ none ↔ ∃ n, (q, n) ∈ fs := by
  induction fs with
  | nil => simp [lookup]
  | cons e rest ih =>
    obtain ⟨k, m⟩ := e
    unfold lookup
    by_cases hk : k = q
    · subst hk
      simp
    · simp only [hk, if_false, ih, List.mem_cons, Prod.mk.injEq]
      constructor
      · rintro ⟨n, hn⟩
        exact ⟨n, Or.inr hn⟩
      · rintro ⟨n, hn | hn⟩
        · exact absurd hn.1.symm hk
        · exact ⟨n, hn⟩

theorem mem_readDirNames (fs : FS) (p : Path) (c : String) :
    c ∈ readDirNames fs p ↔ lookup fs (p ++ [c]) ≠ none := by
  rw [lookup_ne_none_iff]
  induction fs with
  | nil => simp [readDirNames]
  | cons e rest ih =>
    unfold readDirNames at ih ⊢
    simp only [List.foldr_cons]
    split
    · rename_i d hd
      rw [childName_eq] at hd
      rw [mem_insertName, ih]
      constructor
      · rintro (h | ⟨n, hn⟩)
        · subst h
          exact ⟨e.2, by rw [← hd]; exact List.mem_cons_self _ _⟩
        · exact ⟨n, List.mem_cons_of_mem _ hn⟩
      · rintro ⟨n, hn⟩
        rcases List.mem_cons.1 hn with h | h
        · left
          have : e.1 = p ++ [c] := by rw [← h]
          rw [hd] at this
          have := List.append_cancel_left this
          simpa using this.symm
        · exact Or.inr ⟨n, h⟩
    · rename_i hnone
      rw [ih]
      constructor
      · rintro ⟨n, hn⟩
        exact ⟨n, List.mem_cons_of_mem _ hn⟩
      · rintro ⟨n, hn⟩
        rcases List.mem_cons.1 hn with h | h
        · exfalso
          have h1 : childName p e.1 = some c := by
            rw [childName_eq, ← h]
          rw [h1] at hnone
          cases hnone
        · exact ⟨n, h⟩

theorem sorted_ext (l1 l2 : List String)
    (h1 : l1.Pairwise fun a b => nameLt a b = true)
    (h2 : l2.Pairwise fun a b => nameLt a b = true)
    (h : ∀ x, x ∈ l1 ↔ x ∈ l2) : l1 = l2 := by
  induction l1 generalizing l2 with
  | nil =>
    cases l2 with
    | nil => rfl
    | cons y l2 => exact absurd ((h y).2 (List.mem_cons_self _ _)) (List.not_mem_nil _)
  | cons x l1 ih =>
    cases l2 with
    | nil => exact absurd ((h x).1 (List.mem_cons_self _ _)) (List.not_mem_nil _)
    | cons y l2 =>
      rw [List.pairwise_cons] at h1 h2
      have hxy : x = y := by
        by_contra hne
        have hx := (h x).1 (List.mem_cons_self _ _)
        have hy := (h y).2 (List.mem_cons_self _ _)
        rcases List.mem_cons.1 hx with hx | hx
        · exact hne hx
        · rcases List.mem_cons.1 hy with hy | hy
          · exact hne hy.symm
          · have a := h2.1 x hx
            have b := h1.1 y hy
            have := nameLt_trans _ _ _ a b
            rw [nameLt_irrefl] at this
            cases this
      subst hxy
      congr 1
      apply ih l2 h1.2 h2.2
      intro z
      constructor
      · intro hz
        rcases List.mem_cons.1 ((h z).1 (List.mem_cons_of_mem _ hz)) with e | e
        · subst e
          have := h1.1 z hz
          rw [nameLt_irrefl] at this
          cases this
        · exact e
      · intro hz
        rcases List.mem_cons.1 ((h z).2 (List.mem_cons_of_mem _ hz)) with e | e
        · subst e
          have := h2.1 z hz
          rw [nameLt_irrefl] at this
          cases this
        · exact e

theorem readDirNames_congr (fs fs1 : FS) (p : Path)
    (h : ∀ c, lookup fs1 (p ++ [c]) = lookup fs (p ++ [c])) :
    readDirNames fs1 p = readDirNames fs p := by
  apply sorted_ext _ _ (readDirNames_sorted _ _) (readDirNames_sorted _ _)
  intro c
  rw [mem_readDirNames, mem_readDirNames, h]

/-! ## One file of the walk -/

theorem lookup_mem (fs : FS) (q : Path) (n : Node) (h : lookup fs q = some n) : (q, n) ∈ fs := by
  induction fs with
  | nil => simp [lookup] at h
  | cons e rest ih =>
    obtain ⟨k, m⟩ := e
    unfold lookup at h
    split at h
    · rename_i hk
      cases h
      subst hk
      exact List.mem_cons_self _ _
    · exact List.mem_cons_of_mem _ (ih h)

theorem plain_lookup (fs : FS) (root q : Path) (n : Node) (hp : Plain fs root = true)
    (hq : root <+: q) (hl : lookup fs q = some n) : n.isPlain = true := by
  unfold Plain at hp
  rw [List.all_eq_true] at hp
  have := hp (q, n) (lookup_mem fs q n hl)
  simp only [Bool.or_eq_true, Bool.not_eq_true', List.isPrefixOf_iff_prefix] at this
  rcases this with h | h
  · have h1 : root.isPrefixOf q = true := List.isPrefixOf_iff_prefix.2 hq
    rw [h1] at h
    cases h
  · exact h

theorem not_symlink_of_plain (n : Node) (h : n.isPlain = true) (t : Path) : n ≠ .symlink t := by
  intro e
  subst e
  simp [Node.isPlain] at h

theorem follow_plain (fs : FS) (p : Path) (h : ∀ t, lookup fs p ≠ some (.symlink t)) :
    follow fs maxSymlinks p = .ok p := follow_self fs 39 p h

theorem osStat_eq_of_lookup (fs fs1 : FS) (p : Path) (h : lookup fs1 p = lookup fs p)
    (hn : ∀ t, lookup fs p ≠ some (.symlink t)) : osStat fs1 p = osStat fs p := by
  unfold osStat
  rw [follow_plain fs p hn, follow_plain fs1 p (by rw [h]; exact hn)]
  simp only [h]

theorem mirrorPair_congr (fs fs1 : FS) (a b : Path) (ha : lookup fs1 a = lookup fs a)
    (hb : lookup fs1 b = lookup fs b) (hna : ∀ t, lookup fs a ≠ some (.symlink t))
    (hnb : ∀ t, lookup fs b ≠ some (.symlink t)) : MirrorPair fs1 a b = MirrorPair fs a b := by
  unfold MirrorPair
  rw [osStat_eq_of_lookup fs fs1 a ha hna, osStat_eq_of_lookup fs fs1 b hb hnb]

theorem lookup_of_mirrorPair (fs : FS) (a b : Path) (h : MirrorPair fs a b = true)
    (hnb : ∀ t, lookup fs b ≠ some (.symlink t)) : lookup fs b ≠ none := by
  intro hnone
  unfold MirrorPair at h
  have hb : osStat fs b = .error (.path "stat" b .ENOENT) := by
    unfold osStat
    rw [follow_plain fs b hnb]
    simp only [hnone]
  rw [hb] at h
  split at h
  · rename_i heq
    cases heq
  · cases h

theorem mirrorFile_step (env : Env) (S D rel : Path) (fs0 : FS) (w w1 : World)
    (hdisj : ¬ S <+: D ∧ ¬ D <+: S)
    (hsrc : ∀ q n, S <+: q → lookup fs0 q = some n → n.isPlain = true)
    (hinv : WalkInv S D fs0 w.fs)
    (h : mirrorFile env (S ++ rel) (D ++ rel) w = (.ret none, w1)) :
    WalkInv S D fs0 w1.fs ∧ IsFile fs0 (S ++ rel) ∧
      MirrorPair w1.fs (S ++ rel) (D ++ rel) = true ∧
      (∀ r, MirrorPair w.fs (S ++ r) (D ++ r) = true →
        MirrorPair w1.fs (S ++ r) (D ++ r) = true) ∧
      ∃ evs, w1.trace = w.trace ++ evs ∧ calls evs = [(S ++ rel, D ++ rel)] := by
  obtain ⟨ps, q, spm, sdata, smt, hfs, hls, hfd, hframe, hcase⟩ :=
    mirrorFile_effect env _ _ w w1 h
  have hSn : ∀ p t, S <+: p → lookup w.fs p ≠ some (.symlink t) := by
    intro p t hp hl
    rw [hinv.1 p hp] at hl
    exact not_symlink_of_plain _ (hsrc p _ hp hl) t rfl
  have hDn : ∀ p t, D <+: p → lookup w.fs p ≠ some (.symlink t) := by
    intro p t hp hl
    exact not_symlink_of_plain _ (hinv.2 p _ hp hl) t rfl
  have hS : S <+: S ++ rel := List.prefix_append _ _
  have hD : D <+: D ++ rel := List.prefix_append _ _
  have hps : ps = S ++ rel := by
    rw [follow_plain _ _ (fun t => hSn _ t hS)] at hfs
    cases hfs; rfl
  have hq : q = D ++ rel := by
    rw [follow_plain _ _ (fun t => hDn _ t hD)] at hfd
    cases hfd; rfl
  subst hps hq
  have hcross : ∀ p, S <+: p → ¬ p <+: D ++ rel := by
    intro p h1 h2
    rcases List.prefix_or_prefix_of_prefix (h1.trans h2) hD with h3 | h3
    · exact hdisj.1 h3
    · exact hdisj.2 h3
  have hsrcframe : ∀ p, S <+: p → lookup w1.fs p = lookup w.fs p := by
    intro p hp
    have hpne : p ≠ D ++ rel := fun e => hcross p hp (e ▸ List.prefix_refl _)
    rcases hframe p hpne with h1 | ⟨_, hpre, _⟩
    · exact h1
    · exact absurd (hpre.trans (List.dropLast_prefix _)) (hcross p hp)
  have hfile0 : IsFile fs0 (S ++ rel) := ⟨spm, sdata, smt, by rw [← hinv.1 _ hS]; exact hls⟩
  have htrace : ∃ evs, w1.trace = w.trace ++ evs ∧ calls evs = [(S ++ rel, D ++ rel)] := by
    obtain ⟨evs, ht, hsys⟩ := mirrorFile_trace env (S ++ rel) (D ++ rel) w
    rw [h] at ht
    exact ⟨_, ht, by simp [calls, calls_of_isSys evs hsys]⟩
  rcases hcase with ⟨hfs9, _, dfi, hdst, h1, h2, h3, h4⟩ | ⟨_, _, hl9⟩ | ⟨k, perm, perm1, hl0, _⟩
  · -- skipped
    have hs := osStat_file w.fs _ _ spm sdata smt hfs hls
    refine ⟨by rw [hfs9]; exact hinv, hfile0, ?_, fun r hr => by rw [hfs9]; exact hr, htrace⟩
    rw [hfs9, mirrorPair_iff _ _ _ _ hs]
    exact ⟨dfi, hdst, h1, h2, h3, h4⟩
  · -- copied
    have hinv1 : WalkInv S D fs0 w1.fs := by
      refine ⟨fun p hp => (hsrcframe p hp).trans (hinv.1 p hp), ?_⟩
      intro p n hp hl
      by_cases hpq : p = D ++ rel
      · subst hpq
        rw [hl9] at hl
        cases hl
        rfl
      · rcases hframe p hpq with h1 | ⟨_, _, perm, h1⟩
        · rw [h1] at hl
          exact hinv.2 p n hp hl
        · rw [h1] at hl
          cases hl
          rfl
    have hmp : MirrorPair w1.fs (S ++ rel) (D ++ rel) = true := by
      have hls1 : lookup w1.fs (S ++ rel) = some (.file spm sdata smt) := by
        rw [hsrcframe _ hS]; exact hls
      have hs1 := osStat_file w1.fs (S ++ rel) (S ++ rel) spm sdata smt
        (follow_plain _ _ (by rw [hls1]; intro t; simp)) hls1
      have hd1 := osStat_file w1.fs (D ++ rel) (D ++ rel) (spm &&& chmodMask) sdata smt
        (follow_plain _ _ (by rw [hl9]; intro t; simp)) hl9
      rw [mirrorPair_iff _ _ _ _ hs1]
      refine ⟨_, hd1, ?_, file_mode_regular _, rfl, rfl⟩
      simp only [FileInfo.Mode, land_chmodMask_idem]
    refine ⟨hinv1, hfile0, hmp, ?_, htrace⟩
    intro r hr
    by_cases hrel : r = rel
    · subst hrel
      exact hmp
    · have hSr : S <+: S ++ r := List.prefix_append _ _
      have hDr : D <+: D ++ r := List.prefix_append _ _
      have hne : D ++ r ≠ D ++ rel := fun e => hrel (List.append_cancel_left e)
      have hb : lookup w1.fs (D ++ r) = lookup w.fs (D ++ r) := by
        rcases hframe _ hne with h1 | ⟨h0, _⟩
        · exact h1
        · exact absurd h0 (lookup_of_mirrorPair _ _ _ hr (fun t => hDn _ t hDr))
      rw [mirrorPair_congr w.fs w1.fs _ _ (hsrcframe _ hSr) hb (fun t => hSn _ t hSr)
        (fun t => hDn _ t hDr)]
      exact hr
  · -- a special file at the destination is excluded
    have := hinv.2 _ _ hD hl0
    simp [Node.isPlain] at this

/-! ## The walk -/

theorem visited_refl (S D : Path) (fs0 : FS) (w : World) (P : Path → Prop)
    (hinv : WalkInv S D fs0 w.fs) (hP : ∀ rel, ¬ P rel) : Visited S D fs0 w w P := by
  refine ⟨hinv, fun _ h => h, [], by simp, by simp [calls], ?_, fun rel h => absurd h (hP rel)⟩
  intro a b
  simp only [calls, List.not_mem_nil, false_iff]
  rintro ⟨rel, _, _, h⟩
  exact hP rel h

theorem visited_congr (S D : Path) (fs0 : FS) (w w1 : World) (P Q : Path → Prop)
    (h : Visited S D fs0 w w1 P) (hPQ : ∀ rel, P rel ↔ Q rel) : Visited S D fs0 w w1 Q := by
  obtain ⟨h1, h2, evs, ht, hnd, hmem, hmp⟩ := h
  refine ⟨h1, h2, evs, ht, hnd, ?_, fun rel hq => hmp rel ((hPQ rel).2 hq)⟩
  intro a b
  rw [hmem]
  constructor
  · rintro ⟨rel, ha, hb, hp⟩
    exact ⟨rel, ha, hb, (hPQ rel).1 hp⟩
  · rintro ⟨rel, ha, hb, hp⟩
    exact ⟨rel, ha, hb, (hPQ rel).2 hp⟩

theorem visited_trans (S D : Path) (fs0 : FS) (w w1 w2 : World) (P Q : Path → Prop)
    (h1 : Visited S D fs0 w w1 P) (h2 : Visited S D fs0 w1 w2 Q)
    (hdis : ∀ rel, P rel → ¬ Q rel) : Visited S D fs0 w w2 (fun rel => P rel ∨ Q rel) := by
  obtain ⟨_, p1, evs1, t1, nd1, m1, mp1⟩ := h1
  obtain ⟨i2, p2, evs2, t2, nd2, m2, mp2⟩ := h2
  refine ⟨i2, fun r h => p2 r (p1 r h), evs1 ++ evs2, by rw [t2, t1, List.append_assoc],
    ?_, ?_, ?_⟩
  · rw [calls_append, List.nodup_append]
    refine ⟨nd1, nd2, ?_⟩
    intro x hx1 hx2
    obtain ⟨a, b⟩ := x
    obtain ⟨rel1, ha1, _, hp⟩ := (m1 a b).1 hx1
    obtain ⟨rel2, ha2, _, hq⟩ := (m2 a b).1 hx2
    have : rel1 = rel2 := List.append_cancel_left (ha1.symm.trans ha2)
    subst this
    exact hdis rel1 hp hq
  · intro a b
    rw [calls_append, List.mem_append, m1, m2]
    constructor
    · rintro (⟨rel, ha, hb, hp⟩ | ⟨rel, ha, hb, hp⟩)
      · exact ⟨rel, ha, hb, Or.inl hp⟩
      · exact ⟨rel, ha, hb, Or.inr hp⟩
    · rintro ⟨rel, ha, hb, hp | hp⟩
      · exact Or.inl ⟨rel, ha, hb, hp⟩
      · exact Or.inr ⟨rel, ha, hb, hp⟩
  · rintro rel (hp | hq)
    · exact p2 rel (mp1 rel hp)
    · exact mp2 rel hq

theorem file_not_isDir (perm : Nat) (d : List Nat) (t : Time) :
    (Node.file perm d t).info.IsDir = false := by
  have h : chmodMask &&& ModeDir = 0 := by decide
  simp [Node.info, FileInfo.IsDir, Nat.land_assoc, h]

theorem dir_isDir (perm : Nat) : (Node.dir perm).info.IsDir = true := by
  have h := or_land_ne_zero ModeDir (perm &&& chmodMask) ModeDir 31 (by decide) (by decide)
  simp [Node.info, FileInfo.IsDir, h]

theorem reaches_snoc (fs0 : FS) (S rel0 : Path) (c : String) (perm : Nat)
    (hreach : Reaches fs0 S rel0) (hdir : lookup fs0 (S ++ rel0) = some (.dir perm)) :
    Reaches fs0 S (rel0 ++ [c]) := by
  intro r hr hne
  rcases List.prefix_concat_iff.1 hr with h | h
  · exact absurd h hne
  · by_cases hr0 : r = rel0
    · subst hr0
      exact ⟨perm, hdir⟩
    · exact hreach r h hr0

/-- The walk function on a regular file of the source tree. -/
theorem mirrorDirFn_file (env : Env) (S D rel0 : Path) (fs0 : FS) (w w1 : World)
    (info : FileInfo)
    (hdisj : ¬ S <+: D ∧ ¬ D <+: S)
    (hsrc : ∀ q n, S <+: q → lookup fs0 q = some n → n.isPlain = true)
    (hinv : WalkInv S D fs0 w.fs) (hreach : Reaches fs0 S rel0)
    (hdir : info.IsDir = false)
    (h : mirrorDirFn env S D (S ++ rel0) (.ok info) w = (.ret none, w1)) :
    Visited S D fs0 w w1 (fun rel => rel0 <+: rel ∧ IsFile fs0 (S ++ rel) ∧ Reaches fs0 S rel) := by
  unfold mirrorDirFn at h
  simp only [hdir, Rel_append, Join, Bool.false_eq_true, if_false] at h
  obtain ⟨hinv1, hfile, hmp, hpres, evs, ht, hcalls⟩ :=
    mirrorFile_step env S D rel0 fs0 w w1 hdisj hsrc hinv h
  have hP : ∀ rel, (rel0 <+: rel ∧ IsFile fs0 (S ++ rel) ∧ Reaches fs0 S rel) ↔ rel = rel0 := by
    intro rel
    constructor
    · rintro ⟨hpre, _, hr⟩
      by_contra hne
      obtain ⟨perm, hd⟩ := hr rel0 hpre (fun e => hne e.symm)
      obtain ⟨_, _, _, hf⟩ := hfile
      rw [hf] at hd
      cases hd
    · intro e
      subst e
      exact ⟨List.prefix_refl _, hfile, hreach⟩
  refine ⟨hinv1, hpres, evs, ht, by rw [hcalls]; simp, ?_, ?_⟩
  · intro a b
    rw [hcalls]
    simp only [List.mem_singleton, Prod.mk.injEq]
    constructor
    · rintro ⟨ha, hb⟩
      exact ⟨rel0, ha, hb, (hP rel0).2 rfl⟩
    · rintro ⟨rel, ha, hb, hp⟩
      have := (hP rel).1 hp
      subst this
      exact ⟨ha, hb⟩
  · intro rel hp
    have := (hP rel).1 hp
    subst this
    exact hmp

theorem osLstat_ok (fs : FS) (p : Path) (info : FileInfo) (h : osLstat fs p = .ok info) :
    ∃ n, lookup fs p = some n ∧ info = n.info := by
  unfold osLstat at h
  split at h
  · rename_i n hn
    cases h
    exact ⟨n, hn, rfl⟩
  · cases h

theorem osLstat_of_lookup (fs : FS) (p : Path) (n : Node) (h : lookup fs p = some n) :
    osLstat fs p = .ok n.info := by
  unfold osLstat
  rw [h]

/-- The loop over the entries of a directory of the source tree, given what
the recursive call does. -/
theorem walkNames_spec (env : Env) (S D rel0 : Path) (fs0 : FS)
    (walkRec : Path → FileInfo → World → Res (Option Err) × World)
    (hrec : ∀ c info w w1, WalkInv S D fs0 w.fs →
      osLstat w.fs (S ++ (rel0 ++ [c])) = .ok info →
      walkRec (S ++ (rel0 ++ [c])) info w = (.ret none, w1) →
      Visited S D fs0 w w1
        (fun rel => (rel0 ++ [c]) <+: rel ∧ IsFile fs0 (S ++ rel) ∧ Reaches fs0 S rel))
    (names : List String) (w w1 : World)
    (hex : ∀ c ∈ names, lookup fs0 (S ++ (rel0 ++ [c])) ≠ none) (hnd : names.Nodup)
    (hinv : WalkInv S D fs0 w.fs)
    (h : walkNames walkRec (mirrorDirFn env S D) (S ++ rel0) names w = (.ret none, w1)) :
    Visited S D fs0 w w1
      (fun rel => (∃ c ∈ names, (rel0 ++ [c]) <+: rel) ∧ IsFile fs0 (S ++ rel) ∧
        Reaches fs0 S rel) := by
  induction names generalizing w with
  | nil =>
    unfold walkNames at h
    cases h
    exact visited_refl S D fs0 _ _ hinv (by simp)
  | cons c rest ih =>
    rw [List.nodup_cons] at hnd
    have hpath : Join (S ++ rel0) [c] = S ++ (rel0 ++ [c]) := by
      simp [Join, List.append_assoc]
    have hS : S <+: S ++ (rel0 ++ [c]) := List.prefix_append _ _
    obtain ⟨n, hn⟩ : ∃ n, lookup w.fs (S ++ (rel0 ++ [c])) = some n := by
      have := hex c (List.mem_cons_self _ _)
      rw [← hinv.1 _ hS] at this
      cases hl : lookup w.fs (S ++ (rel0 ++ [c])) with
      | none => exact absurd hl this
      | some n => exact ⟨n, rfl⟩
    have hls := osLstat_of_lookup _ _ _ hn
    unfold walkNames at h
    simp only [hpath, hls] at h
    split at h
    · rename_i wa hwa
      have hv1 := hrec c n.info w wa hinv hls hwa
      have hv2 := ih wa (fun d hd => hex d (List.mem_cons_of_mem _ hd)) hnd.2 hv1.1 h
      refine visited_congr S D fs0 w w1 _ _ (visited_trans S D fs0 w wa w1 _ _ hv1 hv2 ?_) ?_
      · rintro rel ⟨hc, _, _⟩ ⟨⟨d, hd, hdp⟩, _, _⟩
        have hlen : (rel0 ++ [c]).length = (rel0 ++ [d]).length := by simp
        have heq := List.prefix_of_prefix_length_le hc hdp (le_of_eq hlen)
        have := List.IsPrefix.eq_of_length heq hlen
        have hcd : c = d := by
          have := List.append_cancel_left this
          simpa using this
        subst hcd
        exact hnd.1 hd
      · intro rel
        constructor
        · rintro (⟨hc, hf, hr⟩ | ⟨⟨d, hd, hdp⟩, hf, hr⟩)
          · exact ⟨⟨c, List.mem_cons_self _ _, hc⟩, hf, hr⟩
          · exact ⟨⟨d, List.mem_cons_of_mem _ hd, hdp⟩, hf, hr⟩
        · rintro ⟨⟨d, hd, hdp⟩, hf, hr⟩
          rcases List.mem_cons.1 hd with e | e
          · subst e
            exact Or.inl ⟨hdp, hf, hr⟩
          · exact Or.inr ⟨⟨d, e, hdp⟩, hf, hr⟩
    · rename_i hne
      exfalso
      exact hne w1 h

/-- The recursive walk below a path of the source tree. -/
theorem walk_spec (env : Env) (S D : Path) (fs0 : FS)
    (hdisj : ¬ S <+: D ∧ ¬ D <+: S)
    (hsrc : ∀ q n, S <+: q → lookup fs0 q = some n → n.isPlain = true)
    (k : Nat) (rel0 : Path) (info : FileInfo) (w w1 : World)
    (hinv : WalkInv S D fs0 w.fs) (hreach : Reaches fs0 S rel0)
    (hls : osLstat w.fs (S ++ rel0) = .ok info)
    (h : walk (mirrorDirFn env S D) k (S ++ rel0) info w = (.ret none, w1)) :
    Visited S D fs0 w w1
      (fun rel => rel0 <+: rel ∧ IsFile fs0 (S ++ rel) ∧ Reaches fs0 S rel) := by
  induction k generalizing rel0 info w w1 with
  | zero =>
    unfold walk at h
    cases h
  | succ k ih =>
    have hS : S <+: S ++ rel0 := List.prefix_append _ _
    obtain ⟨n, hn, hinfo⟩ := osLstat_ok _ _ _ hls
    have hn0 : lookup fs0 (S ++ rel0) = some n := by rw [← hinv.1 _ hS]; exact hn
    have hplain := hsrc _ _ hS hn0
    unfold walk at h
    cases n with
    | file perm d t =>
      have hd : info.IsDir = false := by rw [hinfo]; exact file_not_isDir _ _ _
      simp only [hd, Bool.not_false, if_true] at h
      exact mirrorDirFn_file env S D rel0 fs0 w w1 info hdisj hsrc hinv hreach hd h
    | dir perm =>
      have hd : info.IsDir = true := by rw [hinfo]; exact dir_isDir _
      have hfn : mirrorDirFn env S D (S ++ rel0) (.ok info) w = (.ret none, w) := by
        unfold mirrorDirFn
        simp [hd]
      simp only [hd, Bool.not_true, Bool.false_eq_true, if_false, hfn] at h
      have hv := walkNames_spec env S D rel0 fs0 (walk (mirrorDirFn env S D) k)
        (fun c info w w1 hi hl hw =>
          ih (rel0 ++ [c]) info w w1 hi (reaches_snoc fs0 S rel0 c perm hreach hn0) hl hw)
        (readDirNames w.fs (S ++ rel0)) w w1
        (by
          intro c hc
          rw [mem_readDirNames] at hc
          rw [← hinv.1 _ (List.prefix_append _ _), ← List.append_assoc]
          exact hc)
        (readDirNames_nodup _ _) hinv h
      refine visited_congr S D fs0 w w1 _ _ hv ?_
      intro rel
      constructor
      · rintro ⟨⟨c, _, hc⟩, hf, hr⟩
        exact ⟨(List.prefix_append _ _).trans hc, hf, hr⟩
      · rintro ⟨hpre, hf, hr⟩
        refine ⟨?_, hf, hr⟩
        obtain ⟨t, ht⟩ := hpre
        cases t with
        | nil =>
          exfalso
          rw [List.append_nil] at ht
          subst ht
          obtain ⟨_, _, _, hf⟩ := hf
          rw [hn0] at hf
          cases hf
        | cons c t =>
          have hc : (rel0 ++ [c]) <+: rel := ⟨t, by rw [← ht]; simp⟩
          refine ⟨c, ?_, hc⟩
          rw [mem_readDirNames, hinv.1 _ (by
            rw [List.append_assoc]; exact List.prefix_append _ _), List.append_assoc]
          cases t with
          | nil =>
            rw [← ht] at hf
            obtain ⟨_, _, _, hf⟩ := hf
            rw [hf]
            simp
          | cons c2 t =>
            obtain ⟨p2, h2⟩ := hr (rel0 ++ [c]) hc (by
              intro e
              rw [← ht] at e
              have := congrArg List.length e
              simp at this)
            rw [h2]
            simp
    | symlink t => simp [Node.isPlain] at hplain
    | special kind perm => simp [Node.isPlain] at hplain

/-! ## Tree Mirror: the claims -/

theorem walkInv_start (S D : Path) (fs : FS) (hdst : Plain fs D = true) : WalkInv S D fs fs :=
  ⟨fun _ _ => rfl, fun q n hq hl => plain_lookup fs D q n hdst hq hl⟩

/-- A successful `mirrorDir` is a successful walk from the source root. -/
theorem mirrorDir_visited (env : Env) (fuel : Nat) (S D : Path) (w0 w1 : World)
    (hsrc : Plain w0.fs S = true) (hdst : Plain w0.fs D = true)
    (hdisj : ¬ S <+: D ∧ ¬ D <+: S)
    (h : mirrorDir env fuel S D w0 = (.ret none, w1)) :
    ∃ info, osLstat w0.fs S = .ok info ∧
      walk (mirrorDirFn env S D) fuel (S ++ []) info (w0.emit (.log (copyingMsg S D))) =
        (.ret none, w1) ∧
      Visited S D w0.fs (w0.emit (.log (copyingMsg S D))) w1
        (fun rel => [] <+: rel ∧ IsFile w0.fs (S ++ rel) ∧ Reaches w0.fs S rel) := by
  unfold mirrorDir Walk at h
  simp only [World.emit] at h
  cases hls : osLstat w0.fs S with
  | error err =>
    simp only [hls, mirrorDirFn] at h
    cases h
  | ok info =>
    simp only [hls] at h
    rw [← List.append_nil S] at h
    refine ⟨info, rfl, ?_, ?_⟩
    · rw [List.append_nil] at h ⊢
      exact h
    · refine walk_spec env S D w0.fs hdisj (fun q n hq hl => plain_lookup _ S q n hsrc hq hl)
        fuel [] info _ w1 (walkInv_start S D w0.fs hdst) ?_ ?_ ?_
      · intro r hr hne
        exact absurd (List.prefix_nil.1 hr) hne
      · rw [List.append_nil]
        exact hls
      · rw [List.append_nil] at h ⊢
        exact h

/-- C7, as amended. Let everything at or below `src` and at or below `dst` be
a regular file or a directory, and let neither path lie inside the other. If
`mirrorDir src dst` returns nil, then it has called `mirrorFile` exactly once
for each regular file reached from `src` through directories, with the pair
(path, `dst` joined with the path relative to `src`), and for nothing else (in
particular for no directory); the source tree is unchanged; and afterwards
every regular file `src/r` so reached is mirrored at `dst/r`. -/
theorem mirrorDir_coverage (env : Env) (fuel : Nat) (S D : Path) (w0 w1 : World)
    (hsrc : Plain w0.fs S = true) (hdst : Plain w0.fs D = true)
    (hdisj : ¬ S <+: D ∧ ¬ D <+: S)
    (h : mirrorDir env fuel S D w0 = (.ret none, w1)) :
    (∃ evs, w1.trace = w0.trace ++ evs ∧ (calls evs).Nodup ∧
        ∀ a b, (a, b) ∈ calls evs ↔
          ∃ rel, a = Join S rel ∧ b = Join D rel ∧ IsFile w0.fs (Join S rel) ∧
            Reaches w0.fs S rel) ∧
      (∀ q, S <+: q → lookup w1.fs q = lookup w0.fs q) ∧
      (∀ rel, IsFile w1.fs (Join S rel) → Reaches w1.fs S rel →
        MirrorPair w1.fs (Join S rel) (Join D rel) = true) := by
  obtain ⟨info, _, _, hinv, _, evs, ht, hnd, hmem, hmp⟩ :=
    mirrorDir_visited env fuel S D w0 w1 hsrc hdst hdisj h
  refine ⟨⟨.log (copyingMsg S D) :: evs, ?_, ?_, ?_⟩, hinv.1, ?_⟩
  · rw [ht]
    simp [World.emit]
  · simpa [calls] using hnd
  · intro a b
    simp only [calls, Join]
    rw [hmem]
    constructor
    · rintro ⟨rel, ha, hb, _, hf, hr⟩
      exact ⟨rel, ha, hb, hf, hr⟩
    · rintro ⟨rel, ha, hb, hf, hr⟩
      exact ⟨rel, ha, hb, List.nil_prefix, hf, hr⟩
  · intro rel hf hr
    simp only [Join] at hf ⊢
    apply hmp rel
    refine ⟨List.nil_prefix, ?_, ?_⟩
    · obtain ⟨a, b, c, hl⟩ := hf
      exact ⟨a, b, c, by rw [← hinv.1 _ (List.prefix_append _ _)]; exact hl⟩
    · intro r hr1 hr2
      obtain ⟨perm, hl⟩ := hr r hr1 hr2
      exact ⟨perm, by rw [← hinv.1 _ (List.prefix_append _ _)]; exact hl⟩

theorem mirrorDir_coverage_witness :
    (∃ evs, (mirrorDir quiet 5 deps workSrc start).2.trace = start.trace ++ evs ∧
        (calls evs).Nodup ∧
        ∀ a b, (a, b) ∈ calls evs ↔
          ∃ rel, a = Join deps rel ∧ b = Join workSrc rel ∧ IsFile start.fs (Join deps rel) ∧
            Reaches start.fs deps rel) ∧
      (∀ q, deps <+: q →
        lookup (mirrorDir quiet 5 deps workSrc start).2.fs q = lookup start.fs q) ∧
      (∀ rel, IsFile (mirrorDir quiet 5 deps workSrc start).2.fs (Join deps rel) →
        Reaches (mirrorDir quiet 5 deps workSrc start).2.fs deps rel →
        MirrorPair (mirrorDir quiet 5 deps workSrc start).2.fs (Join deps rel)
          (Join workSrc rel) = true) :=
  mirrorDir_coverage quiet 5 deps workSrc start (mirrorDir quiet 5 deps workSrc start).2
    (by decide) (by decide) (by decide) (Prod.ext (by decide) rfl)

/-- C7, as stated, fails when the source tree lies inside the destination:
mirroring `/a/b` into `/a` copies `/a/b/b/f` to `/a/b/f`, a new regular file of
the source tree that was not visited and has no mirror `/a/f`. -/
theorem mirrorDir_source_inside_destination :
    Plain nested.fs ["a", "b"] = true ∧ ¬ (["a", "b"] : Path) <+: ["a"] ∧
      (mirrorDir quiet 5 ["a", "b"] ["a"] nested).1 = .ret none ∧
      lookup (mirrorDir quiet 5 ["a", "b"] ["a"] nested).2.fs (Join ["a", "b"] ["f"]) =
        some (.file 0o644 [7] ⟨5, 7⟩) ∧
      (Join ["a", "b"] ["f"], Join ["a"] ["f"]) ∉
        calls (mirrorDir quiet 5 ["a", "b"] ["a"] nested).2.trace ∧
      MirrorPair (mirrorDir quiet 5 ["a", "b"] ["a"] nested).2.fs (Join ["a", "b"] ["f"])
        (Join ["a"] ["f"]) = false := by
  decide

/-! ## Running the walk again -/

/-- The loop over the entries of a directory in a second run, following the
first run. -/
theorem walkNames_again (env env2 : Env) (S D rel0 : Path) (fs0 vfs : FS) (k : Nat)
    (hv1 : ∀ q, S <+: q → lookup vfs q = lookup fs0 q)
    (hrec1 : ∀ c info w w1, WalkInv S D fs0 w.fs →
      osLstat w.fs (S ++ (rel0 ++ [c])) = .ok info →
      walk (mirrorDirFn env S D) k (S ++ (rel0 ++ [c])) info w = (.ret none, w1) →
      WalkInv S D fs0 w1.fs ∧
        ∀ t, ∃ evs, walk (mirrorDirFn env2 S D) k (S ++ (rel0 ++ [c])) info ⟨vfs, t⟩ =
            (.ret none, ⟨vfs, t ++ evs⟩) ∧ ∀ e ∈ evs, ∃ a b, e = Event.mirrorFile a b)
    (names : List String) (w w1 : World) (hinv : WalkInv S D fs0 w.fs)
    (h : walkNames (walk (mirrorDirFn env S D) k) (mirrorDirFn env S D) (S ++ rel0) names w =
      (.ret none, w1)) (t : List Event) :
    ∃ evs, walkNames (walk (mirrorDirFn env2 S D) k) (mirrorDirFn env2 S D) (S ++ rel0) names
        ⟨vfs, t⟩ = (.ret none, ⟨vfs, t ++ evs⟩) ∧ ∀ e ∈ evs, ∃ a b, e = Event.mirrorFile a b := by
  induction names generalizing w t with
  | nil =>
    exact ⟨[], by simp [walkNames], by simp⟩
  | cons c rest ih =>
    have hpath : Join (S ++ rel0) [c] = S ++ (rel0 ++ [c]) := by
      simp [Join, List.append_assoc]
    have hS : S <+: S ++ (rel0 ++ [c]) := List.prefix_append _ _
    unfold walkNames at h ⊢
    simp only [hpath] at h ⊢
    have hlseq : osLstat vfs (S ++ (rel0 ++ [c])) = osLstat w.fs (S ++ (rel0 ++ [c])) := by
      unfold osLstat
      rw [hv1 _ hS, hinv.1 _ hS]
    rw [hlseq]
    cases hls : osLstat w.fs (S ++ (rel0 ++ [c])) with
    | error err =>
      exfalso
      simp only [hls, mirrorDirFn] at h
      cases h
    | ok info =>
      simp only [hls] at h ⊢
      split at h
      · rename_i wa hwa
        obtain ⟨hinva, hagain⟩ := hrec1 c info w wa hinv hls hwa
        obtain ⟨e1, hw1, hm1⟩ := hagain t
        obtain ⟨e2, hw2, hm2⟩ := ih wa hinva h (t ++ e1)
        refine ⟨e1 ++ e2, ?_, ?_⟩
        · rw [hw1]
          simp only
          rw [hw2, List.append_assoc]
        · intro e he
          rcases List.mem_append.1 he with he | he
          · exact hm1 e he
          · exact hm2 e he
      · rename_i hne
        exact absurd h (hne w1)

/-- The walk in a second run, following the first run: every file is found
mirrored, and only entry markers are added to the trace. -/
theorem walk_again (env env2 : Env) (S D : Path) (fs0 vfs : FS)
    (hdisj : ¬ S <+: D ∧ ¬ D <+: S)
    (hsrc : ∀ q n, S <+: q → lookup fs0 q = some n → n.isPlain = true)
    (hv1 : ∀ q, S <+: q → lookup vfs q = lookup fs0 q)
    (hv2 : ∀ rel, IsFile fs0 (S ++ rel) → Reaches fs0 S rel →
      MirrorPair vfs (S ++ rel) (D ++ rel) = true)
    (k : Nat) (rel0 : Path) (info : FileInfo) (w w1 : World)
    (hinv : WalkInv S D fs0 w.fs) (hreach : Reaches fs0 S rel0)
    (hls : osLstat w.fs (S ++ rel0) = .ok info)
    (h : walk (mirrorDirFn env S D) k (S ++ rel0) info w = (.ret none, w1)) (t : List Event) :
    ∃ evs, walk (mirrorDirFn env2 S D) k (S ++ rel0) info ⟨vfs, t⟩ =
        (.ret none, ⟨vfs, t ++ evs⟩) ∧ ∀ e ∈ evs, ∃ a b, e = Event.mirrorFile a b := by
  induction k generalizing rel0 info w w1 t with
  | zero =>
    unfold walk at h
    cases h
  | succ k ih =>
    have hS : S <+: S ++ rel0 := List.prefix_append _ _
    obtain ⟨n, hn, hinfo⟩ := osLstat_ok _ _ _ hls
    have hn0 : lookup fs0 (S ++ rel0) = some n := by rw [← hinv.1 _ hS]; exact hn
    have hplain := hsrc _ _ hS hn0
    unfold walk at h ⊢
    cases n with
    | file perm d mt =>
      have hd : info.IsDir = false := by rw [hinfo]; exact file_not_isDir _ _ _
      simp only [hd, Bool.not_false, if_true]
      have hlv : lookup vfs (S ++ rel0) = some (.file perm d mt) := by rw [hv1 _ hS]; exact hn0
      have hs := osStat_file vfs (S ++ rel0) (S ++ rel0) perm d mt
        (follow_plain _ _ (by rw [hlv]; intro t; simp)) hlv
      have hmp := hv2 rel0 ⟨perm, d, mt, hn0⟩ hreach
      obtain ⟨dfi, hdst, h1, h2, h3, h4⟩ := (mirrorPair_iff _ _ _ _ hs).1 hmp
      refine ⟨[.mirrorFile (S ++ rel0) (D ++ rel0)], ?_, by simp⟩
      unfold mirrorDirFn
      simp only [hd, Rel_append, Join, Bool.false_eq_true, if_false]
      exact mirrorFile_skip env2 (S ++ rel0) (D ++ rel0) ⟨vfs, t⟩ _ dfi hs
        (file_mode_regular perm) hdst h1 h2 h3 h4
    | dir perm =>
      have hd : info.IsDir = true := by rw [hinfo]; exact dir_isDir _
      have hfn : ∀ e u, mirrorDirFn e S D (S ++ rel0) (.ok info) u = (.ret none, u) := by
        intro e u
        unfold mirrorDirFn
        simp [hd]
      simp only [hd, Bool.not_true, Bool.false_eq_true, if_false, hfn] at h ⊢
      have hnames : readDirNames vfs (S ++ rel0) = readDirNames w.fs (S ++ rel0) := by
        apply readDirNames_congr
        intro c
        have hc : S <+: S ++ rel0 ++ [c] := by
          rw [List.append_assoc]; exact List.prefix_append _ _
        rw [hv1 _ hc, hinv.1 _ hc]
      rw [hnames]
      refine walkNames_again env env2 S D rel0 fs0 vfs k hv1 ?_ _ w w1 hinv h t
      intro c info1 u u1 hu hl hw
      have hr := reaches_snoc fs0 S rel0 c perm hreach hn0
      exact ⟨(walk_spec env S D fs0 hdisj hsrc k (rel0 ++ [c]) info1 u u1 hu hr hl hw).1,
        fun t1 => ih (rel0 ++ [c]) info1 u u1 hu hr hl hw t1⟩
    | symlink t => simp [Node.isPlain] at hplain
    | special kind perm => simp [Node.isPlain] at hplain

/-- C3, as amended. Let everything at or below `src` and at or below `dst` be
a regular file or a directory, and let neither path lie inside the other. If
`mirrorDir src dst` returns nil, then a second run on the file system it left
(in any environment, with the same fuel) also returns nil, leaves the file
system as it is, and adds to the trace only its log line and the entry
markers of its `mirrorFile` calls: each of them took the skip branch. -/
theorem mirrorDir_idempotent (env env2 : Env) (fuel : Nat) (S D : Path) (w0 w1 : World)
    (hsrc : Plain w0.fs S = true) (hdst : Plain w0.fs D = true)
    (hdisj : ¬ S <+: D ∧ ¬ D <+: S)
    (h : mirrorDir env fuel S D w0 = (.ret none, w1)) (t : List Event) :
    ∃ evs, mirrorDir env2 fuel S D ⟨w1.fs, t⟩ = (.ret none, ⟨w1.fs, t ++ evs⟩) ∧
      ∀ e ∈ evs, (∃ m, e = Event.log m) ∨ ∃ a b, e = Event.mirrorFile a b := by
  obtain ⟨info, hls, hwalk, hinv, _, _, _, _, _, hmp⟩ :=
    mirrorDir_visited env fuel S D w0 w1 hsrc hdst hdisj h
  have hplainS : ∀ q n, S <+: q → lookup w0.fs q = some n → n.isPlain = true :=
    fun q n hq hl => plain_lookup _ S q n hsrc hq hl
  obtain ⟨evs, hw, hm⟩ := walk_again env env2 S D w0.fs w1.fs hdisj hplainS hinv.1
    (fun rel hf hr => hmp rel ⟨List.nil_prefix, hf, hr⟩) fuel [] info
    (w0.emit (.log (copyingMsg S D))) w1 (walkInv_start S D w0.fs hdst)
    (by
      intro r hr hne
      exact absurd (List.prefix_nil.1 hr) hne)
    (by rw [List.append_nil]; exact hls) hwalk (t ++ [.log (copyingMsg S D)])
  refine ⟨.log (copyingMsg S D) :: evs, ?_, ?_⟩
  · unfold mirrorDir Walk
    simp only [World.emit]
    have hls1 : osLstat w1.fs S = .ok info := by
      unfold osLstat at hls ⊢
      rw [hinv.1 S (List.prefix_refl _)]
      exact hls
    simp only [hls1]
    rw [List.append_nil] at hw
    rw [hw]
    simp
  · intro e he
    rcases List.mem_cons.1 he with he | he
    · exact Or.inl ⟨_, he⟩
    · exact Or.inr (hm e he)

theorem mirrorDir_idempotent_witness :
    ∃ evs, mirrorDir oneByte 5 deps workSrc
        ⟨(mirrorDir quiet 5 deps workSrc start).2.fs, []⟩ =
        (.ret none, ⟨(mirrorDir quiet 5 deps workSrc start).2.fs, [] ++ evs⟩) ∧
      ∀ e ∈ evs, (∃ m, e = Event.log m) ∨ ∃ a b, e = Event.mirrorFile a b :=
  mirrorDir_idempotent quiet oneByte 5 deps workSrc start
    (mirrorDir quiet 5 deps workSrc start).2 (by decide) (by decide) (by decide)
    (Prod.ext (by decide) rfl) []

/-- C3, as stated, fails when the source tree lies inside the destination:
the first run of mirroring `/a/b` into `/a` puts `/a/b/f` into the source tree,
and the second run copies it to `/a/f`: it does not skip, and the file system
after it differs from the one after the first run. -/
theorem mirrorDir_second_run_copies :
    Plain nested.fs ["a", "b"] = true ∧ ¬ (["a", "b"] : Path) <+: ["a"] ∧
      (mirrorDir quiet 5 ["a", "b"] ["a"] nested).1 = .ret none ∧
      (mirrorDir quiet 5 ["a", "b"] ["a"] (mirrorDir quiet 5 ["a", "b"] ["a"] nested).2).1 =
        .ret none ∧
      Event.create ["a", "f"] ∈
        (mirrorDir quiet 5 ["a", "b"] ["a"]
          ⟨(mirrorDir quiet 5 ["a", "b"] ["a"] nested).2.fs, []⟩).2.trace ∧
      (mirrorDir quiet 5 ["a", "b"] ["a"] (mirrorDir quiet 5 ["a", "b"] ["a"] nested).2).2.fs ≠
        (mirrorDir quiet 5 ["a", "b"] ["a"] nested).2.fs := by
  decide

/-! ## Fuel -/

theorem mirrorFile_not_outOfFuel (env : Env) (src dst : Path) (w : World) :
    (mirrorFile env src dst w).1 ≠ .outOfFuel := by
  cases hs : osStat w.fs src with
  | error e =>
    unfold mirrorFile
    simp only [World.emit] at hs ⊢
    simp [hs]
  | ok sfi =>
    by_cases hreg : sfi.Mode &&& ModeType = 0
    · cases hm : MirrorPair w.fs src dst with
      | true =>
        obtain ⟨dfi, hd, h1, h2, h3, h4⟩ := (mirrorPair_iff _ _ _ _ hs).1 hm
        rw [mirrorFile_skip env src dst w sfi dfi hs hreg hd h1 h2 h3 h4]
        simp
      | false =>
        have hun := unmodified_eq w.fs src dst sfi hs
        rw [hm] at hun
        generalize hmk : osMkdirAll env (Dir dst) 0o755 (w.emit (.mirrorFile src dst)) = rmk
        obtain ⟨r1, w1⟩ := rmk
        rcases r1 with _ | e1
        · generalize hcr : osCreate env dst w1 = rcr
          obtain ⟨r2, w2⟩ := rcr
          rcases r2 with e2 | df
          · unfold mirrorFile
            simp only [World.emit] at hmk hun ⊢
            simp [hs, hreg, hun, hmk, hcr]
          · generalize hop : osOpen env src w2 = rop
            obtain ⟨r3, w3⟩ := rop
            rcases r3 with e3 | sf
            · unfold mirrorFile
              simp only [World.emit] at hmk hun ⊢
              simp [hs, hreg, hun, hmk, hcr, hop]
            · rw [mirrorFile_tail env src dst w w1 w2 w3 sfi df sf hs hreg hm hmk hcr hop]
              generalize ioCopy env df sf w3 = rc
              obtain ⟨⟨n, err⟩, w4⟩ := rc
              simp only
              generalize fileClose env df w4 = rcl
              obtain ⟨cerr, w5⟩ := rcl
              simp only
              split
              · simp
              · simp
              · generalize osChmod env dst sfi.Mode w5 = rch
                obtain ⟨e6, w6⟩ := rch
                rcases e6 with _ | e6
                · simp
                · simp
        · unfold mirrorFile
          simp only [World.emit] at hmk hun ⊢
          simp [hs, hreg, hun, hmk]
    · unfold mirrorFile
      simp only [World.emit] at hs ⊢
      simp [hs, hreg]

theorem mirrorDirFn_not_outOfFuel (env : Env) (S D path : Path) (r : Except Err FileInfo)
    (w : World) : (mirrorDirFn env S D path r w).1 ≠ .outOfFuel := by
  unfold mirrorDirFn
  split
  · simp
  · split
    · simp
    · split
      · simp
      · exact mirrorFile_not_outOfFuel _ _ _ _

theorem length_le_maxDepth (fs : FS) (q : Path) (n : Node) (h : lookup fs q = some n) :
    q.length ≤ maxDepth fs := by
  induction fs with
  | nil => simp [lookup] at h
  | cons e rest ih =>
    obtain ⟨k, m⟩ := e
    unfold lookup at h
    unfold maxDepth
    split at h
    · rename_i hk
      subst hk
      exact le_max_left _ _
    · exact le_trans (ih h) (le_max_right _ _)

theorem walkNames_fuel (env : Env) (S D rel0 : Path) (fs0 : FS) (k : Nat)
    (hrec : ∀ c info w, WalkInv S D fs0 w.fs →
      osLstat w.fs (S ++ (rel0 ++ [c])) = .ok info →
      (walk (mirrorDirFn env S D) k (S ++ (rel0 ++ [c])) info w).1 ≠ .outOfFuel ∧
        ∀ w1, walk (mirrorDirFn env S D) k (S ++ (rel0 ++ [c])) info w = (.ret none, w1) →
          WalkInv S D fs0 w1.fs)
    (names : List String) (w : World) (hinv : WalkInv S D fs0 w.fs) :
    (walkNames (walk (mirrorDirFn env S D) k) (mirrorDirFn env S D) (S ++ rel0) names w).1 ≠
      .outOfFuel := by
  induction names generalizing w with
  | nil => simp [walkNames]
  | cons c rest ih =>
    have hpath : Join (S ++ rel0) [c] = S ++ (rel0 ++ [c]) := by
      simp [Join, List.append_assoc]
    unfold walkNames
    simp only [hpath]
    cases hls : osLstat w.fs (S ++ (rel0 ++ [c])) with
    | error err => simp [mirrorDirFn]
    | ok info =>
      simp only
      obtain ⟨hne, hinv1⟩ := hrec c info w hinv hls
      split
      · rename_i wa hwa
        exact ih wa (hinv1 wa hwa)
      · exact hne

/-- With more fuel than the longest path is long, the walk of a plain source
tree does not run out of fuel. -/
theorem walk_fuel (env : Env) (S D : Path) (fs0 : FS)
    (hdisj : ¬ S <+: D ∧ ¬ D <+: S)
    (hsrc : ∀ q n, S <+: q → lookup fs0 q = some n → n.isPlain = true)
    (k : Nat) (rel0 : Path) (info : FileInfo) (w : World)
    (hinv : WalkInv S D fs0 w.fs) (hreach : Reaches fs0 S rel0)
    (hls : osLstat w.fs (S ++ rel0) = .ok info)
    (hk : maxDepth fs0 < (S ++ rel0).length + k) :
    (walk (mirrorDirFn env S D) k (S ++ rel0) info w).1 ≠ .outOfFuel := by
  induction k generalizing rel0 info w with
  | zero =>
    exfalso
    obtain ⟨n, hn, _⟩ := osLstat_ok _ _ _ hls
    rw [hinv.1 _ (List.prefix_append _ _)] at hn
    have := length_le_maxDepth fs0 _ n hn
    omega
  | succ k ih =>
    have hS : S <+: S ++ rel0 := List.prefix_append _ _
    obtain ⟨n, hn, hinfo⟩ := osLstat_ok _ _ _ hls
    have hn0 : lookup fs0 (S ++ rel0) = some n := by rw [← hinv.1 _ hS]; exact hn
    have hplain := hsrc _ _ hS hn0
    unfold walk
    cases n with
    | file perm d t =>
      have hd : info.IsDir = false := by rw [hinfo]; exact file_not_isDir _ _ _
      simp only [hd, Bool.not_false, if_true]
      exact mirrorDirFn_not_outOfFuel _ _ _ _ _ _
    | dir perm =>
      have hd : info.IsDir = true := by rw [hinfo]; exact dir_isDir _
      have hfn : mirrorDirFn env S D (S ++ rel0) (.ok info) w = (.ret none, w) := by
        unfold mirrorDirFn
        simp [hd]
      simp only [hd, Bool.not_true, Bool.false_eq_true, if_false, hfn]
      refine walkNames_fuel env S D rel0 fs0 k ?_ _ w hinv
      intro c info1 u hu hl
      have hr := reaches_snoc fs0 S rel0 c perm hreach hn0
      refine ⟨ih (rel0 ++ [c]) info1 u hu hr hl ?_, fun u1 hw =>
        (walk_spec env S D fs0 hdisj hsrc k (rel0 ++ [c]) info1 u u1 hu hr hl hw).1⟩
      simp only [List.length_append, List.length_singleton] at hk ⊢
      omega
    | symlink t => simp [Node.isPlain] at hplain
    | special kind perm => simp [Node.isPlain] at hplain

/-- Under the conditions of the tree mirror theorems, `mirrorDir` with more
fuel than the longest path is long ends by itself: it returns or ends the
process, and does not run out of fuel. -/
theorem mirrorDir_enough_fuel (env : Env) (fuel : Nat) (S D : Path) (w0 : World)
    (hsrc : Plain w0.fs S = true) (hdst : Plain w0.fs D = true)
    (hdisj : ¬ S <+: D ∧ ¬ D <+: S) (hfuel : maxDepth w0.fs < fuel) :
    (mirrorDir env fuel S D w0).1 ≠ .outOfFuel := by
  unfold mirrorDir Walk
  simp only [World.emit]
  cases hls : osLstat w0.fs S with
  | error err => simp [mirrorDirFn]
  | ok info =>
    simp only
    have h := walk_fuel env S D w0.fs hdisj
      (fun q n hq hl => plain_lookup _ S q n hsrc hq hl) fuel [] info
      ⟨w0.fs, w0.trace ++ [.log (copyingMsg S D)]⟩ (walkInv_start S D w0.fs hdst)
      (by
        intro r hr hne
        exact absurd (List.prefix_nil.1 hr) hne)
      (by rw [List.append_nil]; exact hls)
      (by
        rw [List.append_nil]
        omega)
    rw [List.append_nil] at h
    exact h

end Gauge
